import Mathlib

/-!
Verification of the rotated-array ordered-set container (`rotated-array-set`,
`src/lib.rs`).

The Rust code is shallowly embedded: `Vec<T>` becomes `List Int` (the element
type `T : Ord + Copy + Default` is instantiated at `Int`, whose `default` is
`0`), `usize` becomes `Nat`, fallible results (`Result<usize, usize>`) become
`Except Nat Nat`, and panics become `Option.none` results.  Indexing `data[i]`
(which panics when out of bounds in Rust) is modelled with `List.getD _ _ 0`;
all theorems are stated on states where the indices are in bounds, so the
default value is never observable.  `slice::binary_search` is modelled through
its documented contract on sorted slices (the index of an equal element, or
the insertion point); on the sorted slices the code searches this coincides
with the Rust implementation.  The `f64` square root inside
`integer_sum_inverse` is modelled by the exact integer square root `Nat.sqrt`,
keeping the source's correction step.
-/

namespace RotSet

/-- The container (`struct RotatedArraySet`, lib.rs lines 52-57):
backing store `data`, pivot offsets `min_indexes`, cached minima `min_data`. -/
structure RotatedArraySet where
  data : List Int
  min_indexes : List Nat
  min_data : List Int
deriving Repr, DecidableEq

/-- `RotatedArraySet::new` (lib.rs 225). -/
def RotatedArraySet.new : RotatedArraySet := ⟨[], [], []⟩

/-- `integer_sum` (lib.rs 1187-1190): the triangular number `n(n+1)/2`. -/
def integer_sum (n : Nat) : Nat := (n * (n + 1)) / 2

/-- The exact integer square root `⌊√n⌋`, written as a count of the squares
not exceeding `n` so that it evaluates by structural recursion (proved equal
to `Nat.sqrt` below). -/
def floorSqrt (n : Nat) : Nat :=
  (List.range (n + 1)).countP (fun k => decide (k * k ≤ n)) - 1

/-- `integer_sum_inverse` (lib.rs 1192-1203).  The source computes
`(sqrt(8n+1)-1)/2` with `f64` arithmetic and then corrects the candidate by
one; here the square root is the exact integer square root and the correction
step is kept verbatim. -/
def integer_sum_inverse (n : Nat) : Nat :=
  let tmp := (floorSqrt (8 * n + 1) - 1) / 2
  if integer_sum tmp ≤ n then tmp else tmp - 1

/-- `get_subarray_idx_from_array_idx` (lib.rs 1205-1211). -/
def get_subarray_idx_from_array_idx (idx : Nat) : Nat :=
  if idx = 0 then 0 else integer_sum_inverse idx

/-- `get_array_idx_from_subarray_idx` (lib.rs 1213-1219). -/
def get_array_idx_from_subarray_idx (idx : Nat) : Nat :=
  if idx = 0 then 0 else integer_sum idx

/-- `is_last_subarray_full` (lib.rs 1221-1223). -/
def is_last_subarray_full (s : RotatedArraySet) : Bool :=
  s.data.length == get_array_idx_from_subarray_idx s.min_indexes.length

/-- Model of `slice::binary_search` through its contract on a sorted slice:
`ok i` with `l[i] = v` when `v` occurs, otherwise `error i` at the insertion
point (the number of elements smaller than `v`). -/
def binary_search (l : List Int) (value : Int) : Except Nat Nat :=
  let i := l.countP (fun x => decide (x < value))
  if l.get? i = some value then .ok i else .error i

/-- `find_raw_index` (lib.rs 1226-1310): raw index of `value` (`ok`) or its raw
insertion point (`error`). -/
def find_raw_index (s : RotatedArraySet) (value : Int) : Except Nat Nat :=
  if s.data.isEmpty then .error 0
  else
    match binary_search s.min_data value with
    | .ok idx => .ok (get_array_idx_from_subarray_idx idx + s.min_indexes.getD idx 0)
    | .error idx =>
      let subarray_idx :=
        if idx = 0 then 0
        else if idx = s.min_indexes.length ∧ ¬ is_last_subarray_full s then idx - 1
        else
          let prev_max_idx :=
            if s.min_indexes.getD (idx - 1) 0 = 0 then
              get_array_idx_from_subarray_idx idx - 1
            else
              get_array_idx_from_subarray_idx (idx - 1) + s.min_indexes.getD (idx - 1) 0 - 1
          if value ≤ s.data.getD prev_max_idx 0 then idx - 1 else idx
      let subarray_offset := get_array_idx_from_subarray_idx subarray_idx
      if subarray_offset = s.data.length then .error subarray_offset
      else
        let next_subarray_offset :=
          if subarray_idx = s.min_indexes.length - 1 then s.data.length
          else get_array_idx_from_subarray_idx (subarray_idx + 1)
        let subarray := (s.data.drop subarray_offset).take (next_subarray_offset - subarray_offset)
        let pivot_offset := s.min_indexes.getD subarray_idx 0
        let subarray_pivot := subarray_offset + pivot_offset
        let left := subarray.take pivot_offset
        let right := subarray.drop pivot_offset
        match binary_search left value, binary_search right value with
        | .ok i, _ => .ok (subarray_offset + i)
        | .error _, .ok i => .ok (subarray_pivot + i)
        | .error left_idx, .error right_idx =>
          if right_idx = right.length ∧ left ≠ [] then .error (subarray_offset + left_idx)
          else .error (subarray_pivot + right_idx)

/-- `select` (lib.rs 460-478). -/
def select (s : RotatedArraySet) (rank : Nat) : Option Int :=
  if rank ≥ s.data.length then none
  else
    let subarray_idx := get_subarray_idx_from_array_idx rank
    let subarray_start_idx := get_array_idx_from_subarray_idx subarray_idx
    let subarray_len :=
      if subarray_idx = s.min_indexes.length - 1 then s.data.length - subarray_start_idx
      else subarray_idx + 1
    let idx_offset := rank - subarray_start_idx
    let pivot_offset := s.min_indexes.getD subarray_idx 0
    let rotated_offset := (pivot_offset + idx_offset) % subarray_len
    some (s.data.getD (subarray_start_idx + rotated_offset) 0)

/-- `rank` (lib.rs 418-445). -/
def rank (s : RotatedArraySet) (value : Int) : Except Nat Nat :=
  let found : Nat × Bool :=
    match find_raw_index s value with
    | .ok index => (index, true)
    | .error index => (index, false)
  let raw_index := found.1
  if raw_index = s.data.length then .error raw_index
  else
    let subarray_idx := get_subarray_idx_from_array_idx raw_index
    let subarray_start_idx := get_array_idx_from_subarray_idx subarray_idx
    let subarray_len :=
      if subarray_idx = s.min_indexes.length - 1 then s.data.length - subarray_start_idx
      else subarray_idx + 1
    let pivot_idx := subarray_start_idx + s.min_indexes.getD subarray_idx 0
    let logical_index :=
      if raw_index ≥ pivot_idx then subarray_start_idx + raw_index - pivot_idx
      else subarray_start_idx + subarray_len - (pivot_idx - raw_index)
    if found.2 then .ok logical_index else .error logical_index

/-- `get` (lib.rs 400-403). -/
def get (s : RotatedArraySet) (value : Int) : Option Int :=
  match find_raw_index s value with
  | .ok raw_idx => some (s.data.getD raw_idx 0)
  | .error _ => none

/-- `contains` (lib.rs 305-307). -/
def contains (s : RotatedArraySet) (value : Int) : Bool := (get s value).isSome

/-- `slice::copy_within(src_start..src_end, dest)`: copy the range
`[src_start, src_end)` of `l` to positions starting at `dest` (memmove
semantics: all reads are from the original list). -/
def copy_within (l : List Int) (src_start src_end dest : Nat) : List Int :=
  l.mapIdx (fun i x =>
    if dest ≤ i ∧ i < dest + (src_end - src_start) then l.getD (src_start + (i - dest)) 0 else x)

/-- State carried by the propagation loop of `insert` (lib.rs 564-581):
the backing store, the two auxiliary arrays and the carried maximum. -/
structure PropState where
  data : List Int
  mi : List Nat
  md : List Int
  carry : Int
deriving Repr, DecidableEq

/-- The propagation loop of `insert` (lib.rs 564-581), fuel-recursive: the
fuel is initialized to the number of remaining subarrays, which the loop never
exceeds, so the fuel-exhaustion branch is unreachable. -/
def insertLoopFuel : Nat → PropState → Nat → Nat → Bool → PropState
  | 0, st, _, _, _ => st
  | fuel + 1, st, cur, max_subarray_idx, last_subarray_full =>
    if st.mi.length ≤ cur then st
    else if cur = max_subarray_idx ∧ last_subarray_full = false then st
    else
      let pivot_offset := st.mi.getD cur 0
      let max_offset := if pivot_offset = 0 then cur else pivot_offset - 1
      let max_idx := max_offset + get_array_idx_from_subarray_idx cur
      let next_max := st.data.getD max_idx 0
      insertLoopFuel fuel
        ⟨st.data.set max_idx st.carry, st.mi.set cur max_offset, st.md.set cur st.carry,
          next_max⟩
        (cur + 1) max_subarray_idx last_subarray_full

/-- The propagation loop of `insert` (lib.rs 564-581): starting at subarray
`cur`, swap the carried value into each subsequent subarray's maximum slot,
advance the pivot, and carry that subarray's former maximum, stopping at a
non-full final subarray. -/
def insertLoop (st : PropState) (cur max_subarray_idx : Nat) (last_subarray_full : Bool) :
    PropState :=
  insertLoopFuel (st.mi.length - cur) st cur max_subarray_idx last_subarray_full

/-- `insert` (lib.rs 500-597). -/
def insert (s : RotatedArraySet) (value : Int) : Bool × RotatedArraySet :=
  match find_raw_index s value with
  | .ok _ => (false, s)
  | .error insert_idx =>
    let subarray_idx := get_subarray_idx_from_array_idx insert_idx
    let s1 :=
      if subarray_idx = s.min_indexes.length then
        { s with min_indexes := s.min_indexes ++ [0], min_data := s.min_data ++ [(0 : Int)] }
      else s
    let subarray_offset := get_array_idx_from_subarray_idx subarray_idx
    if subarray_idx = s1.min_indexes.length - 1 ∧ ¬ is_last_subarray_full s1 then
      let data1 := s1.data.insertIdx insert_idx value
      (true, { data := data1, min_indexes := s1.min_indexes,
               min_data := s1.min_data.set subarray_idx (data1.getD subarray_offset 0) })
    else
      let next_subarray_offset := get_array_idx_from_subarray_idx (subarray_idx + 1)
      let sub := (s1.data.drop subarray_offset).take (next_subarray_offset - subarray_offset)
      let pivot_offset := s1.min_indexes.getD subarray_idx 0
      let insert_offset := insert_idx - subarray_offset
      let max_offset := if pivot_offset = 0 then sub.length - 1 else pivot_offset - 1
      let prev_max := sub.getD max_offset 0
      let step : List Int × List Nat × List Int :=
        if max_offset < pivot_offset ∧ insert_offset ≥ pivot_offset then
          let sub1 := copy_within sub pivot_offset insert_offset max_offset
          let sub2 := sub1.set (insert_offset - 1) value
          (sub2, s1.min_indexes.set subarray_idx max_offset,
           s1.min_data.set subarray_idx (sub2.getD max_offset 0))
        else
          let sub1 := copy_within sub insert_offset max_offset (insert_offset + 1)
          let sub2 := sub1.set insert_offset value
          (sub2, s1.min_indexes,
           if insert_offset = pivot_offset then s1.min_data.set subarray_idx value
           else s1.min_data)
      let data1 := s1.data.take subarray_offset ++ step.1 ++ s1.data.drop next_subarray_offset
      let mi1 := step.2.1
      let md1 := step.2.2
      let max_subarray_idx := mi1.length - 1
      let last_subarray_full :=
        is_last_subarray_full { data := data1, min_indexes := mi1, min_data := md1 }
      let lp := insertLoop ⟨data1, mi1, md1, prev_max⟩ (subarray_idx + 1) max_subarray_idx
        last_subarray_full
      if last_subarray_full then
        (true, { data := lp.data ++ [lp.carry], min_indexes := lp.mi ++ [0],
                 min_data := lp.md ++ [lp.carry] })
      else
        let max_subarray_offset := get_array_idx_from_subarray_idx max_subarray_idx
        (true, { data := lp.data.insertIdx max_subarray_offset lp.carry, min_indexes := lp.mi,
                 min_data := lp.md.set max_subarray_idx lp.carry })

/-- Extract the payload of either side of a `Result<usize, usize>`; used for
the `expect` in `remove` (lib.rs 641-643), whose failure case is unreachable. -/
def exceptGet : Except Nat Nat → Nat
  | .ok n => n
  | .error n => n

/-- State carried by the easy-exchange loop of `remove` (lib.rs 686-710). -/
structure RemState where
  data : List Int
  mi : List Nat
  md : List Int
  pmo : Nat
deriving Repr, DecidableEq

/-- The easy-exchange loop of `remove` (lib.rs 686-710), fuel-recursive with
fuel initialized to the exact iteration count. -/
def removeLoopFuel : Nat → RemState → Nat → Nat → RemState
  | 0, st, _, _ => st
  | fuel + 1, st, cur, max_subarray_idx =>
    if max_subarray_idx ≤ cur then st
    else
      let cur_subarray_offset := get_array_idx_from_subarray_idx cur
      let pivot_offset := st.mi.getD cur 0
      let prev_max_idx := st.pmo + get_array_idx_from_subarray_idx (cur - 1)
      let data1 := st.data.set prev_max_idx
        (st.data.getD (cur_subarray_offset + pivot_offset) 0)
      let md1 := if cur = 1 then st.md.set 0 (data1.getD 0 0) else st.md
      let new_min_offset := if pivot_offset = cur then 0 else pivot_offset + 1
      removeLoopFuel fuel
        ⟨data1, st.mi.set cur new_min_offset,
         md1.set cur (data1.getD (cur_subarray_offset + new_min_offset) 0), pivot_offset⟩
        (cur + 1) max_subarray_idx

/-- The easy-exchange loop of `remove` (lib.rs 686-710): each subarray from
`cur` up to (not including) `max_subarray_idx` has its minimum pulled out to
fill the predecessor's hole, and its pivot advanced. -/
def removeLoop (st : RemState) (cur max_subarray_idx : Nat) : RemState :=
  removeLoopFuel (max_subarray_idx - cur) st cur max_subarray_idx

/-- `remove` (lib.rs 615-739). -/
def remove (s : RotatedArraySet) (value : Int) : Bool × RotatedArraySet :=
  match find_raw_index s value with
  | .error _ => (false, s)
  | .ok remove_idx0 =>
    let max_subarray_idx := s.min_indexes.length - 1
    let max_subarray_offset := get_array_idx_from_subarray_idx max_subarray_idx
    let subarray_idx := get_subarray_idx_from_array_idx remove_idx0
    let msri0 := if subarray_idx = max_subarray_idx then remove_idx0 else max_subarray_offset
    let norm : RotatedArraySet × Nat × Nat :=
      if is_last_subarray_full s then
        let last_min_offset := s.min_indexes.getD max_subarray_idx 0
        let s1 : RotatedArraySet :=
          { s with
            data := s.data.take max_subarray_offset ++
              (s.data.drop max_subarray_offset).rotate last_min_offset,
            min_indexes := s.min_indexes.set max_subarray_idx 0 }
        if subarray_idx = max_subarray_idx then
          let r := exceptGet (find_raw_index s1 value)
          (s1, r, r)
        else (s1, remove_idx0, msri0)
      else (s, remove_idx0, msri0)
    let s1 := norm.1
    let remove_idx := norm.2.1
    let max_subarray_remove_idx := norm.2.2
    let after : List Int × List Nat × List Int :=
      if subarray_idx < max_subarray_idx then
        let subarray_offset := get_array_idx_from_subarray_idx subarray_idx
        let next_subarray_offset := get_array_idx_from_subarray_idx (subarray_idx + 1)
        let sub := (s1.data.drop subarray_offset).take (next_subarray_offset - subarray_offset)
        let pivot_offset := s1.min_indexes.getD subarray_idx 0
        let remove_offset := remove_idx - subarray_offset
        let max_offset := if pivot_offset = 0 then sub.length - 1 else pivot_offset - 1
        let step : List Int × List Nat × List Int × Nat :=
          if max_offset < pivot_offset ∧ remove_offset ≥ pivot_offset then
            let sub1 := copy_within sub pivot_offset remove_offset (pivot_offset + 1)
            let new_pivot_offset := if pivot_offset = sub.length - 1 then 0 else pivot_offset + 1
            (sub1, s1.min_indexes.set subarray_idx new_pivot_offset,
             s1.min_data.set subarray_idx (sub1.getD new_pivot_offset 0), pivot_offset)
          else
            let sub1 := copy_within sub (remove_offset + 1) (max_offset + 1) remove_offset
            (sub1, s1.min_indexes,
             if remove_offset = pivot_offset then
               s1.min_data.set subarray_idx (sub1.getD pivot_offset 0)
             else s1.min_data,
             max_offset)
        let data2 := s1.data.take subarray_offset ++ step.1 ++ s1.data.drop next_subarray_offset
        let next_subarray_idx := min max_subarray_idx (subarray_idx + 1)
        let lp := removeLoop ⟨data2, step.2.1, step.2.2.1, step.2.2.2⟩ next_subarray_idx
          max_subarray_idx
        let prev_max_idx := lp.pmo + get_array_idx_from_subarray_idx (max_subarray_idx - 1)
        let data3 := lp.data.set prev_max_idx (lp.data.getD max_subarray_offset 0)
        let md3 := if max_subarray_idx = 1 then lp.md.set 0 (data3.getD 0 0) else lp.md
        (data3, lp.mi, md3)
      else (s1.data, s1.min_indexes, s1.min_data)
    let data4 := after.1.eraseIdx max_subarray_remove_idx
    if max_subarray_offset = data4.length then
      (true, { data := data4, min_indexes := after.2.1.dropLast, min_data := after.2.2.dropLast })
    else
      (true, { data := data4, min_indexes := after.2.1,
               min_data := after.2.2.set max_subarray_idx (data4.getD max_subarray_offset 0) })

/-- `init` (lib.rs 1353-1364): sort the backing store and build the auxiliary
arrays (all pivots `0`, cached minima read at the subarray start offsets). -/
def init (s : RotatedArraySet) : RotatedArraySet :=
  if s.data.isEmpty then s
  else
    let data := List.insertionSort (· ≤ ·) s.data
    let last_subarray_idx := get_subarray_idx_from_array_idx (data.length - 1)
    { data := data,
      min_indexes := List.replicate (last_subarray_idx + 1) 0,
      min_data := (List.range (last_subarray_idx + 1)).map
        (fun j => data.getD (get_array_idx_from_subarray_idx j) 0) }

/-- `From<Vec<T>>` (lib.rs 1694-1707) and `FromIterator` (lib.rs 1732-1745):
take the input sequence as the backing store and `init` it. -/
def fromList (l : List Int) : RotatedArraySet := init ⟨l, [], []⟩

/-- The nominal length of subarray `j` as the source computes it (the final
subarray may be truncated). -/
def subarrayLen (s : RotatedArraySet) (j : Nat) : Nat :=
  if j = s.min_indexes.length - 1 then
    s.data.length - get_array_idx_from_subarray_idx j
  else j + 1

/-- The physical window of subarray `j` inside the backing store. -/
def subarraySlice (s : RotatedArraySet) (j : Nat) : List Int :=
  (s.data.drop (get_array_idx_from_subarray_idx j)).take (subarrayLen s j)

/-- The pivot offset of subarray `j`. -/
def pivotOf (s : RotatedArraySet) (j : Nat) : Nat := s.min_indexes.getD j 0

/-- Subarray `j` read cyclically from its pivot: the sorted view of the
rotated subarray.  This is exactly what `Into<Vec<T>>` (lib.rs 1709-1730)
produces for each subarray. -/
def unrot (s : RotatedArraySet) (j : Nat) : List Int :=
  (subarraySlice s j).rotate (pivotOf s j)

/-- The logical contents of the container in ascending order: the
concatenation of the cyclically read subarrays, i.e. the exact output of
`Into<Vec<T>>` (lib.rs 1709-1730). -/
def toList (s : RotatedArraySet) : List Int :=
  ((List.range s.min_indexes.length).map (unrot s)).flatten

/-- Boolean check that a list is strictly ascending (adjacent pairs), used to
give the invariants a decision procedure that evaluates by structural
recursion. -/
def ascChain : List Int → Bool
  | [] => true
  | [_] => true
  | x :: y :: rest => decide (x < y) && ascChain (y :: rest)

/-- The working invariant tying the three arrays together: consistent lengths,
the subarray count matching the store length, pivots inside their subarrays, a
partially filled final subarray unrotated, cached minima synchronized with the
store, and globally strictly ascending logical contents. -/
def Valid (s : RotatedArraySet) : Prop :=
  s.min_data.length = s.min_indexes.length ∧
  (if s.min_indexes.length = 0 then s.data.length = 0
   else get_array_idx_from_subarray_idx (s.min_indexes.length - 1) < s.data.length ∧
     s.data.length ≤ get_array_idx_from_subarray_idx s.min_indexes.length) ∧
  (∀ j, j < s.min_indexes.length → pivotOf s j < subarrayLen s j) ∧
  (s.data.length < get_array_idx_from_subarray_idx s.min_indexes.length →
    pivotOf s (s.min_indexes.length - 1) = 0) ∧
  (∀ j, j < s.min_indexes.length →
    s.min_data.get? j = s.data.get? (get_array_idx_from_subarray_idx j + pivotOf s j)) ∧
  List.Chain' (· < ·) (toList s)

instance (s : RotatedArraySet) : Decidable (Valid s) :=
  decidable_of_iff
    (s.min_data.length = s.min_indexes.length ∧
      (if s.min_indexes.length = 0 then s.data.length = 0
       else get_array_idx_from_subarray_idx (s.min_indexes.length - 1) < s.data.length ∧
         s.data.length ≤ get_array_idx_from_subarray_idx s.min_indexes.length) ∧
      (∀ j, j < s.min_indexes.length → pivotOf s j < subarrayLen s j) ∧
      (s.data.length < get_array_idx_from_subarray_idx s.min_indexes.length →
        pivotOf s (s.min_indexes.length - 1) = 0) ∧
      (∀ j, j < s.min_indexes.length →
        s.min_data.get? j = s.data.get? (get_array_idx_from_subarray_idx j + pivotOf s j)) ∧
      ascChain (toList s) = true)
    (by
      have h : ∀ l : List Int, ascChain l = true ↔ List.Chain' (· < ·) l := by
        intro l
        induction l with
        | nil => simp [ascChain]
        | cons x xs ih =>
          cases xs with
          | nil => simp [ascChain]
          | cons y rest =>
            rw [ascChain, Bool.and_eq_true, decide_eq_true_eq, List.chain'_cons, ih]
      simp only [h]
      exact Iff.rfl)

/-- The §3 invariants as enumerated by the specification: cyclically ascending
subarrays, synchronized cached minima, strictly ascending duplicate-free
minima, unrotated partial final subarray, and subarray lengths summing to the
element count. -/
def InvariantsHold (s : RotatedArraySet) : Prop :=
  (∀ j, j < s.min_indexes.length → List.Chain' (· < ·) (unrot s j)) ∧
  (∀ j, j < s.min_indexes.length →
    s.min_data.get? j = s.data.get? (get_array_idx_from_subarray_idx j + pivotOf s j)) ∧
  List.Chain' (· < ·) s.min_data ∧
  s.min_data.Nodup ∧
  (s.data.length < get_array_idx_from_subarray_idx s.min_indexes.length →
    pivotOf s (s.min_indexes.length - 1) = 0) ∧
  ((List.range s.min_indexes.length).map (subarrayLen s)).sum = s.data.length

instance (s : RotatedArraySet) : Decidable (InvariantsHold s) :=
  decidable_of_iff
    ((∀ j, j < s.min_indexes.length → ascChain (unrot s j) = true) ∧
      (∀ j, j < s.min_indexes.length →
        s.min_data.get? j = s.data.get? (get_array_idx_from_subarray_idx j + pivotOf s j)) ∧
      ascChain s.min_data = true ∧
      s.min_data.Nodup ∧
      (s.data.length < get_array_idx_from_subarray_idx s.min_indexes.length →
        pivotOf s (s.min_indexes.length - 1) = 0) ∧
      ((List.range s.min_indexes.length).map (subarrayLen s)).sum = s.data.length)
    (by
      have h : ∀ l : List Int, ascChain l = true ↔ List.Chain' (· < ·) l := by
        intro l
        induction l with
        | nil => simp [ascChain]
        | cons x xs ih =>
          cases xs with
          | nil => simp [ascChain]
          | cons y rest =>
            rw [ascChain, Bool.and_eq_true, decide_eq_true_eq, List.chain'_cons, ih]
      simp only [h]
      exact Iff.rfl)

/-- `struct Range` (lib.rs 60-97): a container together with an inclusive
start and exclusive end logical index. -/
structure RangeView where
  container : RotatedArraySet
  start_index_inclusive : Nat
  end_index_exclusive : Nat
deriving Repr, DecidableEq

/-- `Range::at` (lib.rs 89-92). -/
def RangeView.at (r : RangeView) (index : Nat) : Option Int :=
  select r.container (index + r.start_index_inclusive)

/-- `Range::len` (lib.rs 94-96). -/
def RangeView.len (r : RangeView) : Nat :=
  r.end_index_exclusive - r.start_index_inclusive

/-- `struct Iter` (lib.rs 106-136): a range with a forward and a backward
cursor. -/
structure Iter where
  range : RangeView
  next_index : Nat
  next_rev_index : Nat
deriving Repr, DecidableEq

/-- `Iter::new` (lib.rs 117-125). -/
def Iter.new (r : RangeView) : Iter :=
  ⟨r, 0, if r.len = 0 then 0 else r.len - 1⟩

/-- `ExactSizeIterator::len` for `Iter` (lib.rs 1505-1512). -/
def Iter.len (it : Iter) : Nat := it.range.len

/-- `Iter::next` (lib.rs 1403-1412); the updated iterator is returned
alongside the yielded element. -/
def Iter.next (it : Iter) : Option Int × Iter :=
  if it.len = 0 ∨ it.next_rev_index < it.next_index then (none, it)
  else (it.range.at it.next_index, { it with next_index := it.next_index + 1 })

/-- `Iter::nth` (lib.rs 1414-1425). -/
def Iter.nth (it : Iter) (n : Nat) : Option Int × Iter :=
  let it1 : Iter := { it with next_index := min (it.next_index + n) it.len }
  if it1.len = 0 ∨ it1.next_rev_index < it1.next_index then (none, it1)
  else (it1.range.at it1.next_index, { it1 with next_index := it1.next_index + 1 })

/-- `Iter::count` (lib.rs 1427-1429). -/
def Iter.count (it : Iter) : Nat := it.len - it.next_index

/-- `Iter::size_hint` (lib.rs 1456-1459). -/
def Iter.size_hint (it : Iter) : Nat × Option Nat :=
  (it.len - it.next_index, some (it.len - it.next_index))

/-- `Iter::next_back` (lib.rs 1466-1482). -/
def Iter.next_back (it : Iter) : Option Int × Iter :=
  if it.len = 0 ∨ it.next_rev_index < it.next_index then (none, it)
  else
    (it.range.at it.next_rev_index,
     if it.next_rev_index = 0 then { it with next_index := it.next_index + 1 }
     else { it with next_rev_index := it.next_rev_index - 1 })

/-- `Iter::nth_back` (lib.rs 1484-1502). -/
def Iter.nth_back (it : Iter) (n : Nat) : Option Int × Iter :=
  let it1 : Iter := { it with next_rev_index := it.next_rev_index - n }
  if it1.len = 0 ∨ it1.next_rev_index < it1.next_index then (none, it1)
  else
    (it1.range.at it1.next_rev_index,
     if it1.next_rev_index = 0 then { it1 with next_index := it1.next_index + 1 }
     else { it1 with next_rev_index := it1.next_rev_index - 1 })

/-- `iter` (lib.rs 984-986). -/
def iter (s : RotatedArraySet) : Iter :=
  Iter.new ⟨s, 0, s.data.length⟩

/-- One of the three `std::ops::Bound` range bounds. -/
inductive Bnd where
  | unbounded
  | included (v : Int)
  | excluded (v : Int)
deriving Repr, DecidableEq

/-- `get_range` (lib.rs 1027-1068) together with the assertions of
`Range::with_bounds` (lib.rs 76-77); every panic is modelled as `none`. -/
def get_range (s : RotatedArraySet) (lo hi : Bnd) : Option RangeView :=
  let panic_excluded_eq : Bool :=
    match lo, hi with
    | .excluded a, .excluded e => a == e
    | _, _ => false
  let panic_inverted : Bool :=
    match lo, hi with
    | .included a, .included e => a > e
    | .included a, .excluded e => a > e
    | .excluded a, .included e => a > e
    | .excluded a, .excluded e => a > e
    | _, _ => false
  if panic_excluded_eq then none
  else if panic_inverted then none
  else
    let start_index_inclusive :=
      match lo with
      | .unbounded => 0
      | .included a =>
        match find_raw_index s a with
        | .ok index => index
        | .error index => index
      | .excluded a =>
        match find_raw_index s a with
        | .ok index => index + 1
        | .error index => index
    let end_index_exclusive :=
      match hi with
      | .unbounded => s.data.length
      | .included e =>
        match find_raw_index s e with
        | .ok index => index + 1
        | .error index => index
      | .excluded e =>
        match find_raw_index s e with
        | .ok index => index
        | .error index => index
    if start_index_inclusive ≤ end_index_exclusive ∧ end_index_exclusive ≤ s.data.length then
      some ⟨s, start_index_inclusive, end_index_exclusive⟩
    else none

/-- `range` (lib.rs 1019-1025). -/
def rangeIter (s : RotatedArraySet) (lo hi : Bnd) : Option Iter :=
  (get_range s lo hi).map Iter.new

/-- `Peekable::peek` over the pure deterministic `Iter`: peeking is exactly
inspecting what `next` would yield, without advancing. -/
def Iter.peek (it : Iter) : Option Int := (Iter.next it).1

/-- `cmp_opt` (lib.rs 1563-1569). -/
def cmp_opt (x y : Option Int) (short long : Ordering) : Ordering :=
  match x, y with
  | none, _ => short
  | _, none => long
  | some x1, some y1 => compare x1 y1

/-- The forward measure of an iterator: an upper bound on the number of
elements it can still yield; every successful `next` or `next_back` strictly
decreases it. -/
def Iter.fmeasure (it : Iter) : Nat := it.next_rev_index + 1 - it.next_index

/-- `struct Union` (lib.rs 200-207): two peekable cursors. -/
structure UnionIter where
  a : Iter
  b : Iter
deriving Repr

/-- `Union::next` (lib.rs 1659-1668). -/
def UnionIter.next (u : UnionIter) : Option Int × UnionIter :=
  match cmp_opt u.a.peek u.b.peek .gt .lt with
  | .lt => let ra := u.a.next; (ra.1, ⟨ra.2, u.b⟩)
  | .eq => let rb := u.b.next; let ra := u.a.next; (ra.1, ⟨ra.2, rb.2⟩)
  | .gt => let rb := u.b.next; (rb.1, ⟨u.a, rb.2⟩)

/-- `union` (lib.rs 1180-1185). -/
def union (s other : RotatedArraySet) : UnionIter :=
  ⟨iter s, iter other⟩

/-- `struct SymmetricDifference` (lib.rs 172-178). -/
structure SymDiffIter where
  a : Iter
  b : Iter
deriving Repr

/-- The loop body of `SymmetricDifference::next`, fuel-recursive: the loop
re-enters only when both cursors yielded (the `.eq` arm), which strictly
shrinks the first cursor's measure, so fuel `a.fmeasure + 1` always
suffices. -/
def SymDiffIter.nextFuel : Nat → SymDiffIter → Option Int × SymDiffIter
  | 0, u => (none, u)
  | fuel + 1, u =>
    match cmp_opt u.a.peek u.b.peek .gt .lt with
    | .lt => let ra := u.a.next; (ra.1, ⟨ra.2, u.b⟩)
    | .eq =>
      let ra := u.a.next
      let rb := u.b.next
      SymDiffIter.nextFuel fuel ⟨ra.2, rb.2⟩
    | .gt => let rb := u.b.next; (rb.1, ⟨u.a, rb.2⟩)

/-- `SymmetricDifference::next` (lib.rs 1605-1616): loop until the two
cursors disagree. -/
def SymDiffIter.next (u : SymDiffIter) : Option Int × SymDiffIter :=
  SymDiffIter.nextFuel (u.a.fmeasure + 1) u

/-- `symmetric_difference` (lib.rs 1117-1125). -/
def symmetric_difference (s other : RotatedArraySet) : SymDiffIter :=
  ⟨iter s, iter other⟩

/-- `struct Intersection` (lib.rs 188-191): the smaller set's iterator plus
the larger set for point lookups. -/
structure IntersectionIter where
  small_iter : Iter
  large_set : RotatedArraySet
deriving Repr

/-- The loop body of `Intersection::next`, fuel-recursive: each re-entry
follows a successful yield of the small cursor, which strictly shrinks its
measure, so fuel `small_iter.fmeasure + 1` always suffices. -/
def IntersectionIter.nextFuel : Nat → IntersectionIter → Option Int × IntersectionIter
  | 0, u => (none, u)
  | fuel + 1, u =>
    match u.small_iter.next with
    | (none, it2) => (none, ⟨it2, u.large_set⟩)
    | (some v, it2) =>
      if contains u.large_set v then (some v, ⟨it2, u.large_set⟩)
      else IntersectionIter.nextFuel fuel ⟨it2, u.large_set⟩

/-- `Intersection::next` (lib.rs 1631-1643): advance the small cursor until a
member of the large set appears. -/
def IntersectionIter.next (u : IntersectionIter) : Option Int × IntersectionIter :=
  IntersectionIter.nextFuel (u.small_iter.fmeasure + 1) u

/-- `intersection` (lib.rs 1147-1158): the smaller set supplies the cursor. -/
def intersection (s other : RotatedArraySet) : IntersectionIter :=
  if s.data.length ≤ other.data.length then ⟨iter s, other⟩
  else ⟨iter other, s⟩

/-- `struct Difference` (lib.rs 159-162). -/
structure DifferenceIter where
  self_iter : Iter
  other_set : RotatedArraySet
deriving Repr

/-- The loop body of `Difference::next`, fuel-recursive: each re-entry
follows a successful yield of the own cursor, which strictly shrinks its
measure, so fuel `self_iter.fmeasure + 1` always suffices. -/
def DifferenceIter.nextFuel : Nat → DifferenceIter → Option Int × DifferenceIter
  | 0, u => (none, u)
  | fuel + 1, u =>
    match u.self_iter.next with
    | (none, it2) => (none, ⟨it2, u.other_set⟩)
    | (some v, it2) =>
      if contains u.other_set v then DifferenceIter.nextFuel fuel ⟨it2, u.other_set⟩
      else (some v, ⟨it2, u.other_set⟩)

/-- `Difference::next` (lib.rs 1577-1589): advance until a non-member of the
other set appears. -/
def DifferenceIter.next (u : DifferenceIter) : Option Int × DifferenceIter :=
  DifferenceIter.nextFuel (u.self_iter.fmeasure + 1) u

/-- `difference` (lib.rs 1090-1095). -/
def difference (s other : RotatedArraySet) : DifferenceIter :=
  ⟨iter s, other⟩

/-- Exhaust an iterator through `next` with explicit fuel; fuel equal to the
forward measure is always enough, since every yield strictly shrinks it. -/
def Iter.consumeFuel : Nat → Iter → List Int
  | 0, _ => []
  | fuel + 1, it =>
    match it.next with
    | (none, _) => []
    | (some v, it2) => v :: Iter.consumeFuel fuel it2

/-- Exhaust an iterator through `next`, collecting the yields. -/
def Iter.consume (it : Iter) : List Int :=
  Iter.consumeFuel it.fmeasure it

/-- Exhaust an iterator through `next_back` with explicit fuel. -/
def Iter.consumeBackFuel : Nat → Iter → List Int
  | 0, _ => []
  | fuel + 1, it =>
    match it.next_back with
    | (none, _) => []
    | (some v, it2) => v :: Iter.consumeBackFuel fuel it2

/-- Exhaust an iterator through `next_back`, collecting the yields. -/
def Iter.consumeBack (it : Iter) : List Int :=
  Iter.consumeBackFuel it.fmeasure it

/-- Exhaust a union iterator through `next` with explicit fuel; every
successful `next` strictly shrinks the combined forward measure, so fuel equal
to the combined measure is always enough (proved below as
`UnionIter.consume_exhausts`). -/
def UnionIter.consumeFuel : Nat → UnionIter → List Int
  | 0, _ => []
  | fuel + 1, u =>
    match u.next with
    | (none, _) => []
    | (some v, u2) => v :: UnionIter.consumeFuel fuel u2

/-- Exhaust a union iterator. -/
def UnionIter.consume (u : UnionIter) : List Int :=
  UnionIter.consumeFuel (u.a.fmeasure + u.b.fmeasure) u

/-- Exhaust a symmetric-difference iterator through `next` with explicit
fuel. -/
def SymDiffIter.consumeFuel : Nat → SymDiffIter → List Int
  | 0, _ => []
  | fuel + 1, u =>
    match u.next with
    | (none, _) => []
    | (some v, u2) => v :: SymDiffIter.consumeFuel fuel u2

/-- Exhaust a symmetric-difference iterator. -/
def SymDiffIter.consume (u : SymDiffIter) : List Int :=
  SymDiffIter.consumeFuel (u.a.fmeasure + u.b.fmeasure) u

/-- Exhaust an intersection iterator through `next` with explicit fuel. -/
def IntersectionIter.consumeFuel : Nat → IntersectionIter → List Int
  | 0, _ => []
  | fuel + 1, u =>
    match u.next with
    | (none, _) => []
    | (some v, u2) => v :: IntersectionIter.consumeFuel fuel u2

/-- Exhaust an intersection iterator. -/
def IntersectionIter.consume (u : IntersectionIter) : List Int :=
  IntersectionIter.consumeFuel u.small_iter.fmeasure u

/-- Exhaust a difference iterator through `next` with explicit fuel. -/
def DifferenceIter.consumeFuel : Nat → DifferenceIter → List Int
  | 0, _ => []
  | fuel + 1, u =>
    match u.next with
    | (none, _) => []
    | (some v, u2) => v :: DifferenceIter.consumeFuel fuel u2

/-- Exhaust a difference iterator. -/
def DifferenceIter.consume (u : DifferenceIter) : List Int :=
  DifferenceIter.consumeFuel u.self_iter.fmeasure u

/-- The physical position inside the backing store that holds the element of
logical rank `i` (the rotated-offset computation shared by `select` and
`rank`). -/
def rawOf (s : RotatedArraySet) (i : Nat) : Nat :=
  let j := get_subarray_idx_from_array_idx i
  get_array_idx_from_subarray_idx j +
    (pivotOf s j + (i - get_array_idx_from_subarray_idx j)) % subarrayLen s j

/-- The raw index that `find_raw_index` reports as the insertion point of an
absent value: the end of the store when the value exceeds every element,
otherwise the physical position holding the logical insertion rank. -/
def errOf (s : RotatedArraySet) (v : Int) : Nat :=
  let r := (toList s).countP (fun x => decide (x < v))
  if r = s.data.length then s.data.length else rawOf s r

/-- A single step taken on a double-ended iterator. -/
inductive IterOp where
  | fwd
  | bwd
deriving Repr, DecidableEq

/-- Run a sequence of `next` / `next_back` calls, collecting every returned
option and the final iterator state. -/
def runIter (it : Iter) : List IterOp → List (Option Int) × Iter
  | [] => ([], it)
  | op :: ops =>
    let r := match op with
      | .fwd => it.next
      | .bwd => it.next_back
    let rest := runIter r.2 ops
    (r.1 :: rest.1, rest.2)

/-- Fuel-bounded full run of a union iterator, also returning the state in
which `next` first reported `none`. -/
def UnionIter.runFuel : Nat → UnionIter → List Int × UnionIter
  | 0, u => ([], u)
  | fuel + 1, u =>
    match u.next with
    | (none, _) => ([], u)
    | (some v, u2) =>
      let r := UnionIter.runFuel fuel u2
      (v :: r.1, r.2)

/-- Full run of a union iterator: the yields and the exhausted state. -/
def UnionIter.run (u : UnionIter) : List Int × UnionIter :=
  UnionIter.runFuel (u.a.fmeasure + u.b.fmeasure) u

/-- Fuel-bounded full run of a symmetric-difference iterator. -/
def SymDiffIter.runFuel : Nat → SymDiffIter → List Int × SymDiffIter
  | 0, u => ([], u)
  | fuel + 1, u =>
    match u.next with
    | (none, _) => ([], u)
    | (some v, u2) =>
      let r := SymDiffIter.runFuel fuel u2
      (v :: r.1, r.2)

/-- Full run of a symmetric-difference iterator. -/
def SymDiffIter.run (u : SymDiffIter) : List Int × SymDiffIter :=
  SymDiffIter.runFuel (u.a.fmeasure + u.b.fmeasure) u

/-- Fuel-bounded full run of an intersection iterator. -/
def IntersectionIter.runFuel : Nat → IntersectionIter → List Int × IntersectionIter
  | 0, u => ([], u)
  | fuel + 1, u =>
    match u.next with
    | (none, _) => ([], u)
    | (some v, u2) =>
      let r := IntersectionIter.runFuel fuel u2
      (v :: r.1, r.2)

/-- Full run of an intersection iterator. -/
def IntersectionIter.run (u : IntersectionIter) : List Int × IntersectionIter :=
  IntersectionIter.runFuel u.small_iter.fmeasure u

/-- Fuel-bounded full run of a difference iterator. -/
def DifferenceIter.runFuel : Nat → DifferenceIter → List Int × DifferenceIter
  | 0, u => ([], u)
  | fuel + 1, u =>
    match u.next with
    | (none, _) => ([], u)
    | (some v, u2) =>
      let r := DifferenceIter.runFuel fuel u2
      (v :: r.1, r.2)

/-- Full run of a difference iterator. -/
def DifferenceIter.run (u : DifferenceIter) : List Int × DifferenceIter :=
  DifferenceIter.runFuel u.self_iter.fmeasure u

/-- A single mutating operation on the container. -/
inductive Op where
  | ins (v : Int)
  | del (v : Int)
deriving Repr, DecidableEq

/-- Apply one operation, discarding the boolean result. -/
def applyOp (s : RotatedArraySet) : Op → RotatedArraySet
  | .ins v => (insert s v).2
  | .del v => (remove s v).2

/-- Apply a sequence of operations to the initially empty container. -/
def applyOps (ops : List Op) : RotatedArraySet :=
  ops.foldl applyOp RotatedArraySet.new

/-- Postcondition of the carry-propagation loop of `insert`, relating the
state `st` at loop counter `cur` to the final state `lp`: subarrays below
`cur` and from `stop` on are untouched, each processed subarray `j` holds the
window of the target list `M` at the triangular offsets rotated to its new
pivot, and the final carry is the element of `M` displaced past `stop`. -/
def InsLoopPost (M : List Int) (st lp : PropState) (cur k stop : Nat) : Prop :=
  lp.mi.length = k ∧ lp.md.length = k ∧ lp.data.length = st.data.length ∧
  (∀ i, i < integer_sum cur → lp.data.get? i = st.data.get? i) ∧
  (∀ i, integer_sum stop ≤ i → lp.data.get? i = st.data.get? i) ∧
  (∀ j, j < cur → lp.mi.get? j = st.mi.get? j ∧ lp.md.get? j = st.md.get? j) ∧
  (∀ j, stop ≤ j → j < k → lp.mi.get? j = st.mi.get? j ∧ lp.md.get? j = st.md.get? j) ∧
  (∀ j, cur ≤ j → j < stop →
    lp.mi.get? j = some (if st.mi.getD j 0 = 0 then j else st.mi.getD j 0 - 1) ∧
    lp.md.get? j = M.get? (integer_sum j) ∧
    ∀ q, q < j + 1 →
      lp.data.get? (integer_sum j +
        ((if st.mi.getD j 0 = 0 then j else st.mi.getD j 0 - 1) + q) % (j + 1)) =
        M.get? (integer_sum j + q)) ∧
  some lp.carry = M.get? (integer_sum stop)

/-! ### Triangular-number arithmetic -/

theorem integer_sum_zero : integer_sum 0 = 0 := rfl

theorem two_mul_integer_sum (n : Nat) : 2 * integer_sum n = n * (n + 1) := by
  have h : 2 ∣ n * (n + 1) := (Nat.even_mul_succ_self n).two_dvd
  unfold integer_sum
  exact Nat.mul_div_cancel' h

theorem integer_sum_succ (n : Nat) : integer_sum (n + 1) = integer_sum n + (n + 1) := by
  have a := two_mul_integer_sum n
  have b := two_mul_integer_sum (n + 1)
  have c : (n + 1) * (n + 1 + 1) = n * (n + 1) + 2 * (n + 1) := by ring
  omega

theorem integer_sum_strictMono : StrictMono integer_sum :=
  strictMono_nat_of_lt_succ (fun n => by rw [integer_sum_succ]; omega)

theorem integer_sum_mono {j k : Nat} (h : j ≤ k) : integer_sum j ≤ integer_sum k :=
  integer_sum_strictMono.monotone h

theorem range_countP_le (m s : Nat) :
    (List.range m).countP (fun k => decide (k ≤ s)) = min m (s + 1) := by
  induction m with
  | zero => simp
  | succ m ih =>
    rw [List.range_succ, List.countP_append, ih]
    by_cases h : m ≤ s
    · simp [h]
      omega
    · simp [h]
      omega

theorem floorSqrt_eq (n : Nat) : floorSqrt n = Nat.sqrt n := by
  unfold floorSqrt
  have h1 : (List.range (n + 1)).countP (fun k => decide (k * k ≤ n)) =
      (List.range (n + 1)).countP (fun k => decide (k ≤ Nat.sqrt n)) := by
    apply List.countP_congr
    intro k _
    simp only [decide_eq_true_eq]
    rw [← pow_two, Nat.le_sqrt']
  rw [h1, range_countP_le]
  have h2 : Nat.sqrt n ≤ n := Nat.sqrt_le_self n
  omega

theorem integer_sum_inverse_spec (n : Nat) :
    integer_sum (integer_sum_inverse n) ≤ n ∧ n < integer_sum (integer_sum_inverse n + 1) := by
  have hs1 : Nat.sqrt (8 * n + 1) * Nat.sqrt (8 * n + 1) ≤ 8 * n + 1 := by
    have := Nat.sqrt_le' (8 * n + 1)
    simpa [pow_two] using this
  have hs2 : 8 * n + 1 < (Nat.sqrt (8 * n + 1) + 1) * (Nat.sqrt (8 * n + 1) + 1) := by
    have := Nat.lt_succ_sqrt' (8 * n + 1)
    simpa [pow_two, Nat.succ_eq_add_one] using this
  have hs0 : 1 ≤ Nat.sqrt (8 * n + 1) := by
    rcases Nat.eq_zero_or_pos (Nat.sqrt (8 * n + 1)) with h0 | h1
    · rw [h0] at hs2; omega
    · exact h1
  set s := Nat.sqrt (8 * n + 1) with hsdef
  set t := (s - 1) / 2 with htdef
  have hts : 2 * t + 1 ≤ s ∧ s ≤ 2 * t + 2 := by omega
  have hlow : t * (t + 1) ≤ 2 * n := by
    have h1 : (2 * t + 1) * (2 * t + 1) ≤ s * s :=
      Nat.mul_le_mul hts.1 hts.1
    have h2 : (2 * t + 1) * (2 * t + 1) = 4 * (t * (t + 1)) + 1 := by ring
    omega
  have hhigh : 2 * n < (t + 1) * (t + 2) := by
    have h1 : (s + 1) * (s + 1) ≤ (2 * t + 3) * (2 * t + 3) :=
      Nat.mul_le_mul (by omega) (by omega)
    have h2 : (2 * t + 3) * (2 * t + 3) = 4 * ((t + 1) * (t + 2)) + 1 := by ring
    omega
  have hst := two_mul_integer_sum t
  have hst1 := two_mul_integer_sum (t + 1)
  have hsum_le : integer_sum t ≤ n := by omega
  have hlt : n < integer_sum (t + 1) := by
    have : (t + 1) * (t + 1 + 1) = (t + 1) * (t + 2) := by ring
    omega
  have : integer_sum_inverse n = t := by
    unfold integer_sum_inverse
    rw [floorSqrt_eq, ← hsdef, ← htdef, if_pos hsum_le]
  rw [this]
  exact ⟨hsum_le, hlt⟩

theorem integer_sum_inverse_eq {n i : Nat} (h1 : integer_sum i ≤ n)
    (h2 : n < integer_sum (i + 1)) : integer_sum_inverse n = i := by
  have hs := integer_sum_inverse_spec n
  by_contra hne
  rcases Nat.lt_or_ge (integer_sum_inverse n) i with hlt | hge
  · have : integer_sum (integer_sum_inverse n + 1) ≤ integer_sum i :=
      integer_sum_mono hlt
    omega
  · have hgt : i < integer_sum_inverse n := by omega
    have : integer_sum (i + 1) ≤ integer_sum (integer_sum_inverse n) :=
      integer_sum_mono hgt
    omega

theorem arr_eq_sum (j : Nat) : get_array_idx_from_subarray_idx j = integer_sum j := by
  unfold get_array_idx_from_subarray_idx
  split
  · simp_all [integer_sum_zero]
  · rfl

theorem sub_eq_inv (idx : Nat) : get_subarray_idx_from_array_idx idx = integer_sum_inverse idx := by
  unfold get_subarray_idx_from_array_idx
  split
  · simp_all
    decide
  · rfl

theorem get_sub_spec (idx : Nat) :
    integer_sum (get_subarray_idx_from_array_idx idx) ≤ idx ∧
      idx < integer_sum (get_subarray_idx_from_array_idx idx + 1) := by
  rw [sub_eq_inv]
  exact integer_sum_inverse_spec idx

theorem get_sub_eq {idx j : Nat} (h1 : integer_sum j ≤ idx) (h2 : idx < integer_sum (j + 1)) :
    get_subarray_idx_from_array_idx idx = j := by
  rw [sub_eq_inv]
  exact integer_sum_inverse_eq h1 h2

/-! ### Structural lemmas about valid containers -/

theorem valid_md_len {s : RotatedArraySet} (hV : Valid s) :
    s.min_data.length = s.min_indexes.length := hV.1

theorem valid_n_zero {s : RotatedArraySet} (hV : Valid s) (h : s.min_indexes.length = 0) :
    s.data.length = 0 := by
  have h2 := hV.2.1
  rw [if_pos h] at h2
  exact h2

theorem valid_n_bounds {s : RotatedArraySet} (hV : Valid s) (h : s.min_indexes.length ≠ 0) :
    integer_sum (s.min_indexes.length - 1) < s.data.length ∧
      s.data.length ≤ integer_sum s.min_indexes.length := by
  have h2 := hV.2.1
  rw [if_neg h, arr_eq_sum, arr_eq_sum] at h2
  exact h2

theorem valid_pivot_lt {s : RotatedArraySet} (hV : Valid s) {j : Nat}
    (hj : j < s.min_indexes.length) : pivotOf s j < subarrayLen s j := hV.2.2.1 j hj

theorem valid_partial_pivot {s : RotatedArraySet} (hV : Valid s)
    (h : s.data.length < integer_sum s.min_indexes.length) :
    pivotOf s (s.min_indexes.length - 1) = 0 := by
  exact hV.2.2.2.1 (by rw [arr_eq_sum]; exact h)

theorem valid_md_get {s : RotatedArraySet} (hV : Valid s) {j : Nat}
    (hj : j < s.min_indexes.length) :
    s.min_data.get? j = s.data.get? (integer_sum j + pivotOf s j) := by
  have := hV.2.2.2.2.1 j hj
  rwa [arr_eq_sum] at this

theorem valid_sorted {s : RotatedArraySet} (hV : Valid s) :
    List.Chain' (· < ·) (toList s) := hV.2.2.2.2.2

theorem subarray_window {s : RotatedArraySet} (hV : Valid s) {j : Nat}
    (hj : j < s.min_indexes.length) :
    0 < subarrayLen s j ∧ integer_sum j + subarrayLen s j ≤ s.data.length ∧
      subarrayLen s j ≤ j + 1 := by
  have hk : s.min_indexes.length ≠ 0 := by omega
  have hb := valid_n_bounds hV hk
  unfold subarrayLen
  rw [arr_eq_sum]
  split
  · rename_i hlast
    subst hlast
    have hsucc := integer_sum_succ (s.min_indexes.length - 1)
    have : s.min_indexes.length - 1 + 1 = s.min_indexes.length := by omega
    rw [this] at hsucc
    omega
  · rename_i hnotlast
    have hj1 : j + 1 ≤ s.min_indexes.length - 1 := by omega
    have hmono : integer_sum (j + 1) ≤ integer_sum (s.min_indexes.length - 1) :=
      integer_sum_mono hj1
    have hsucc := integer_sum_succ j
    omega

theorem subarraySlice_length {s : RotatedArraySet} (hV : Valid s) {j : Nat}
    (hj : j < s.min_indexes.length) :
    (subarraySlice s j).length = subarrayLen s j := by
  have hw := subarray_window hV hj
  unfold subarraySlice
  rw [List.length_take, List.length_drop, arr_eq_sum]
  omega

theorem subarraySlice_get? {s : RotatedArraySet} (hV : Valid s) {j : Nat}
    (hj : j < s.min_indexes.length) {r : Nat} (hr : r < subarrayLen s j) :
    (subarraySlice s j).get? r = s.data.get? (integer_sum j + r) := by
  unfold subarraySlice
  rw [arr_eq_sum, List.get?_take hr, List.get?_drop]

theorem unrot_length {s : RotatedArraySet} (hV : Valid s) {j : Nat}
    (hj : j < s.min_indexes.length) :
    (unrot s j).length = subarrayLen s j := by
  unfold unrot
  rw [List.length_rotate, subarraySlice_length hV hj]

theorem unrot_get? {s : RotatedArraySet} (hV : Valid s) {j : Nat}
    (hj : j < s.min_indexes.length) {q : Nat} (hq : q < subarrayLen s j) :
    (unrot s j).get? q =
      s.data.get? (integer_sum j + (pivotOf s j + q) % subarrayLen s j) := by
  have hlen := subarraySlice_length hV hj
  have hq2 : q < (unrot s j).length := by rw [unrot_length hV hj]; exact hq
  have hq3 : q < ((subarraySlice s j).rotate (pivotOf s j)).length := hq2
  unfold unrot
  rw [List.get?_eq_get hq3, List.get_rotate]
  have hmod : (q + pivotOf s j) % (subarraySlice s j).length =
      (pivotOf s j + q) % subarrayLen s j := by
    rw [hlen, Nat.add_comm]
  have hlt : (pivotOf s j + q) % subarrayLen s j < subarrayLen s j :=
    Nat.mod_lt _ (by have := subarray_window hV hj; omega)
  rw [← subarraySlice_get? hV hj hlt]
  rw [List.get?_eq_get (by omega : (pivotOf s j + q) % subarrayLen s j <
    (subarraySlice s j).length)]
  exact congrArg some (congrArg (subarraySlice s j).get (Fin.ext hmod))

theorem flatten_range_get? {α : Type} (f : Nat → List α) {k j : Nat} (hj : j < k) {q : Nat}
    (hq : q < (f j).length) :
    (((List.range k).map f).flatten).get? ((((List.range j).map f).flatten).length + q) =
      (f j).get? q := by
  obtain ⟨m, rfl⟩ : ∃ m, k = j + 1 + m := ⟨k - (j + 1), by omega⟩
  rw [List.range_add, List.map_append, List.flatten_append, List.range_succ,
    List.map_append, List.flatten_append]
  simp only [List.map_cons, List.map_nil, List.flatten_cons, List.flatten_nil,
    List.append_nil]
  rw [List.append_assoc,
    List.get?_append_right (Nat.le_add_right _ _), Nat.add_sub_cancel_left,
    List.get?_append hq]

theorem toList_prefix_length {s : RotatedArraySet} (hV : Valid s) :
    ∀ j, j ≤ s.min_indexes.length →
      (((List.range j).map (unrot s)).flatten).length = min (integer_sum j) s.data.length := by
  intro j
  induction j with
  | zero => intro _; simp [integer_sum_zero]
  | succ j ih =>
    intro hj1
    have hj : j < s.min_indexes.length := by omega
    rw [List.range_succ, List.map_append, List.flatten_append, List.length_append,
      ih (by omega)]
    simp only [List.map_cons, List.map_nil, List.flatten_cons, List.flatten_nil,
      List.append_nil]
    rw [unrot_length hV hj]
    have hw := subarray_window hV hj
    have hsucc := integer_sum_succ j
    have hk : s.min_indexes.length ≠ 0 := by omega
    have hb := valid_n_bounds hV hk
    rcases Nat.lt_or_ge j (s.min_indexes.length - 1) with hcase | hcase
    · have hlen : subarrayLen s j = j + 1 := by
        unfold subarrayLen
        rw [if_neg (by omega)]
      have hmono : integer_sum (j + 1) ≤ integer_sum (s.min_indexes.length - 1) :=
        integer_sum_mono (by omega)
      omega
    · have hjeq : j = s.min_indexes.length - 1 := by omega
      have hlen : subarrayLen s j = s.data.length - integer_sum j := by
        unfold subarrayLen
        rw [if_pos hjeq, arr_eq_sum]
      omega

theorem toList_length {s : RotatedArraySet} (hV : Valid s) :
    (toList s).length = s.data.length := by
  have hp := toList_prefix_length hV s.min_indexes.length le_rfl
  have hle : s.data.length ≤ integer_sum s.min_indexes.length := by
    rcases Nat.eq_zero_or_pos s.min_indexes.length with h0 | hpos
    · have hn := valid_n_zero hV h0
      omega
    · exact (valid_n_bounds hV (by omega)).2
  unfold toList
  omega

theorem toList_get? {s : RotatedArraySet} (hV : Valid s) {j : Nat}
    (hj : j < s.min_indexes.length) {q : Nat} (hq : q < subarrayLen s j) :
    (toList s).get? (integer_sum j + q) = (unrot s j).get? q := by
  have hpre := toList_prefix_length hV j (le_of_lt hj)
  have hmin : min (integer_sum j) s.data.length = integer_sum j := by
    have hk : s.min_indexes.length ≠ 0 := by omega
    have hb := valid_n_bounds hV hk
    have := integer_sum_mono (show j ≤ s.min_indexes.length - 1 by omega)
    omega
  have hq2 : q < (unrot s j).length := by rw [unrot_length hV hj]; exact hq
  have hfl := flatten_range_get? (unrot s) hj hq2
  unfold toList
  rw [hpre, hmin] at hfl
  exact hfl

theorem owner_lt {s : RotatedArraySet} (hV : Valid s) {i : Nat} (hi : i < s.data.length) :
    get_subarray_idx_from_array_idx i < s.min_indexes.length ∧
      integer_sum (get_subarray_idx_from_array_idx i) ≤ i ∧
      i - integer_sum (get_subarray_idx_from_array_idx i) <
        subarrayLen s (get_subarray_idx_from_array_idx i) := by
  have hs := get_sub_spec i
  have hk : s.min_indexes.length ≠ 0 := by
    intro h0
    have := valid_n_zero hV h0
    omega
  have hb := valid_n_bounds hV hk
  have hjk : get_subarray_idx_from_array_idx i < s.min_indexes.length := by
    by_contra hge
    push_neg at hge
    have := integer_sum_mono hge
    omega
  refine ⟨hjk, hs.1, ?_⟩
  unfold subarrayLen
  split
  · rw [arr_eq_sum]
    omega
  · have := integer_sum_succ (get_subarray_idx_from_array_idx i)
    omega

theorem rawOf_eq (s : RotatedArraySet) (i : Nat) :
    rawOf s i = integer_sum (get_subarray_idx_from_array_idx i) +
      (pivotOf s (get_subarray_idx_from_array_idx i) +
        (i - integer_sum (get_subarray_idx_from_array_idx i))) %
          subarrayLen s (get_subarray_idx_from_array_idx i) := by
  simp only [rawOf, arr_eq_sum]

theorem toList_get?_eq_data {s : RotatedArraySet} (hV : Valid s) {i : Nat}
    (hi : i < s.data.length) :
    (toList s).get? i = s.data.get? (rawOf s i) := by
  obtain ⟨hjk, hle, hq⟩ := owner_lt hV hi
  have hieq : integer_sum (get_subarray_idx_from_array_idx i) +
      (i - integer_sum (get_subarray_idx_from_array_idx i)) = i := by omega
  have hstep := toList_get? hV hjk hq
  rw [hieq] at hstep
  rw [hstep, unrot_get? hV hjk hq, rawOf_eq]

theorem rawOf_range {s : RotatedArraySet} (hV : Valid s) {i : Nat} (hi : i < s.data.length) :
    integer_sum (get_subarray_idx_from_array_idx i) ≤ rawOf s i ∧ rawOf s i < s.data.length := by
  obtain ⟨hjk, hle, hq⟩ := owner_lt hV hi
  have hw := subarray_window hV hjk
  have hmod : (pivotOf s (get_subarray_idx_from_array_idx i) +
      (i - integer_sum (get_subarray_idx_from_array_idx i))) %
        subarrayLen s (get_subarray_idx_from_array_idx i) <
      subarrayLen s (get_subarray_idx_from_array_idx i) := Nat.mod_lt _ (by omega)
  rw [rawOf_eq]
  omega

theorem select_spec {s : RotatedArraySet} (hV : Valid s) {i : Nat} (hi : i < s.data.length) :
    select s i = (toList s).get? i := by
  have hlt := (rawOf_range hV hi).2
  have hdg : s.data.get? (rawOf s i) = some (s.data.getD (rawOf s i) 0) := by
    rw [List.getD_eq_get?]
    cases h : s.data.get? (rawOf s i) with
    | none =>
      rw [List.get?_eq_none] at h
      omega
    | some x => rfl
  unfold select
  rw [if_neg (by omega)]
  change some (s.data.getD (rawOf s i) 0) = _
  rw [toList_get?_eq_data hV hi, hdg]

theorem select_none {s : RotatedArraySet} {i : Nat} (hi : s.data.length ≤ i) :
    select s i = none := by
  unfold select
  rw [if_pos (by omega)]

theorem toList_pairwise {s : RotatedArraySet} (hV : Valid s) :
    (toList s).Pairwise (· < ·) :=
  List.chain'_iff_pairwise.mp (valid_sorted hV)

theorem toList_nodup {s : RotatedArraySet} (hV : Valid s) : (toList s).Nodup :=
  (toList_pairwise hV).imp (fun h => ne_of_lt h)

theorem sorted_get?_lt {l : List Int} (hp : l.Pairwise (· < ·)) {i1 i2 : Nat} {v1 v2 : Int}
    (h1 : l.get? i1 = some v1) (h2 : l.get? i2 = some v2) (hlt : i1 < i2) : v1 < v2 := by
  rw [List.pairwise_iff_get] at hp
  have hl1 : i1 < l.length := by
    by_contra hge
    rw [List.get?_eq_none.mpr (by omega)] at h1
    exact Option.noConfusion h1
  have hl2 : i2 < l.length := by
    by_contra hge
    rw [List.get?_eq_none.mpr (by omega)] at h2
    exact Option.noConfusion h2
  have := hp ⟨i1, hl1⟩ ⟨i2, hl2⟩ hlt
  rw [List.get?_eq_get hl1] at h1
  rw [List.get?_eq_get hl2] at h2
  rw [Option.some_inj.mp h1] at this
  rw [Option.some_inj.mp h2] at this
  exact this

theorem md_entry {s : RotatedArraySet} (hV : Valid s) {j : Nat}
    (hj : j < s.min_indexes.length) :
    s.min_data.get? j = (toList s).get? (integer_sum j) := by
  have h0 : 0 < subarrayLen s j := (subarray_window hV hj).1
  have hp : pivotOf s j < subarrayLen s j := valid_pivot_lt hV hj
  have hstep := toList_get? hV hj h0
  rw [Nat.add_zero] at hstep
  rw [hstep, unrot_get? hV hj h0, valid_md_get hV hj]
  rw [Nat.add_zero, Nat.mod_eq_of_lt hp]

/-! ### Counting below a value in a sorted list -/

theorem countP_eq_of_iff {l : List Int} {P : Int → Bool} {i : Nat} (hi : i ≤ l.length)
    (h : ∀ m (hm : m < l.length), (P (l.get ⟨m, hm⟩) = true ↔ m < i)) :
    l.countP P = i := by
  induction l generalizing i with
  | nil =>
    simp at hi
    simp [hi]
  | cons x xs ih =>
    rw [List.countP_cons]
    rcases Nat.eq_zero_or_pos i with h0 | hpos
    · subst h0
      have hx : ¬ P x = true := by
        intro hPx
        have := (h 0 (by simp)).mp (by simpa using hPx)
        omega
      rw [if_neg hx, Nat.add_zero]
      apply ih (by omega)
      intro m hm
      constructor
      · intro hPm
        have := (h (m + 1) (by simpa using Nat.succ_lt_succ hm)).mp (by simpa using hPm)
        omega
      · omega
    · obtain ⟨i', rfl⟩ : ∃ i', i = i' + 1 := ⟨i - 1, by omega⟩
      have hx : P x = true := by
        have := (h 0 (by simp)).mpr (by omega)
        simpa using this
      rw [if_pos hx]
      have hrec : xs.countP P = i' := by
        apply ih (by simp at hi; omega)
        intro m hm
        have := h (m + 1) (by simpa using Nat.succ_lt_succ hm)
        simpa [Nat.succ_lt_succ_iff] using this
      omega

theorem sorted_countP_iff {l : List Int} (hp : l.Pairwise (· < ·)) (v : Int) :
    ∀ m (hm : m < l.length),
      ((l.get ⟨m, hm⟩ < v) ↔ m < l.countP (fun x => decide (x < v))) := by
  induction l with
  | nil => intro m hm; simp at hm
  | cons x xs ih =>
    have hp' : xs.Pairwise (· < ·) := hp.of_cons
    have hx : ∀ y ∈ xs, x < y := (List.pairwise_cons.mp hp).1
    intro m hm
    rw [List.countP_cons]
    rcases m with _ | m'
    · simp only [List.get]
      by_cases hxv : x < v
      · simp [hxv]
      · have hzero : xs.countP (fun x => decide (x < v)) = 0 := by
          rw [List.countP_eq_zero]
          intro y hy
          simp only [decide_eq_true_eq]
          have := hx y hy
          omega
        simp [hxv, hzero]
    · have hm' : m' < xs.length := by simpa using hm
      have hiff := ih hp' m' hm'
      simp only [List.get]
      by_cases hxv : x < v
      · have hone : (if decide (x < v) = true then 1 else 0) = 1 := by simp [hxv]
        rw [hone]
        constructor
        · intro h2
          have := hiff.mp h2
          omega
        · intro h2
          exact hiff.mpr (by omega)
      · have hzero : xs.countP (fun x => decide (x < v)) = 0 := by
          rw [List.countP_eq_zero]
          intro y hy
          simp only [decide_eq_true_eq]
          have := hx y hy
          omega
        have hxs : ¬ xs.get ⟨m', hm'⟩ < v := by
          have hmem : xs.get ⟨m', hm'⟩ ∈ xs := List.get_mem xs m' hm'
          have := hx _ hmem
          omega
        have hone : (if decide (x < v) = true then 1 else 0) = 0 := by simp [hxv]
        rw [hone, hzero]
        exact ⟨fun h2 => absurd h2 hxs, fun h2 => by omega⟩

theorem sorted_countP_iff' {l : List Int} (hp : l.Pairwise (· < ·)) (v : Int) {m : Nat}
    {x : Int} (hx : l.get? m = some x) :
    (x < v ↔ m < l.countP (fun y => decide (y < v))) := by
  have hm : m < l.length := by
    by_contra hge
    rw [List.get?_eq_none.mpr (by omega)] at hx
    exact Option.noConfusion hx
  have := sorted_countP_iff hp v m hm
  rw [List.get?_eq_get hm] at hx
  rw [← Option.some_inj.mp hx]
  exact this

theorem sorted_countP_of_get? {l : List Int} (hp : l.Pairwise (· < ·)) {v : Int} {i : Nat}
    (h : l.get? i = some v) : l.countP (fun x => decide (x < v)) = i := by
  have hi : i < l.length := by
    by_contra hge
    rw [List.get?_eq_none.mpr (by omega)] at h
    exact Option.noConfusion h
  have hub : l.countP (fun x => decide (x < v)) ≤ i := by
    by_contra hgt
    push_neg at hgt
    have := (sorted_countP_iff' hp v h).mpr hgt
    omega
  rcases Nat.eq_zero_or_pos i with h0 | hpos
  · omega
  · have hlow : i - 1 < l.countP (fun x => decide (x < v)) := by
      cases hprev : l.get? (i - 1) with
      | none =>
        rw [List.get?_eq_none] at hprev
        omega
      | some y =>
        have hy : y < v := sorted_get?_lt hp hprev h (by omega)
        exact (sorted_countP_iff' hp v hprev).mp hy
    omega

theorem sorted_mem_iff_countP {l : List Int} (hp : l.Pairwise (· < ·)) (v : Int) :
    v ∈ l ↔ l.get? (l.countP (fun x => decide (x < v))) = some v := by
  constructor
  · intro hmem
    obtain ⟨i, hi⟩ := List.mem_iff_get?.mp hmem
    rw [sorted_countP_of_get? hp hi]
    exact hi
  · intro h
    exact List.get?_mem h

/-! ### The minimum cache as a sorted list -/

theorem md_pairwise {s : RotatedArraySet} (hV : Valid s) :
    s.min_data.Pairwise (· < ·) := by
  rw [List.pairwise_iff_get]
  intro a b hab
  have hml := valid_md_len hV
  have ha : (a : Nat) < s.min_indexes.length := by
    have := a.isLt
    omega
  have hb : (b : Nat) < s.min_indexes.length := by
    have := b.isLt
    omega
  have h1 : (toList s).get? (integer_sum a) = some (s.min_data.get a) := by
    rw [← md_entry hV ha, List.get?_eq_get a.isLt]
  have h2 : (toList s).get? (integer_sum b) = some (s.min_data.get b) := by
    rw [← md_entry hV hb, List.get?_eq_get b.isLt]
  exact sorted_get?_lt (toList_pairwise hV) h1 h2 (integer_sum_strictMono hab)

theorem md_countP {s : RotatedArraySet} (hV : Valid s) (v : Int) :
    s.min_data.countP (fun x => decide (x < v)) =
      (if (toList s).countP (fun x => decide (x < v)) = 0 then 0
       else get_subarray_idx_from_array_idx
         ((toList s).countP (fun x => decide (x < v)) - 1) + 1) := by
  have hlen := toList_length hV
  have hrle : (toList s).countP (fun x => decide (x < v)) ≤ s.data.length := by
    have := List.countP_le_length (fun x => decide (x < v)) (l := toList s)
    omega
  split
  · rename_i hr0
    rw [List.countP_eq_zero]
    intro x hx
    simp only [decide_eq_true_eq]
    obtain ⟨m, hm⟩ := List.mem_iff_get?.mp hx
    have hmk : m < s.min_indexes.length := by
      by_contra hge
      rw [List.get?_eq_none.mpr (by rw [valid_md_len hV]; omega)] at hm
      exact Option.noConfusion hm
    have hx2 : (toList s).get? (integer_sum m) = some x := by
      rw [← md_entry hV hmk]
      exact hm
    intro hxv
    have := (sorted_countP_iff' (toList_pairwise hV) v hx2).mp hxv
    omega
  · rename_i hrpos
    have hr1 : (toList s).countP (fun x => decide (x < v)) - 1 < s.data.length := by omega
    obtain ⟨hjk, hle2, hq2⟩ := owner_lt hV hr1
    apply countP_eq_of_iff
    · rw [valid_md_len hV]
      omega
    · intro m hm
      have hmk : m < s.min_indexes.length := by
        have := hm
        rw [valid_md_len hV] at this
        exact this
      have hx2 : (toList s).get? (integer_sum m) = some (s.min_data.get ⟨m, hm⟩) := by
        rw [← md_entry hV hmk, List.get?_eq_get hm]
      rw [decide_eq_true_eq, sorted_countP_iff' (toList_pairwise hV) v hx2]
      have hs := get_sub_spec ((toList s).countP (fun x => decide (x < v)) - 1)
      constructor
      · intro hlt
        by_contra hge
        push_neg at hge
        have : get_subarray_idx_from_array_idx
            ((toList s).countP (fun x => decide (x < v)) - 1) + 1 ≤ m := by omega
        have := integer_sum_mono this
        omega
      · intro hlt
        have hmle : m ≤ get_subarray_idx_from_array_idx
            ((toList s).countP (fun x => decide (x < v)) - 1) := by omega
        have := integer_sum_mono hmle
        omega

/-! ### Binary-search evaluation lemmas -/

theorem binary_search_of_found {l : List Int} {v : Int} (hp : l.Pairwise (· < ·))
    (hmem : v ∈ l) :
    binary_search l v = .ok (l.countP (fun x => decide (x < v))) := by
  unfold binary_search
  rw [if_pos ((sorted_mem_iff_countP hp v).mp hmem)]

theorem binary_search_of_absent {l : List Int} {v : Int} (hnm : v ∉ l) :
    binary_search l v = .error (l.countP (fun x => decide (x < v))) := by
  unfold binary_search
  rw [if_neg (fun h => hnm (List.get?_mem h))]

/-! ### The physical subarray halves -/

theorem slice_code {s : RotatedArraySet} (hV : Valid s) {j : Nat}
    (hj : j < s.min_indexes.length) :
    (s.data.drop (get_array_idx_from_subarray_idx j)).take
        ((if j = s.min_indexes.length - 1 then s.data.length
          else get_array_idx_from_subarray_idx (j + 1)) -
          get_array_idx_from_subarray_idx j) = subarraySlice s j := by
  unfold subarraySlice subarrayLen
  congr 1
  rw [arr_eq_sum, arr_eq_sum]
  split
  · rfl
  · have := integer_sum_succ j
    omega

theorem unrot_halves {s : RotatedArraySet} (hV : Valid s) {j : Nat}
    (hj : j < s.min_indexes.length) :
    unrot s j = (subarraySlice s j).drop (pivotOf s j) ++
      (subarraySlice s j).take (pivotOf s j) := by
  unfold unrot
  exact List.rotate_eq_drop_append_take
    (by rw [subarraySlice_length hV hj]; exact le_of_lt (valid_pivot_lt hV hj))

theorem right_length {s : RotatedArraySet} (hV : Valid s) {j : Nat}
    (hj : j < s.min_indexes.length) :
    ((subarraySlice s j).drop (pivotOf s j)).length = subarrayLen s j - pivotOf s j := by
  rw [List.length_drop, subarraySlice_length hV hj]

theorem left_length {s : RotatedArraySet} (hV : Valid s) {j : Nat}
    (hj : j < s.min_indexes.length) :
    ((subarraySlice s j).take (pivotOf s j)).length = pivotOf s j := by
  rw [List.length_take, subarraySlice_length hV hj]
  have := valid_pivot_lt hV hj
  omega

theorem right_get? {s : RotatedArraySet} (hV : Valid s) {j : Nat}
    (hj : j < s.min_indexes.length) {m : Nat} (hm : m < subarrayLen s j - pivotOf s j) :
    ((subarraySlice s j).drop (pivotOf s j)).get? m =
      (toList s).get? (integer_sum j + m) := by
  have hq : m < subarrayLen s j := by omega
  have h1 := toList_get? hV hj hq
  rw [unrot_halves hV hj] at h1
  rw [List.get?_append (by rw [right_length hV hj]; exact hm)] at h1
  exact h1.symm

theorem left_get? {s : RotatedArraySet} (hV : Valid s) {j : Nat}
    (hj : j < s.min_indexes.length) {m : Nat} (hm : m < pivotOf s j) :
    ((subarraySlice s j).take (pivotOf s j)).get? m =
      (toList s).get? (integer_sum j + (subarrayLen s j - pivotOf s j) + m) := by
  have hp := valid_pivot_lt hV hj
  have hq : subarrayLen s j - pivotOf s j + m < subarrayLen s j := by omega
  have h1 := toList_get? hV hj hq
  rw [unrot_halves hV hj] at h1
  rw [List.get?_append_right (by rw [right_length hV hj]; omega)] at h1
  rw [right_length hV hj] at h1
  have : subarrayLen s j - pivotOf s j + m - (subarrayLen s j - pivotOf s j) = m := by omega
  rw [this] at h1
  rw [← Nat.add_assoc] at h1
  exact h1.symm

theorem subarray_full_len {s : RotatedArraySet} (hV : Valid s) {j : Nat}
    (hj : j < s.min_indexes.length)
    (h : j ≠ s.min_indexes.length - 1 ∨ s.data.length = integer_sum s.min_indexes.length) :
    subarrayLen s j = j + 1 := by
  unfold subarrayLen
  split
  · rename_i hlast
    rcases h with h | h
    · exact absurd hlast h
    · subst hlast
      rw [arr_eq_sum]
      have hk : s.min_indexes.length ≠ 0 := by omega
      have hs := integer_sum_succ (s.min_indexes.length - 1)
      have hE : s.min_indexes.length - 1 + 1 = s.min_indexes.length := by omega
      rw [hE] at hs
      omega
  · rfl

theorem last_full_iff (s : RotatedArraySet) :
    is_last_subarray_full s = true ↔ s.data.length = integer_sum s.min_indexes.length := by
  unfold is_last_subarray_full
  rw [arr_eq_sum]
  exact Nat.beq_eq_true_eq _ _ |>.symm ▸ Iff.rfl

theorem right_pairwise {s : RotatedArraySet} (hV : Valid s) {j : Nat}
    (hj : j < s.min_indexes.length) :
    ((subarraySlice s j).drop (pivotOf s j)).Pairwise (· < ·) := by
  rw [List.pairwise_iff_get]
  intro a b hab
  have hrl := right_length hV hj
  have ha : (a : Nat) < subarrayLen s j - pivotOf s j := by
    have := a.isLt
    omega
  have hb : (b : Nat) < subarrayLen s j - pivotOf s j := by
    have := b.isLt
    omega
  have h1 := right_get? hV hj ha
  have h2 := right_get? hV hj hb
  rw [List.get?_eq_get a.isLt] at h1
  rw [List.get?_eq_get b.isLt] at h2
  exact sorted_get?_lt (toList_pairwise hV) h1.symm h2.symm (by omega)

theorem left_pairwise {s : RotatedArraySet} (hV : Valid s) {j : Nat}
    (hj : j < s.min_indexes.length) :
    ((subarraySlice s j).take (pivotOf s j)).Pairwise (· < ·) := by
  rw [List.pairwise_iff_get]
  intro a b hab
  have hll := left_length hV hj
  have ha : (a : Nat) < pivotOf s j := by
    have := a.isLt
    omega
  have hb : (b : Nat) < pivotOf s j := by
    have := b.isLt
    omega
  have h1 := left_get? hV hj ha
  have h2 := left_get? hV hj hb
  rw [List.get?_eq_get a.isLt] at h1
  rw [List.get?_eq_get b.isLt] at h2
  exact sorted_get?_lt (toList_pairwise hV) h1.symm h2.symm (by omega)

theorem right_not_mem {s : RotatedArraySet} (hV : Valid s) {j : Nat}
    (hj : j < s.min_indexes.length) {v : Int} (hv : v ∉ toList s) :
    v ∉ (subarraySlice s j).drop (pivotOf s j) := by
  intro hmem
  obtain ⟨m, hm⟩ := List.mem_iff_get?.mp hmem
  have hml : m < subarrayLen s j - pivotOf s j := by
    have hrl := right_length hV hj
    by_contra hge
    rw [List.get?_eq_none.mpr (by omega)] at hm
    exact Option.noConfusion hm
  rw [right_get? hV hj hml] at hm
  exact hv (List.get?_mem hm)

theorem left_not_mem {s : RotatedArraySet} (hV : Valid s) {j : Nat}
    (hj : j < s.min_indexes.length) {v : Int} (hv : v ∉ toList s) :
    v ∉ (subarraySlice s j).take (pivotOf s j) := by
  intro hmem
  obtain ⟨m, hm⟩ := List.mem_iff_get?.mp hmem
  have hml : m < pivotOf s j := by
    have hll := left_length hV hj
    by_contra hge
    rw [List.get?_eq_none.mpr (by omega)] at hm
    exact Option.noConfusion hm
  rw [left_get? hV hj hml] at hm
  exact hv (List.get?_mem hm)

theorem right_countP {s : RotatedArraySet} (hV : Valid s) {j : Nat}
    (hj : j < s.min_indexes.length) (v : Int) :
    ((subarraySlice s j).drop (pivotOf s j)).countP (fun x => decide (x < v)) =
      min ((toList s).countP (fun x => decide (x < v)) - integer_sum j)
        (subarrayLen s j - pivotOf s j) := by
  have hrl := right_length hV hj
  have hlen := toList_length hV
  have hw := subarray_window hV hj
  apply countP_eq_of_iff (by omega)
  intro m hm
  have hml : m < subarrayLen s j - pivotOf s j := by omega
  have h1 := right_get? hV hj hml
  rw [List.get?_eq_get hm] at h1
  rw [decide_eq_true_eq, sorted_countP_iff' (toList_pairwise hV) v h1.symm]
  have hrle : (toList s).countP (fun x => decide (x < v)) ≤ s.data.length := by
    have := List.countP_le_length (fun x => decide (x < v)) (l := toList s)
    omega
  omega

theorem left_countP {s : RotatedArraySet} (hV : Valid s) {j : Nat}
    (hj : j < s.min_indexes.length) (v : Int)
    (hub : (toList s).countP (fun x => decide (x < v)) ≤ integer_sum j + subarrayLen s j) :
    ((subarraySlice s j).take (pivotOf s j)).countP (fun x => decide (x < v)) =
      (toList s).countP (fun x => decide (x < v)) -
        (integer_sum j + (subarrayLen s j - pivotOf s j)) := by
  have hll := left_length hV hj
  have hp := valid_pivot_lt hV hj
  apply countP_eq_of_iff (by omega)
  intro m hm
  have hml : m < pivotOf s j := by omega
  have h1 := left_get? hV hj hml
  rw [List.get?_eq_get hm] at h1
  rw [decide_eq_true_eq, sorted_countP_iff' (toList_pairwise hV) v h1.symm]
  omega

/-! ### Characterization of the locator -/

theorem halves_found {s : RotatedArraySet} (hV : Valid s) {j : Nat}
    (hj : j < s.min_indexes.length) {v : Int} {i : Nat}
    (hi : (toList s).get? i = some v)
    (hge : integer_sum j ≤ i) (hlt : i < integer_sum j + subarrayLen s j) :
    (match binary_search ((subarraySlice s j).take (pivotOf s j)) v,
           binary_search ((subarraySlice s j).drop (pivotOf s j)) v with
     | .ok t, _ => Except.ok (integer_sum j + t)
     | .error _, .ok t => Except.ok (integer_sum j + pivotOf s j + t)
     | .error li, .error ri =>
        if ri = ((subarraySlice s j).drop (pivotOf s j)).length ∧
            (subarraySlice s j).take (pivotOf s j) ≠ [] then
          Except.error (integer_sum j + li)
        else Except.error (integer_sum j + pivotOf s j + ri)) = Except.ok (rawOf s i) := by
  have hp := valid_pivot_lt hV hj
  have hw := subarray_window hV hj
  have hrl := right_length hV hj
  have hll := left_length hV hj
  have hGi : get_subarray_idx_from_array_idx i = j := by
    apply get_sub_eq hge
    have := integer_sum_succ j
    omega
  have hraw : rawOf s i =
      integer_sum j + (pivotOf s j + (i - integer_sum j)) % subarrayLen s j := by
    rw [rawOf_eq, hGi]
  by_cases hcase : i - integer_sum j < subarrayLen s j - pivotOf s j
  · have hmem : ((subarraySlice s j).drop (pivotOf s j)).get? (i - integer_sum j) = some v := by
      rw [right_get? hV hj hcase]
      have heq : integer_sum j + (i - integer_sum j) = i := by omega
      rw [heq]
      exact hi
    have hbr : binary_search ((subarraySlice s j).drop (pivotOf s j)) v =
        .ok (i - integer_sum j) := by
      rw [binary_search_of_found (right_pairwise hV hj) (List.get?_mem hmem),
        sorted_countP_of_get? (right_pairwise hV hj) hmem]
    have hvl : v ∉ (subarraySlice s j).take (pivotOf s j) := by
      intro hmem2
      obtain ⟨m, hm⟩ := List.mem_iff_get?.mp hmem2
      have hml : m < pivotOf s j := by
        by_contra hge2
        rw [List.get?_eq_none.mpr (by omega)] at hm
        exact Option.noConfusion hm
      rw [left_get? hV hj hml] at hm
      have hvv := sorted_get?_lt (toList_pairwise hV) hi hm (by omega)
      omega
    rw [binary_search_of_absent hvl, hbr]
    have hmod : (pivotOf s j + (i - integer_sum j)) % subarrayLen s j =
        pivotOf s j + (i - integer_sum j) := Nat.mod_eq_of_lt (by omega)
    rw [hraw, hmod, ← Nat.add_assoc]
  · push_neg at hcase
    have hpos : 0 < pivotOf s j := by omega
    have htl : i - integer_sum j - (subarrayLen s j - pivotOf s j) < pivotOf s j := by omega
    have hmem : ((subarraySlice s j).take (pivotOf s j)).get?
        (i - integer_sum j - (subarrayLen s j - pivotOf s j)) = some v := by
      rw [left_get? hV hj htl]
      have heq : integer_sum j + (subarrayLen s j - pivotOf s j) +
          (i - integer_sum j - (subarrayLen s j - pivotOf s j)) = i := by omega
      rw [heq]
      exact hi
    have hbl : binary_search ((subarraySlice s j).take (pivotOf s j)) v =
        .ok (i - integer_sum j - (subarrayLen s j - pivotOf s j)) := by
      rw [binary_search_of_found (left_pairwise hV hj) (List.get?_mem hmem),
        sorted_countP_of_get? (left_pairwise hV hj) hmem]
    rw [hbl]
    have hmod : (pivotOf s j + (i - integer_sum j)) % subarrayLen s j =
        i - integer_sum j - (subarrayLen s j - pivotOf s j) := by
      have h1 : pivotOf s j + (i - integer_sum j) =
          subarrayLen s j + (i - integer_sum j - (subarrayLen s j - pivotOf s j)) := by omega
      rw [h1, Nat.add_comm, Nat.add_mod_right]
      exact Nat.mod_eq_of_lt (by omega)
    rw [hraw, hmod]

theorem halves_absent {s : RotatedArraySet} (hV : Valid s) {j : Nat}
    (hj : j < s.min_indexes.length) {v : Int} (hv : v ∉ toList s)
    (hge : integer_sum j ≤ (toList s).countP (fun x => decide (x < v)))
    (hle : (toList s).countP (fun x => decide (x < v)) ≤ integer_sum j + subarrayLen s j)
    (hp0 : (toList s).countP (fun x => decide (x < v)) = integer_sum j + subarrayLen s j →
      pivotOf s j = 0) :
    (match binary_search ((subarraySlice s j).take (pivotOf s j)) v,
           binary_search ((subarraySlice s j).drop (pivotOf s j)) v with
     | .ok t, _ => Except.ok (integer_sum j + t)
     | .error _, .ok t => Except.ok (integer_sum j + pivotOf s j + t)
     | .error li, .error ri =>
        if ri = ((subarraySlice s j).drop (pivotOf s j)).length ∧
            (subarraySlice s j).take (pivotOf s j) ≠ [] then
          Except.error (integer_sum j + li)
        else Except.error (integer_sum j + pivotOf s j + ri)) =
      Except.error (integer_sum j +
        (if (toList s).countP (fun x => decide (x < v)) = integer_sum j + subarrayLen s j
         then subarrayLen s j
         else (pivotOf s j + ((toList s).countP (fun x => decide (x < v)) - integer_sum j)) %
           subarrayLen s j)) := by
  have hp := valid_pivot_lt hV hj
  have hw := subarray_window hV hj
  have hrl := right_length hV hj
  have hll := left_length hV hj
  have hbr : binary_search ((subarraySlice s j).drop (pivotOf s j)) v =
      .error (min ((toList s).countP (fun x => decide (x < v)) - integer_sum j)
        (subarrayLen s j - pivotOf s j)) := by
    rw [binary_search_of_absent (right_not_mem hV hj hv), right_countP hV hj v]
  have hbl : binary_search ((subarraySlice s j).take (pivotOf s j)) v =
      .error ((toList s).countP (fun x => decide (x < v)) -
        (integer_sum j + (subarrayLen s j - pivotOf s j))) := by
    rw [binary_search_of_absent (left_not_mem hV hj hv), left_countP hV hj v hle]
  rw [hbl, hbr]
  dsimp only
  by_cases hcase : (toList s).countP (fun x => decide (x < v)) - integer_sum j <
      subarrayLen s j - pivotOf s j
  · -- insertion interior to the right half
    have hguard : ¬ (min ((toList s).countP (fun x => decide (x < v)) - integer_sum j)
        (subarrayLen s j - pivotOf s j) =
          ((subarraySlice s j).drop (pivotOf s j)).length ∧
        (subarraySlice s j).take (pivotOf s j) ≠ []) := by
      intro hcon
      have := hcon.1
      omega
    rw [if_neg hguard]
    have hne : ¬ ((toList s).countP (fun x => decide (x < v)) =
        integer_sum j + subarrayLen s j) := by omega
    rw [if_neg hne]
    have hmod : (pivotOf s j + ((toList s).countP (fun x => decide (x < v)) - integer_sum j)) %
        subarrayLen s j =
        pivotOf s j + ((toList s).countP (fun x => decide (x < v)) - integer_sum j) :=
      Nat.mod_eq_of_lt (by omega)
    rw [hmod]
    have hminv : min ((toList s).countP (fun x => decide (x < v)) - integer_sum j)
        (subarrayLen s j - pivotOf s j) =
        (toList s).countP (fun x => decide (x < v)) - integer_sum j := by omega
    rw [hminv, ← Nat.add_assoc]
  · push_neg at hcase
    by_cases hppos : 0 < pivotOf s j
    · -- insertion in the left half (or exactly between the halves)
      have htL : (toList s).countP (fun x => decide (x < v)) < integer_sum j + subarrayLen s j := by
        by_contra hgeL
        push_neg at hgeL
        have : (toList s).countP (fun x => decide (x < v)) = integer_sum j + subarrayLen s j := by
          omega
        have := hp0 this
        omega
      have hguard : (min ((toList s).countP (fun x => decide (x < v)) - integer_sum j)
          (subarrayLen s j - pivotOf s j) =
            ((subarraySlice s j).drop (pivotOf s j)).length ∧
          (subarraySlice s j).take (pivotOf s j) ≠ []) := by
        constructor
        · omega
        · intro hnil
          have : ((subarraySlice s j).take (pivotOf s j)).length = 0 := by rw [hnil]; rfl
          omega
      rw [if_pos hguard]
      have hne : ¬ ((toList s).countP (fun x => decide (x < v)) =
          integer_sum j + subarrayLen s j) := by omega
      rw [if_neg hne]
      have hmod : (pivotOf s j + ((toList s).countP (fun x => decide (x < v)) - integer_sum j)) %
          subarrayLen s j =
          (toList s).countP (fun x => decide (x < v)) -
            (integer_sum j + (subarrayLen s j - pivotOf s j)) := by
        have h1 : pivotOf s j + ((toList s).countP (fun x => decide (x < v)) - integer_sum j) =
            subarrayLen s j + ((toList s).countP (fun x => decide (x < v)) -
              (integer_sum j + (subarrayLen s j - pivotOf s j))) := by omega
        rw [h1, Nat.add_comm, Nat.add_mod_right]
        exact Nat.mod_eq_of_lt (by omega)
      rw [hmod]
    · -- pivot 0: the left half is empty
      push_neg at hppos
      have hpz : pivotOf s j = 0 := by omega
      have hguard : ¬ (min ((toList s).countP (fun x => decide (x < v)) - integer_sum j)
          (subarrayLen s j - pivotOf s j) =
            ((subarraySlice s j).drop (pivotOf s j)).length ∧
          (subarraySlice s j).take (pivotOf s j) ≠ []) := by
      -- left is empty
        intro hcon
        apply hcon.2
        have : ((subarraySlice s j).take (pivotOf s j)).length = 0 := by omega
        exact List.eq_nil_of_length_eq_zero this
      rw [if_neg hguard]
      -- here t ≥ L - 0 = L so t = L
      have hteq : (toList s).countP (fun x => decide (x < v)) = integer_sum j + subarrayLen s j := by
        omega
      rw [if_pos hteq]
      have hminv : min ((toList s).countP (fun x => decide (x < v)) - integer_sum j)
          (subarrayLen s j - pivotOf s j) = subarrayLen s j := by omega
      rw [hminv, hpz, Nat.add_zero]

theorem prev_max_get {s : RotatedArraySet} (hV : Valid s) {m : Nat} (hm1 : 1 ≤ m)
    (hmk : m ≤ s.min_indexes.length) (hfull : subarrayLen s (m - 1) = m) :
    s.data.get? (if s.min_indexes.getD (m - 1) 0 = 0 then
        get_array_idx_from_subarray_idx m - 1
      else get_array_idx_from_subarray_idx (m - 1) + s.min_indexes.getD (m - 1) 0 - 1) =
      (toList s).get? (integer_sum m - 1) := by
  have hj : m - 1 < s.min_indexes.length := by omega
  have hp := valid_pivot_lt hV hj
  have hq : m - 1 < subarrayLen s (m - 1) := by omega
  have hsucc : integer_sum m = integer_sum (m - 1) + m := by
    have := integer_sum_succ (m - 1)
    have hE : m - 1 + 1 = m := by omega
    rw [hE] at this
    omega
  have hstep := toList_get? hV hj hq
  rw [unrot_get? hV hj hq] at hstep
  have hidx1 : integer_sum (m - 1) + (m - 1) = integer_sum m - 1 := by omega
  rw [hfull] at hstep
  rw [hidx1] at hstep
  have hpiv : s.min_indexes.getD (m - 1) 0 = pivotOf s (m - 1) := rfl
  rw [hpiv]
  have hcode : (if pivotOf s (m - 1) = 0 then get_array_idx_from_subarray_idx m - 1
      else get_array_idx_from_subarray_idx (m - 1) + pivotOf s (m - 1) - 1) =
      integer_sum (m - 1) + (pivotOf s (m - 1) + (m - 1)) % m := by
    rw [arr_eq_sum, arr_eq_sum]
    split
    · rename_i hpz
      rw [hpz]
      have : (0 + (m - 1)) % m = m - 1 := by
        rw [Nat.zero_add]
        exact Nat.mod_eq_of_lt (by omega)
      rw [this]
      omega
    · rename_i hpnz
      have hplt : pivotOf s (m - 1) < m := by omega
      have : pivotOf s (m - 1) + (m - 1) = (pivotOf s (m - 1) - 1) + m := by omega
      rw [this, Nat.add_mod_right]
      rw [Nat.mod_eq_of_lt (by omega)]
      omega
  rw [hcode, ← hstep]

theorem find_raw_index_error_case (s : RotatedArraySet) (v : Int)
    (hne : s.data.isEmpty = false) {c : Nat}
    (hbs : binary_search s.min_data v = .error c) (j : Nat)
    (hchoice : (if c = 0 then 0
        else if c = s.min_indexes.length ∧ ¬ is_last_subarray_full s then c - 1
        else
          let prev_max_idx :=
            if s.min_indexes.getD (c - 1) 0 = 0 then
              get_array_idx_from_subarray_idx c - 1
            else
              get_array_idx_from_subarray_idx (c - 1) + s.min_indexes.getD (c - 1) 0 - 1
          if v ≤ s.data.getD prev_max_idx 0 then c - 1 else c) = j) :
    find_raw_index s v =
      (if get_array_idx_from_subarray_idx j = s.data.length then
        Except.error (get_array_idx_from_subarray_idx j)
      else
        match binary_search (((s.data.drop (get_array_idx_from_subarray_idx j)).take
              ((if j = s.min_indexes.length - 1 then s.data.length
                else get_array_idx_from_subarray_idx (j + 1)) -
                get_array_idx_from_subarray_idx j)).take (s.min_indexes.getD j 0)) v,
          binary_search (((s.data.drop (get_array_idx_from_subarray_idx j)).take
              ((if j = s.min_indexes.length - 1 then s.data.length
                else get_array_idx_from_subarray_idx (j + 1)) -
                get_array_idx_from_subarray_idx j)).drop (s.min_indexes.getD j 0)) v with
        | .ok i, _ => .ok (get_array_idx_from_subarray_idx j + i)
        | .error _, .ok i =>
          .ok (get_array_idx_from_subarray_idx j + s.min_indexes.getD j 0 + i)
        | .error li, .error ri =>
          if ri = (((s.data.drop (get_array_idx_from_subarray_idx j)).take
                ((if j = s.min_indexes.length - 1 then s.data.length
                  else get_array_idx_from_subarray_idx (j + 1)) -
                  get_array_idx_from_subarray_idx j)).drop (s.min_indexes.getD j 0)).length ∧
              ((s.data.drop (get_array_idx_from_subarray_idx j)).take
                ((if j = s.min_indexes.length - 1 then s.data.length
                  else get_array_idx_from_subarray_idx (j + 1)) -
                  get_array_idx_from_subarray_idx j)).take (s.min_indexes.getD j 0) ≠ [] then
            .error (get_array_idx_from_subarray_idx j + li)
          else .error (get_array_idx_from_subarray_idx j + s.min_indexes.getD j 0 + ri)) := by
  unfold find_raw_index
  rw [hne]
  simp only [Bool.false_eq_true, if_false]
  rw [hbs]
  dsimp only
  rw [hchoice]

theorem find_spec_ok {s : RotatedArraySet} (hV : Valid s) {v : Int} {i : Nat}
    (hi : (toList s).get? i = some v) : find_raw_index s v = .ok (rawOf s i) := by
  have hlen := toList_length hV
  have hin : i < s.data.length := by
    by_contra hge
    rw [List.get?_eq_none.mpr (by omega)] at hi
    exact Option.noConfusion hi
  obtain ⟨hjk, hle, hq⟩ := owner_lt hV hin
  set j := get_subarray_idx_from_array_idx i with hjdef
  have hw := subarray_window hV hjk
  have hp := valid_pivot_lt hV hjk
  have hne : s.data.isEmpty = false := by
    cases hd : s.data with
    | nil => rw [hd] at hin; simp at hin
    | cons a l => rfl
  have hr : (toList s).countP (fun x => decide (x < v)) = i :=
    sorted_countP_of_get? (toList_pairwise hV) hi
  by_cases hq0 : i - integer_sum j = 0
  · have hieq : integer_sum j = i := by omega
    have hmd : s.min_data.get? j = some v := by rw [md_entry hV hjk, hieq]; exact hi
    have hcp : s.min_data.countP (fun x => decide (x < v)) = j :=
      sorted_countP_of_get? (md_pairwise hV) hmd
    have hbs : binary_search s.min_data v = .ok j := by
      rw [binary_search_of_found (md_pairwise hV) (List.get?_mem hmd), hcp]
    simp only [find_raw_index, hne, Bool.false_eq_true, if_false, hbs]
    have hmod : (pivotOf s j + (i - integer_sum j)) % subarrayLen s j = pivotOf s j := by
      rw [hq0, Nat.add_zero]
      exact Nat.mod_eq_of_lt hp
    rw [rawOf_eq, ← hjdef, hmod, arr_eq_sum]
    rfl
  · -- v lies strictly inside subarray j
    have hsucc := integer_sum_succ j
    have hcp : s.min_data.countP (fun x => decide (x < v)) = j + 1 := by
      rw [md_countP hV v, hr]
      rw [if_neg (by omega)]
      have : get_subarray_idx_from_array_idx (i - 1) = j := by
        apply get_sub_eq (by omega) (by omega)
      rw [this]
    have hvnm : v ∉ s.min_data := by
      intro hmem
      have hsome := (sorted_mem_iff_countP (md_pairwise hV) v).mp hmem
      rw [hcp] at hsome
      rcases Nat.lt_or_ge (j + 1) s.min_indexes.length with hlt2 | hge2
      · rw [md_entry hV hlt2] at hsome
        have hvv := sorted_get?_lt (toList_pairwise hV) hi hsome (by omega)
        omega
      · rw [List.get?_eq_none.mpr (by rw [valid_md_len hV]; omega)] at hsome
        exact Option.noConfusion hsome
    have hbs : binary_search s.min_data v = .error (j + 1) := by
      rw [binary_search_of_absent hvnm, hcp]
    have hchoice : (if j + 1 = 0 then 0
        else if j + 1 = s.min_indexes.length ∧ ¬ is_last_subarray_full s then j
        else if v ≤ s.data.getD (if s.min_indexes.getD j 0 = 0 then
              get_array_idx_from_subarray_idx (j + 1) - 1
            else get_array_idx_from_subarray_idx j + s.min_indexes.getD j 0 - 1) 0
          then j else j + 1) = j := by
      rw [if_neg (by omega)]
      by_cases hlast2 : j + 1 = s.min_indexes.length ∧ ¬ is_last_subarray_full s
      · rw [if_pos hlast2]
      · rw [if_neg hlast2]
        have hfull : subarrayLen s j = j + 1 := by
          apply subarray_full_len hV hjk
          rcases Nat.lt_or_ge (j + 1) s.min_indexes.length with hlt2 | hge2
          · left; omega
          · right
            rw [← last_full_iff]
            cases hb : is_last_subarray_full s
            · exact absurd ⟨by omega, by rw [hb]; exact Bool.false_ne_true⟩ hlast2
            · rfl
        have hpm := prev_max_get hV (m := j + 1) (by omega) (by omega)
          (by simpa using hfull)
        simp only [Nat.add_sub_cancel] at hpm
        have hprevlt : integer_sum (j + 1) - 1 < s.data.length := by omega
        obtain ⟨w, hw2⟩ : ∃ w, (toList s).get? (integer_sum (j + 1) - 1) = some w := by
          cases hx : (toList s).get? (integer_sum (j + 1) - 1) with
          | none => rw [List.get?_eq_none] at hx; omega
          | some w => exact ⟨w, rfl⟩
        have hvw : v ≤ w := by
          rcases Nat.lt_or_ge i (integer_sum (j + 1) - 1) with hlt3 | hge3
          · exact le_of_lt (sorted_get?_lt (toList_pairwise hV) hi hw2 hlt3)
          · have : i = integer_sum (j + 1) - 1 := by omega
            rw [this, hw2] at hi
            rw [Option.some_inj.mp hi]
        have hgd : s.data.getD (if s.min_indexes.getD j 0 = 0 then
            get_array_idx_from_subarray_idx (j + 1) - 1
            else get_array_idx_from_subarray_idx j + s.min_indexes.getD j 0 - 1) 0 = w := by
          rw [List.getD_eq_get?, hpm, hw2]
          rfl
        rw [hgd, if_pos hvw]
    have hres := find_raw_index_error_case s v hne hbs j hchoice
    have hoff : ¬ (get_array_idx_from_subarray_idx j = s.data.length) := by
      rw [arr_eq_sum]
      omega
    rw [hres, if_neg hoff, slice_code hV hjk]
    have hpiv : s.min_indexes.getD j 0 = pivotOf s j := rfl
    rw [hpiv, arr_eq_sum]
    exact halves_found hV hjk hi hle (by omega)

theorem errOf_formula {s : RotatedArraySet} (hV : Valid s) {v : Int} {j : Nat}
    (hj : j < s.min_indexes.length)
    (hge : integer_sum j ≤ (toList s).countP (fun x => decide (x < v)))
    (hle : (toList s).countP (fun x => decide (x < v)) ≤ integer_sum j + subarrayLen s j)
    (hiff : (toList s).countP (fun x => decide (x < v)) = integer_sum j + subarrayLen s j ↔
      (toList s).countP (fun x => decide (x < v)) = s.data.length) :
    integer_sum j +
      (if (toList s).countP (fun x => decide (x < v)) = integer_sum j + subarrayLen s j
       then subarrayLen s j
       else (pivotOf s j + ((toList s).countP (fun x => decide (x < v)) - integer_sum j)) %
         subarrayLen s j) = errOf s v := by
  have hw := subarray_window hV hj
  simp only [errOf]
  by_cases hend : (toList s).countP (fun x => decide (x < v)) = integer_sum j + subarrayLen s j
  · rw [if_pos hend, if_pos (hiff.mp hend)]
    omega
  · rw [if_neg hend, if_neg (fun h => hend (hiff.mpr h))]
    have hlt : (toList s).countP (fun x => decide (x < v)) < integer_sum j + subarrayLen s j := by
      omega
    have hGr : get_subarray_idx_from_array_idx ((toList s).countP (fun x => decide (x < v))) = j := by
      apply get_sub_eq hge
      have := integer_sum_succ j
      omega
    rw [rawOf_eq, hGr]

theorem find_spec_err {s : RotatedArraySet} (hV : Valid s) {v : Int} (hv : v ∉ toList s) :
    find_raw_index s v = .error (errOf s v) := by
  have hlen := toList_length hV
  have hrle : (toList s).countP (fun x => decide (x < v)) ≤ s.data.length := by
    have := List.countP_le_length (fun x => decide (x < v)) (l := toList s)
    omega
  by_cases hn0 : s.data.length = 0
  · have hk0 : s.min_indexes.length = 0 := by
      by_contra hk
      have := (valid_n_bounds hV hk).1
      omega
    have htl : toList s = [] := by
      unfold toList
      rw [hk0]
      rfl
    have hempty : s.data.isEmpty = true := by
      cases hd : s.data with
      | nil => rfl
      | cons a l => rw [hd] at hn0; simp at hn0
    unfold find_raw_index
    rw [hempty, if_pos rfl]
    simp only [errOf, htl, List.countP_nil]
    rw [if_pos (by omega)]
    rw [hn0]
  · have hne : s.data.isEmpty = false := by
      cases hd : s.data with
      | nil => rw [hd] at hn0; simp at hn0
      | cons a l => rfl
    have hksize : s.min_indexes.length ≠ 0 := by
      intro h0
      have := valid_n_zero hV h0
      omega
    have hb := valid_n_bounds hV hksize
    have hmdnm : v ∉ s.min_data := by
      intro hmem
      obtain ⟨m, hm⟩ := List.mem_iff_get?.mp hmem
      have hmk : m < s.min_indexes.length := by
        by_contra hge
        rw [List.get?_eq_none.mpr (by rw [valid_md_len hV]; omega)] at hm
        exact Option.noConfusion hm
      rw [md_entry hV hmk] at hm
      exact hv (List.get?_mem hm)
    have hcp := md_countP hV v
    rcases Nat.eq_zero_or_pos ((toList s).countP (fun x => decide (x < v))) with hr0 | hrpos
    · -- insertion before every element: subarray 0
      have hbs : binary_search s.min_data v = .error 0 := by
        rw [binary_search_of_absent hmdnm, hcp, if_pos hr0]
      have hres := find_raw_index_error_case s v hne hbs 0 (by simp)
      have h0k : 0 < s.min_indexes.length := by omega
      have hw0 := subarray_window hV h0k
      have hS0 : integer_sum 0 = 0 := rfl
      have hoff : ¬ (get_array_idx_from_subarray_idx 0 = s.data.length) := by
        simp only [arr_eq_sum, integer_sum_zero]
        omega
      rw [hres, if_neg hoff, slice_code hV h0k]
      have hpiv : s.min_indexes.getD 0 0 = pivotOf s 0 := rfl
      rw [hpiv, arr_eq_sum]
      have hiff : (toList s).countP (fun x => decide (x < v)) =
          integer_sum 0 + subarrayLen s 0 ↔
          (toList s).countP (fun x => decide (x < v)) = s.data.length := by
        omega
      rw [← errOf_formula hV h0k (by omega) (by omega) hiff]
      exact halves_absent hV h0k hv (by omega) (by omega) (by omega)
    · -- general case: the owner subarray of the insertion rank
      rcases Nat.lt_or_ge ((toList s).countP (fun x => decide (x < v))) s.data.length
        with hrn | hrn
      · -- 0 < r < n
        obtain ⟨hjk, hle2, hq2⟩ := owner_lt hV hrn
        set j := get_subarray_idx_from_array_idx ((toList s).countP (fun x => decide (x < v)))
          with hjdef
        have hw := subarray_window hV hjk
        have hsucc := integer_sum_succ j
        have hvlt : ∀ {m : Nat} {w : Int}, (toList s).get? m = some w →
            m < (toList s).countP (fun x => decide (x < v)) → w < v := by
          intro m w hm hmr
          exact (sorted_countP_iff' (toList_pairwise hV) v hm).mpr hmr
        have hvgt : ∀ {m : Nat} {w : Int}, (toList s).get? m = some w →
            (toList s).countP (fun x => decide (x < v)) ≤ m → v ≤ w := by
          intro m w hm hmr
          by_contra hlt2
          push_neg at hlt2
          have := (sorted_countP_iff' (toList_pairwise hV) v hm).mp hlt2
          omega
        by_cases ht0 : (toList s).countP (fun x => decide (x < v)) = integer_sum j
        · -- boundary insertion: v between subarray j-1 and subarray j
          have hj1 : 1 ≤ j := by
            by_contra hj0
            push_neg at hj0
            have : j = 0 := by omega
            rw [this, integer_sum_zero] at ht0
            omega
          have hcpv : s.min_data.countP (fun x => decide (x < v)) = j := by
            rw [hcp, if_neg (by omega)]
            have hGr1 : get_subarray_idx_from_array_idx
                ((toList s).countP (fun x => decide (x < v)) - 1) = j - 1 := by
              apply get_sub_eq
              · have hfull : subarrayLen s (j - 1) = j := by
                  have : subarrayLen s (j - 1) = (j - 1) + 1 :=
                    subarray_full_len hV (by omega) (by left; omega)
                  omega
                have hwj1 := subarray_window hV (show j - 1 < s.min_indexes.length by omega)
                have hs1 : integer_sum (j - 1 + 1) = integer_sum (j - 1) + (j - 1 + 1) :=
                  integer_sum_succ (j - 1)
                have hE : j - 1 + 1 = j := by omega
                rw [hE] at hs1
                omega
              · have hE : j - 1 + 1 = j := by omega
                rw [hE]
                omega
            rw [hGr1]
            omega
          have hbs : binary_search s.min_data v = .error j := by
            rw [binary_search_of_absent hmdnm, hcpv]
          have hfull1 : subarrayLen s (j - 1) = j := by
            have : subarrayLen s (j - 1) = (j - 1) + 1 :=
              subarray_full_len hV (by omega) (by left; omega)
            omega
          have hpm := prev_max_get hV (m := j) hj1 (by omega) hfull1
          obtain ⟨w, hw2⟩ : ∃ w, (toList s).get? (integer_sum j - 1) = some w := by
            cases hx : (toList s).get? (integer_sum j - 1) with
            | none => rw [List.get?_eq_none] at hx; omega
            | some w => exact ⟨w, rfl⟩
          have hwv : w < v := hvlt hw2 (by omega)
          have hchoice : (if j = 0 then 0
              else if j = s.min_indexes.length ∧ ¬ is_last_subarray_full s then j - 1
              else if v ≤ s.data.getD (if s.min_indexes.getD (j - 1) 0 = 0 then
                    get_array_idx_from_subarray_idx j - 1
                  else get_array_idx_from_subarray_idx (j - 1) +
                    s.min_indexes.getD (j - 1) 0 - 1) 0
                then j - 1 else j) = j := by
            rw [if_neg (by omega), if_neg (by intro hcon; omega)]
            have hgd : s.data.getD (if s.min_indexes.getD (j - 1) 0 = 0 then
                get_array_idx_from_subarray_idx j - 1
                else get_array_idx_from_subarray_idx (j - 1) +
                  s.min_indexes.getD (j - 1) 0 - 1) 0 = w := by
              rw [List.getD_eq_get?, hpm, hw2]
              rfl
            rw [hgd, if_neg (by omega)]
          have hres := find_raw_index_error_case s v hne hbs j hchoice
          have hoff : ¬ (get_array_idx_from_subarray_idx j = s.data.length) := by
            rw [arr_eq_sum]
            omega
          rw [hres, if_neg hoff, slice_code hV hjk]
          have hpiv : s.min_indexes.getD j 0 = pivotOf s j := rfl
          rw [hpiv, arr_eq_sum]
          have hiff : (toList s).countP (fun x => decide (x < v)) =
              integer_sum j + subarrayLen s j ↔
              (toList s).countP (fun x => decide (x < v)) = s.data.length := by
            constructor
            · intro h
              omega
            · intro h
              omega
          rw [← errOf_formula hV hjk (by omega) (by omega) hiff]
          exact halves_absent hV hjk hv (by omega) (by omega) (by omega)
        · -- interior insertion into subarray j
          have ht1 : 1 ≤ (toList s).countP (fun x => decide (x < v)) - integer_sum j := by
            omega
          have hcpv : s.min_data.countP (fun x => decide (x < v)) = j + 1 := by
            rw [hcp, if_neg (by omega)]
            have hGr1 : get_subarray_idx_from_array_idx
                ((toList s).countP (fun x => decide (x < v)) - 1) = j := by
              apply get_sub_eq (by omega) (by omega)
            rw [hGr1]
          have hbs : binary_search s.min_data v = .error (j + 1) := by
            rw [binary_search_of_absent hmdnm, hcpv]
          have hchoice : (if j + 1 = 0 then 0
              else if j + 1 = s.min_indexes.length ∧ ¬ is_last_subarray_full s then j
              else if v ≤ s.data.getD (if s.min_indexes.getD j 0 = 0 then
                    get_array_idx_from_subarray_idx (j + 1) - 1
                  else get_array_idx_from_subarray_idx j + s.min_indexes.getD j 0 - 1) 0
                then j else j + 1) = j := by
            rw [if_neg (by omega)]
            by_cases hlast2 : j + 1 = s.min_indexes.length ∧ ¬ is_last_subarray_full s
            · rw [if_pos hlast2]
            · rw [if_neg hlast2]
              have hfull : subarrayLen s j = j + 1 := by
                apply subarray_full_len hV hjk
                rcases Nat.lt_or_ge (j + 1) s.min_indexes.length with hlt2 | hge2
                · left; omega
                · right
                  rw [← last_full_iff]
                  cases hbf : is_last_subarray_full s
                  · exact absurd ⟨by omega, by rw [hbf]; exact Bool.false_ne_true⟩ hlast2
                  · rfl
              have hpm := prev_max_get hV (m := j + 1) (by omega) (by omega)
                (by simpa using hfull)
              simp only [Nat.add_sub_cancel] at hpm
              obtain ⟨w, hw2⟩ : ∃ w, (toList s).get? (integer_sum (j + 1) - 1) = some w := by
                cases hx : (toList s).get? (integer_sum (j + 1) - 1) with
                | none => rw [List.get?_eq_none] at hx; omega
                | some w => exact ⟨w, rfl⟩
              have hvw : v ≤ w := hvgt hw2 (by omega)
              have hgd : s.data.getD (if s.min_indexes.getD j 0 = 0 then
                  get_array_idx_from_subarray_idx (j + 1) - 1
                  else get_array_idx_from_subarray_idx j + s.min_indexes.getD j 0 - 1) 0 = w := by
                rw [List.getD_eq_get?, hpm, hw2]
                rfl
              rw [hgd, if_pos hvw]
          have hres := find_raw_index_error_case s v hne hbs j hchoice
          have hoff : ¬ (get_array_idx_from_subarray_idx j = s.data.length) := by
            rw [arr_eq_sum]
            omega
          rw [hres, if_neg hoff, slice_code hV hjk]
          have hpiv : s.min_indexes.getD j 0 = pivotOf s j := rfl
          rw [hpiv, arr_eq_sum]
          have hiff : (toList s).countP (fun x => decide (x < v)) =
              integer_sum j + subarrayLen s j ↔
              (toList s).countP (fun x => decide (x < v)) = s.data.length := by
            constructor
            · intro h
              omega
            · intro h
              omega
          rw [← errOf_formula hV hjk (by omega) (by omega) hiff]
          exact halves_absent hV hjk hv (by omega) (by omega) (by omega)
      · -- r = n: insertion after every element
        have hrn2 : (toList s).countP (fun x => decide (x < v)) = s.data.length := by omega
        have hGn1 : get_subarray_idx_from_array_idx (s.data.length - 1) =
            s.min_indexes.length - 1 := by
          obtain ⟨hjk, hle2, hq2⟩ := owner_lt hV (show s.data.length - 1 < s.data.length by omega)
          set j0 := get_subarray_idx_from_array_idx (s.data.length - 1) with hj0def
          have hw0 := subarray_window hV hjk
          by_contra hne2
          have hj0lt : j0 < s.min_indexes.length - 1 := by omega
          have hfull : subarrayLen s j0 = j0 + 1 := subarray_full_len hV hjk (by left; omega)
          have := integer_sum_succ j0
          have hmono : integer_sum (j0 + 1) ≤ integer_sum (s.min_indexes.length - 1) :=
            integer_sum_mono (by omega)
          omega
        have hcpv : s.min_data.countP (fun x => decide (x < v)) = s.min_indexes.length := by
          rw [hcp, if_neg (by omega), hrn2, hGn1]
          omega
        have hbs : binary_search s.min_data v = .error s.min_indexes.length := by
          rw [binary_search_of_absent hmdnm, hcpv]
        by_cases hfull : is_last_subarray_full s
        · -- full: a fresh subarray is implied; insertion point is the store length
          have hfn : s.data.length = integer_sum s.min_indexes.length :=
            (last_full_iff s).mp hfull
          have hfull1 : subarrayLen s (s.min_indexes.length - 1) = s.min_indexes.length := by
            have : subarrayLen s (s.min_indexes.length - 1) = (s.min_indexes.length - 1) + 1 :=
              subarray_full_len hV (by omega) (by right; exact hfn)
            omega
          have hpm := prev_max_get hV (m := s.min_indexes.length) (by omega) (by omega) hfull1
          obtain ⟨w, hw2⟩ : ∃ w,
              (toList s).get? (integer_sum s.min_indexes.length - 1) = some w := by
            cases hx : (toList s).get? (integer_sum s.min_indexes.length - 1) with
            | none => rw [List.get?_eq_none] at hx; omega
            | some w => exact ⟨w, rfl⟩
          have hwv : w < v := by
            have := (sorted_countP_iff' (toList_pairwise hV) v hw2).mpr (by omega)
            exact this
          have hchoice : (if s.min_indexes.length = 0 then 0
              else if s.min_indexes.length = s.min_indexes.length ∧
                  ¬ is_last_subarray_full s then s.min_indexes.length - 1
              else if v ≤ s.data.getD
                  (if s.min_indexes.getD (s.min_indexes.length - 1) 0 = 0 then
                    get_array_idx_from_subarray_idx s.min_indexes.length - 1
                  else get_array_idx_from_subarray_idx (s.min_indexes.length - 1) +
                    s.min_indexes.getD (s.min_indexes.length - 1) 0 - 1) 0
                then s.min_indexes.length - 1 else s.min_indexes.length) =
              s.min_indexes.length := by
            rw [if_neg (by omega), if_neg (fun hcon => hcon.2 hfull)]
            have hgd : s.data.getD
                (if s.min_indexes.getD (s.min_indexes.length - 1) 0 = 0 then
                  get_array_idx_from_subarray_idx s.min_indexes.length - 1
                else get_array_idx_from_subarray_idx (s.min_indexes.length - 1) +
                  s.min_indexes.getD (s.min_indexes.length - 1) 0 - 1) 0 = w := by
              rw [List.getD_eq_get?, hpm, hw2]
              rfl
            rw [hgd, if_neg (by omega)]
          have hres := find_raw_index_error_case s v hne hbs s.min_indexes.length hchoice
          have hoff : get_array_idx_from_subarray_idx s.min_indexes.length = s.data.length := by
            rw [arr_eq_sum]
            omega
          rw [hres, if_pos hoff]
          simp only [errOf]
          rw [if_pos hrn2, hoff]
        · -- not full: insertion goes to the end of the partial last subarray
          have hnfn : s.data.length < integer_sum s.min_indexes.length := by
            rcases Nat.lt_or_ge s.data.length (integer_sum s.min_indexes.length) with h | h
            · exact h
            · have : s.data.length = integer_sum s.min_indexes.length := by omega
              exact absurd ((last_full_iff s).mpr this) hfull
          have hjk : s.min_indexes.length - 1 < s.min_indexes.length := by omega
          have hlastlen : integer_sum (s.min_indexes.length - 1) +
              subarrayLen s (s.min_indexes.length - 1) = s.data.length := by
            have := subarray_window hV hjk
            unfold subarrayLen at *
            rw [if_pos rfl] at *
            rw [arr_eq_sum] at *
            omega
          have hchoice : (if s.min_indexes.length = 0 then 0
              else if s.min_indexes.length = s.min_indexes.length ∧
                  ¬ is_last_subarray_full s then s.min_indexes.length - 1
              else if v ≤ s.data.getD
                  (if s.min_indexes.getD (s.min_indexes.length - 1) 0 = 0 then
                    get_array_idx_from_subarray_idx s.min_indexes.length - 1
                  else get_array_idx_from_subarray_idx (s.min_indexes.length - 1) +
                    s.min_indexes.getD (s.min_indexes.length - 1) 0 - 1) 0
                then s.min_indexes.length - 1 else s.min_indexes.length) =
              s.min_indexes.length - 1 := by
            rw [if_neg (by omega), if_pos ⟨rfl, by simpa using hfull⟩]
          have hres := find_raw_index_error_case s v hne hbs (s.min_indexes.length - 1) hchoice
          have hoff : ¬ (get_array_idx_from_subarray_idx (s.min_indexes.length - 1) =
              s.data.length) := by
            rw [arr_eq_sum]
            omega
          rw [hres, if_neg hoff, slice_code hV hjk]
          have hpiv : s.min_indexes.getD (s.min_indexes.length - 1) 0 =
              pivotOf s (s.min_indexes.length - 1) := rfl
          rw [hpiv, arr_eq_sum]
          have hiff : (toList s).countP (fun x => decide (x < v)) =
              integer_sum (s.min_indexes.length - 1) +
                subarrayLen s (s.min_indexes.length - 1) ↔
              (toList s).countP (fun x => decide (x < v)) = s.data.length := by
            omega
          rw [← errOf_formula hV hjk (by omega) (by omega) hiff]
          exact halves_absent hV hjk hv (by omega) (by omega)
            (fun _ => valid_partial_pivot hV hnfn)

theorem get_spec_mem {s : RotatedArraySet} (hV : Valid s) {v : Int} {i : Nat}
    (hi : (toList s).get? i = some v) : get s v = some v := by
  have hlen := toList_length hV
  have hin : i < s.data.length := by
    by_contra hge
    rw [List.get?_eq_none.mpr (by omega)] at hi
    exact Option.noConfusion hi
  have hdata : s.data.get? (rawOf s i) = some v := by
    rw [← toList_get?_eq_data hV hin]
    exact hi
  unfold get
  rw [find_spec_ok hV hi]
  dsimp only
  rw [List.getD_eq_get?, hdata]
  rfl

theorem get_spec_absent {s : RotatedArraySet} (hV : Valid s) {v : Int}
    (hv : v ∉ toList s) : get s v = none := by
  unfold get
  rw [find_spec_err hV hv]

theorem contains_iff {s : RotatedArraySet} (hV : Valid s) (v : Int) :
    contains s v = true ↔ v ∈ toList s := by
  constructor
  · intro hc
    by_contra hm
    unfold contains at hc
    rw [get_spec_absent hV hm] at hc
    exact Bool.noConfusion hc
  · intro hm
    obtain ⟨i, hi⟩ := List.mem_iff_get?.mp hm
    unfold contains
    rw [get_spec_mem hV hi]
    rfl

theorem contains_false_iff {s : RotatedArraySet} (hV : Valid s) (v : Int) :
    contains s v = false ↔ v ∉ toList s := by
  rw [← Bool.not_eq_true, not_iff_not]
  exact contains_iff hV v

theorem rank_spec_ok {s : RotatedArraySet} (hV : Valid s) {v : Int} {i : Nat}
    (hi : (toList s).get? i = some v) : rank s v = .ok i := by
  have hlen := toList_length hV
  have hin : i < s.data.length := by
    by_contra hge
    rw [List.get?_eq_none.mpr (by omega)] at hi
    exact Option.noConfusion hi
  obtain ⟨hjk, hle, hq⟩ := owner_lt hV hin
  set j := get_subarray_idx_from_array_idx i with hjdef
  have hw := subarray_window hV hjk
  have hp := valid_pivot_lt hV hjk
  have hf := find_spec_ok hV hi
  have hraw := rawOf_eq s i
  rw [← hjdef] at hraw
  have hrr := rawOf_range hV hin
  have hmodlt : (pivotOf s j + (i - integer_sum j)) % subarrayLen s j < subarrayLen s j :=
    Nat.mod_lt _ (by omega)
  unfold rank
  rw [hf]
  dsimp only
  rw [if_neg (by omega)]
  have hGraw : get_subarray_idx_from_array_idx (rawOf s i) = j := by
    have hsucc := integer_sum_succ j
    apply get_sub_eq
    · rw [hraw]
      omega
    · rw [hraw]
      omega
  rw [hGraw]
  have hlenx : (if j = s.min_indexes.length - 1 then
      s.data.length - get_array_idx_from_subarray_idx j else j + 1) = subarrayLen s j := rfl
  rw [hlenx, arr_eq_sum]
  have hpiv : s.min_indexes.getD j 0 = pivotOf s j := rfl
  rw [hpiv, if_pos rfl]
  apply congrArg Except.ok
  have hdisj : (pivotOf s j + (i - integer_sum j)) % subarrayLen s j =
      pivotOf s j + (i - integer_sum j) ∨
      ((pivotOf s j + (i - integer_sum j)) % subarrayLen s j =
        pivotOf s j + (i - integer_sum j) - subarrayLen s j ∧
        subarrayLen s j ≤ pivotOf s j + (i - integer_sum j)) := by
    rcases Nat.lt_or_ge (pivotOf s j + (i - integer_sum j)) (subarrayLen s j) with h | h
    · left
      exact Nat.mod_eq_of_lt h
    · right
      refine ⟨?_, h⟩
      have h1 : pivotOf s j + (i - integer_sum j) =
          (pivotOf s j + (i - integer_sum j) - subarrayLen s j) + subarrayLen s j := by omega
      have h2 : pivotOf s j + (i - integer_sum j) - subarrayLen s j < subarrayLen s j := by
        omega
      conv_lhs => rw [h1]
      rw [Nat.add_mod_right]
      exact Nat.mod_eq_of_lt h2
  split
  · rcases hdisj with h | ⟨h, h2⟩ <;> omega
  · rcases hdisj with h | ⟨h, h2⟩ <;> omega

/-! ### Window framing: drop-take segments of the backing store -/

theorem window_get? (l : List Int) (a b q : Nat) :
    ((l.drop a).take b).get? q = if q < b then l.get? (a + q) else none := by
  split
  · rename_i hq
    rw [List.get?_take hq, List.get?_drop]
  · rename_i hq
    apply List.get?_eq_none.mpr
    have := List.length_take b (l.drop a)
    omega

theorem insertIdx_take_drop (v : Int) : ∀ (r : Nat) (l : List Int), r ≤ l.length →
    l.insertIdx r v = l.take r ++ v :: l.drop r := by
  intro r
  induction r with
  | zero => intro l _; simp [List.insertIdx_zero]
  | succ r ih =>
    intro l hl
    cases l with
    | nil => simp at hl
    | cons x xs =>
      rw [List.insertIdx_succ_cons, ih xs (by simpa using hl)]
      simp

theorem insertIdx_get? {l : List Int} {r : Nat} (hr : r ≤ l.length) (v : Int) (q : Nat) :
    (l.insertIdx r v).get? q =
      if q < r then l.get? q else if q = r then some v else l.get? (q - 1) := by
  rw [insertIdx_take_drop v r l hr]
  rcases Nat.lt_trichotomy q r with h | h | h
  · rw [if_pos h, List.get?_append (by rw [List.length_take]; omega),
      List.get?_take h]
  · subst h
    rw [if_neg (by omega), if_pos rfl,
      List.get?_append_right (by rw [List.length_take]; omega)]
    simp [List.length_take, Nat.min_eq_left hr]
  · rw [if_neg (by omega), if_neg (by omega),
      List.get?_append_right (by rw [List.length_take]; omega)]
    have hlt : (List.take r l).length = r := by rw [List.length_take]; omega
    rw [hlt]
    have : q - r = (q - r - 1) + 1 := by omega
    rw [this]
    simp only [List.get?_cons_succ, List.get?_drop]
    congr 1
    omega

theorem eraseIdx_get? {l : List Int} {r : Nat} (hr : r < l.length) (q : Nat) :
    (l.eraseIdx r).get? q = if q < r then l.get? q else l.get? (q + 1) := by
  rw [List.eraseIdx_eq_take_drop_succ]
  split
  · rename_i h
    rw [List.get?_append (by rw [List.length_take]; omega), List.get?_take h]
  · rename_i h
    rw [List.get?_append_right (by rw [List.length_take]; omega)]
    have hlt : (List.take r l).length = r := by rw [List.length_take]; omega
    rw [hlt, List.get?_drop]
    congr 1
    omega

theorem flatten_chunks {α : Type} (M : List α) (k : Nat) (f : Nat → List α)
    (start : Nat → Nat) (h0 : start 0 = 0) (hk : start k = M.length)
    (hmono : ∀ j, j < k → start j ≤ start (j + 1))
    (hf : ∀ j, j < k → f j = (M.drop (start j)).take (start (j + 1) - start j)) :
    ((List.range k).map f).flatten = M := by
  have haux : ∀ m, m ≤ k → ((List.range m).map f).flatten = M.take (start m) := by
    intro m
    induction m with
    | zero => intro _; rw [h0]; simp
    | succ m ih =>
      intro hm
      rw [List.range_succ, List.map_append, List.flatten_append, ih (by omega)]
      simp only [List.map_cons, List.map_nil, List.flatten_cons, List.flatten_nil,
        List.append_nil]
      rw [hf m (by omega)]
      have hm2 : start (m + 1) = start m + (start (m + 1) - start m) := by
        have := hmono m (by omega)
        omega
      conv_rhs => rw [hm2]
      rw [List.take_add]
  have := haux k le_rfl
  rw [hk] at this
  rw [this, List.take_length]

theorem toList_window {s : RotatedArraySet} (hV : Valid s) {j : Nat}
    (hj : j < s.min_indexes.length) :
    ((toList s).drop (integer_sum j)).take (subarrayLen s j) = unrot s j := by
  apply List.ext_get?
  intro q
  rw [window_get?]
  split
  · rename_i hq
    exact toList_get? hV hj hq
  · rename_i hq
    symm
    apply List.get?_eq_none.mpr
    rw [unrot_length hV hj]
    omega

theorem sorted_insertIdx {l : List Int} (hp : l.Pairwise (· < ·)) {v : Int}
    (hv : v ∉ l) :
    (l.insertIdx (l.countP (fun x => decide (x < v))) v).Pairwise (· < ·) := by
  set r := l.countP (fun x => decide (x < v)) with hr
  have hrle : r ≤ l.length := by rw [hr]; exact List.countP_le_length _
  rw [insertIdx_take_drop v r l hrle]
  rw [List.pairwise_append]
  have hdropby : ∀ y, y ∈ l.drop r → ¬ (y < v) := by
    intro y hy hlt
    obtain ⟨q, hq2⟩ := List.mem_iff_get?.mp hy
    rw [List.get?_drop] at hq2
    have := (sorted_countP_iff' hp v hq2).mp hlt
    omega
  have htakeby : ∀ x, x ∈ l.take r → x < v := by
    intro x hx
    obtain ⟨q, hq2⟩ := List.mem_iff_get?.mp hx
    have hqr : q < r := by
      by_contra hge
      rw [List.get?_eq_none.mpr (by rw [List.length_take]; omega)] at hq2
      exact Option.noConfusion hq2
    rw [List.get?_take hqr] at hq2
    exact (sorted_countP_iff' hp v hq2).mpr hqr
  refine ⟨hp.take, ?_, ?_⟩
  · rw [List.pairwise_cons]
    refine ⟨?_, hp.drop⟩
    intro y hy
    have hvy := hdropby y hy
    have hne : y ≠ v := by
      intro he
      exact hv (he ▸ List.mem_of_mem_drop hy)
    omega
  · intro x hx y hy
    have hxv := htakeby x hx
    rcases List.mem_cons.mp hy with hyv | hyd
    · omega
    · have hvy := hdropby y hyd
      omega

theorem build_valid (t : RotatedArraySet) (M : List Int)
    (hmd : t.min_data.length = t.min_indexes.length)
    (hdl : t.data.length = M.length)
    (hb : if t.min_indexes.length = 0 then M.length = 0
          else integer_sum (t.min_indexes.length - 1) < M.length ∧
            M.length ≤ integer_sum t.min_indexes.length)
    (hpiv : ∀ j, j < t.min_indexes.length → pivotOf t j < subarrayLen t j)
    (hpp : M.length < integer_sum t.min_indexes.length →
      pivotOf t (t.min_indexes.length - 1) = 0)
    (hw : ∀ j, j < t.min_indexes.length →
      unrot t j = (M.drop (integer_sum j)).take (subarrayLen t j))
    (hmdv : ∀ j, j < t.min_indexes.length → t.min_data.get? j = M.get? (integer_sum j))
    (hM : M.Pairwise (· < ·)) :
    Valid t ∧ toList t = M := by
  have hMk : M.length ≤ integer_sum t.min_indexes.length := by
    split at hb
    · rename_i h0
      rw [h0]
      have hz : integer_sum 0 = 0 := rfl
      omega
    · exact hb.2
  have hlen_eq : ∀ j, j < t.min_indexes.length →
      subarrayLen t j = min (integer_sum (j + 1)) M.length - integer_sum j := by
    intro j hj
    have hsj : integer_sum j ≤ integer_sum (t.min_indexes.length - 1) :=
      integer_sum_mono (by omega)
    have hb2 : integer_sum (t.min_indexes.length - 1) < M.length := by
      rw [if_neg (by omega)] at hb
      exact hb.1
    have hsucc := integer_sum_succ j
    unfold subarrayLen
    split
    · rename_i hlast
      have hkk : j + 1 = t.min_indexes.length := by omega
      rw [arr_eq_sum, hdl, hkk]
      omega
    · rename_i hnl
      have : integer_sum (j + 1) ≤ integer_sum (t.min_indexes.length - 1) :=
        integer_sum_mono (by omega)
      omega
  have htl : toList t = M := by
    unfold toList
    apply flatten_chunks M t.min_indexes.length (unrot t)
      (fun j => min (integer_sum j) M.length)
    · show min (integer_sum 0) M.length = 0
      simp [integer_sum_zero]
    · show min (integer_sum t.min_indexes.length) M.length = M.length
      omega
    · intro j hj
      show min (integer_sum j) M.length ≤ min (integer_sum (j + 1)) M.length
      have := integer_sum_mono (show j ≤ j + 1 by omega)
      omega
    · intro j hj
      show unrot t j = (M.drop (min (integer_sum j) M.length)).take
        (min (integer_sum (j + 1)) M.length - min (integer_sum j) M.length)
      have hsj : integer_sum j ≤ integer_sum (t.min_indexes.length - 1) :=
        integer_sum_mono (by omega)
      have hb2 : integer_sum (t.min_indexes.length - 1) < M.length := by
        rw [if_neg (by omega)] at hb
        exact hb.1
      have hminj : min (integer_sum j) M.length = integer_sum j := by omega
      rw [hminj, hw j hj, hlen_eq j hj]
  have hlen_pos : ∀ j, j < t.min_indexes.length → 0 < subarrayLen t j := by
    intro j hj
    have hsj : integer_sum j ≤ integer_sum (t.min_indexes.length - 1) :=
      integer_sum_mono (by omega)
    have hb2 : integer_sum (t.min_indexes.length - 1) < M.length := by
      rw [if_neg (by omega)] at hb
      exact hb.1
    rw [hlen_eq j hj]
    have := integer_sum_succ j
    omega
  have hwin_le : ∀ j, j < t.min_indexes.length →
      integer_sum j + subarrayLen t j ≤ M.length := by
    intro j hj
    have hsj : integer_sum j ≤ integer_sum (t.min_indexes.length - 1) :=
      integer_sum_mono (by omega)
    have hb2 : integer_sum (t.min_indexes.length - 1) < M.length := by
      rw [if_neg (by omega)] at hb
      exact hb.1
    rw [hlen_eq j hj]
    omega
  have hmds : ∀ j, j < t.min_indexes.length →
      t.data.get? (integer_sum j + pivotOf t j) = M.get? (integer_sum j) := by
    intro j hj
    have hp := hpiv j hj
    have hslice_len : (subarraySlice t j).length = subarrayLen t j := by
      unfold subarraySlice
      rw [List.length_take, List.length_drop, arr_eq_sum, hdl]
      have := hwin_le j hj
      omega
    have hu0 : (unrot t j).get? 0 = (subarraySlice t j).get? (pivotOf t j) := by
      unfold unrot
      have h0lt : 0 < ((subarraySlice t j).rotate (pivotOf t j)).length := by
        rw [List.length_rotate, hslice_len]
        exact hlen_pos j hj
      rw [List.get?_eq_get h0lt, List.get_rotate]
      have hmod : (0 + pivotOf t j) % (subarraySlice t j).length = pivotOf t j := by
        rw [hslice_len, Nat.zero_add]
        exact Nat.mod_eq_of_lt (by omega)
      rw [List.get?_eq_get (by rw [hslice_len]; omega : pivotOf t j <
        (subarraySlice t j).length)]
      exact congrArg some (congrArg (subarraySlice t j).get (Fin.ext hmod))
    have hsl : (subarraySlice t j).get? (pivotOf t j) =
        t.data.get? (integer_sum j + pivotOf t j) := by
      unfold subarraySlice
      rw [arr_eq_sum, window_get?, if_pos hp]
    have hu0' : (unrot t j).get? 0 = M.get? (integer_sum j) := by
      rw [hw j hj, window_get?, if_pos (hlen_pos j hj), Nat.add_zero]
    rw [← hsl, ← hu0, hu0']
  refine ⟨⟨hmd, ?_, hpiv, ?_, ?_, ?_⟩, htl⟩
  · split at hb
    · rename_i h0
      rw [if_pos h0]
      omega
    · rename_i hk0
      rw [if_neg hk0]
      rw [arr_eq_sum, arr_eq_sum]
      omega
  · intro hlt
    apply hpp
    rw [arr_eq_sum] at hlt
    omega
  · intro j hj
    rw [hmdv j hj, arr_eq_sum, hmds j hj]
  · rw [htl]
    exact hM.chain'

/-! ### Rotated-offset arithmetic for the mutation loops -/

theorem mo_eq {p cur : Nat} (hp : p ≤ cur) :
    (p + cur) % (cur + 1) = if p = 0 then cur else p - 1 := by
  split
  · rename_i h0
    subst h0
    rw [Nat.zero_add]
    exact Nat.mod_eq_of_lt (by omega)
  · rename_i hpos
    have h1 : p + cur = (p - 1) + (cur + 1) := by omega
    rw [h1, Nat.add_mod_right]
    exact Nat.mod_eq_of_lt (by omega)

theorem mo_mod {p cur q : Nat} (hp : p ≤ cur) (hq1 : 1 ≤ q) (hq : q ≤ cur) :
    ((if p = 0 then cur else p - 1) + q) % (cur + 1) = (p + (q - 1)) % (cur + 1) ∧
    ((if p = 0 then cur else p - 1) + q) % (cur + 1) ≠ (if p = 0 then cur else p - 1) := by
  have harg : (if p = 0 then cur else p - 1) + q = (p + (q - 1)) + (if p = 0 then cur + 1 else 0) := by
    split <;> omega
  constructor
  · rw [harg]
    split
    · rw [Nat.add_mod_right]
    · rw [Nat.add_zero]
  · rw [harg]
    rcases Nat.lt_or_ge (p + (q - 1)) (cur + 1) with hsm | hbg
    · split
      · rename_i h0
        rw [Nat.add_mod_right, Nat.mod_eq_of_lt hsm]
        omega
      · rename_i hpos
        rw [Nat.add_zero, Nat.mod_eq_of_lt hsm]
        omega
    · have hp0 : p ≠ 0 := by omega
      rw [if_neg hp0, Nat.add_zero]
      have h1 : p + (q - 1) = (p + (q - 1) - (cur + 1)) + (cur + 1) := by omega
      rw [h1, Nat.add_mod_right, Nat.mod_eq_of_lt (by omega)]
      omega

theorem copy_within_get? (l : List Int) (a b d q : Nat) :
    (copy_within l a b d).get? q =
      if q < l.length then
        some (if d ≤ q ∧ q < d + (b - a) then l.getD (a + (q - d)) 0 else l.getD q 0)
      else none := by
  unfold copy_within
  split
  · rename_i hq
    rw [List.get?_eq_get (by rw [List.length_mapIdx]; exact hq)]
    simp only [List.get_eq_getElem, List.getElem_mapIdx]
    congr 1
    split
    · rfl
    · rw [List.getD_eq_get?, List.get?_eq_get hq]
      rfl
  · rename_i hq
    apply List.get?_eq_none.mpr
    rw [List.length_mapIdx]
    omega

theorem copy_within_length (l : List Int) (a b d : Nat) :
    (copy_within l a b d).length = l.length := by
  unfold copy_within
  rw [List.length_mapIdx]

theorem getD_get? (l : List Int) (i : Nat) (x : Int) (h : l.get? i = some x) :
    l.getD i 0 = x := by
  rw [List.getD_eq_get?, h]
  rfl

theorem natGetD_get? (l : List Nat) (i : Nat) (x : Nat) (h : l.get? i = some x) :
    l.getD i 0 = x := by
  rw [List.getD_eq_get?, h]
  rfl

theorem subarrayLen_le {s : RotatedArraySet} (hV : Valid s) {j : Nat}
    (hj : j < s.min_indexes.length) : subarrayLen s j ≤ j + 1 := by
  have hb := valid_n_bounds hV (by omega)
  unfold subarrayLen
  split
  · rename_i hlast
    rw [arr_eq_sum]
    have h1 : integer_sum (j + 1) = integer_sum j + (j + 1) := integer_sum_succ j
    have h2 : j + 1 = s.min_indexes.length := by omega
    have h3 : integer_sum (j + 1) = integer_sum s.min_indexes.length := by rw [h2]
    omega
  · omega

theorem rawOf_owner {s : RotatedArraySet} (hV : Valid s) {i : Nat} (hi : i < s.data.length) :
    get_subarray_idx_from_array_idx (rawOf s i) = get_subarray_idx_from_array_idx i := by
  obtain ⟨hjk, hle, hoff⟩ := owner_lt hV hi
  have hlen := subarrayLen_le hV hjk
  have hmod : (pivotOf s (get_subarray_idx_from_array_idx i) +
      (i - integer_sum (get_subarray_idx_from_array_idx i))) %
        subarrayLen s (get_subarray_idx_from_array_idx i) <
      subarrayLen s (get_subarray_idx_from_array_idx i) := Nat.mod_lt _ (by omega)
  apply get_sub_eq
  · rw [rawOf_eq]
    omega
  · rw [rawOf_eq]
    have := integer_sum_succ (get_subarray_idx_from_array_idx i)
    omega

theorem unrot_eq_window (t : RotatedArraySet) (j : Nat) (W : List Int)
    (hslice : (subarraySlice t j).length = subarrayLen t j)
    (hpos : 0 < subarrayLen t j)
    (hp : pivotOf t j < subarrayLen t j)
    (hW : W.length = subarrayLen t j)
    (hq : ∀ q, q < subarrayLen t j →
      t.data.get? (integer_sum j + (pivotOf t j + q) % subarrayLen t j) = W.get? q) :
    unrot t j = W := by
  have hrange : integer_sum j + subarrayLen t j ≤ t.data.length := by
    unfold subarraySlice at hslice
    rw [List.length_take, List.length_drop, arr_eq_sum] at hslice
    omega
  apply List.ext_get?
  intro q
  rcases Nat.lt_or_ge q (subarrayLen t j) with hqlt | hqge
  · have hq2 : q < ((subarraySlice t j).rotate (pivotOf t j)).length := by
      rw [List.length_rotate, hslice]
      exact hqlt
    unfold unrot
    rw [List.get?_eq_get hq2, List.get_rotate]
    have hmod : (q + pivotOf t j) % (subarraySlice t j).length =
        (pivotOf t j + q) % subarrayLen t j := by
      rw [hslice, Nat.add_comm]
    have hmlt : (pivotOf t j + q) % subarrayLen t j < subarrayLen t j :=
      Nat.mod_lt _ (by omega)
    have hsl : (subarraySlice t j).get? ((pivotOf t j + q) % subarrayLen t j) =
        t.data.get? (integer_sum j + (pivotOf t j + q) % subarrayLen t j) := by
      unfold subarraySlice
      rw [arr_eq_sum, window_get?, if_pos hmlt]
    rw [← hq q hqlt, ← hsl,
      List.get?_eq_get (by rw [hslice]; exact hmlt)]
    exact congrArg some (congrArg (subarraySlice t j).get (Fin.ext hmod))
  · have h1 : W.get? q = none := List.get?_eq_none.mpr (by rw [hW]; omega)
    have h2 : (unrot t j).get? q = none := by
      apply List.get?_eq_none.mpr
      unfold unrot
      rw [List.length_rotate, hslice]
      omega
    rw [h1, h2]

theorem data_eq_toList_pivot0 {s : RotatedArraySet} (hV : Valid s) {j : Nat}
    (hj : j < s.min_indexes.length) (hp : pivotOf s j = 0) {q : Nat}
    (hq : q < subarrayLen s j) :
    s.data.get? (integer_sum j + q) = (toList s).get? (integer_sum j + q) := by
  rw [toList_get? hV hj hq, unrot_get? hV hj hq, hp, Nat.zero_add,
    Nat.mod_eq_of_lt hq]

/-! ### The carry-propagation loop of insert -/

theorem insertLoopFuel_spec (M : List Int) :
    ∀ (fuel : Nat) (st : PropState) (cur k : Nat) (full : Bool),
    fuel + cur = k →
    st.mi.length = k →
    st.md.length = k →
    (full = true → st.data.length = integer_sum k) →
    (full = false → cur ≤ k - 1 ∧ 1 ≤ k ∧ integer_sum (k - 1) ≤ st.data.length) →
    some st.carry = M.get? (integer_sum cur) →
    (∀ j, cur ≤ j → j < (if full then k else k - 1) →
      st.mi.getD j 0 ≤ j ∧
      ∀ q, q ≤ j → M.get? (integer_sum j + 1 + q) =
        st.data.get? (integer_sum j + (st.mi.getD j 0 + q) % (j + 1))) →
    InsLoopPost M st (insertLoopFuel fuel st cur (k - 1) full) cur k
      (if full then k else k - 1) := by
  intro fuel
  induction fuel with
  | zero =>
    intro st cur k full hfc hmi hmd hfull hnfull hcarry hH
    cases full with
    | false =>
      obtain ⟨h1, h2, _⟩ := hnfull rfl
      exact absurd hfc (by omega)
    | true =>
      have hcur : cur = k := by omega
      refine ⟨hmi, hmd, rfl, fun i _ => rfl, fun i _ => rfl,
        fun j _ => ⟨rfl, rfl⟩, fun j h1 h2 => ⟨rfl, rfl⟩,
        fun j hj1 hj2 => by simp at hj2; omega, ?_⟩
      simp only [if_true]
      rw [← hcur]
      exact hcarry
  | succ fuel ih =>
    intro st cur k full hfc hmi hmd hfull hnfull hcarry hH
    have hcurk : cur < k := by omega
    rw [insertLoopFuel, if_neg (by omega)]
    by_cases hg : cur = k - 1 ∧ full = false
    · rw [if_pos hg]
      obtain ⟨hg1, hg2⟩ := hg
      subst hg2
      simp only [Bool.false_eq_true, if_false]
      refine ⟨hmi, hmd, rfl, fun i _ => rfl, fun i _ => rfl,
        fun j _ => ⟨rfl, rfl⟩, fun j h1 h2 => ⟨rfl, rfl⟩,
        fun j hj1 hj2 => by omega, ?_⟩
      rw [← hg1]
      exact hcarry
    · rw [if_neg hg]
      dsimp only
      have hcs : cur < (if full then k else k - 1) := by
        cases full with
        | true => simpa using hcurk
        | false =>
          simp only [Bool.false_eq_true, if_false]
          obtain ⟨h1, h2, h3⟩ := hnfull rfl
          have hne : cur ≠ k - 1 := fun he => hg ⟨he, rfl⟩
          omega
      obtain ⟨hple, hpdata⟩ := hH cur le_rfl hcs
      have hmole : (if st.mi.getD cur 0 = 0 then cur else st.mi.getD cur 0 - 1) ≤ cur := by
        split <;> omega
      have hsucc := integer_sum_succ cur
      have hstople : integer_sum (cur + 1) ≤ integer_sum (if full then k else k - 1) :=
        integer_sum_mono (by omega)
      have hwin : integer_sum cur + (cur + 1) ≤ st.data.length := by
        cases full with
        | true =>
          have hd := hfull rfl
          have h2 : integer_sum (cur + 1) ≤ integer_sum k := integer_sum_mono (by omega)
          omega
        | false =>
          obtain ⟨h1, h2, h3⟩ := hnfull rfl
          have hcs2 : cur < k - 1 := by simpa using hcs
          have h4 : integer_sum (cur + 1) ≤ integer_sum (k - 1) :=
            integer_sum_mono (by omega)
          omega
      rw [arr_eq_sum]
      have hmo_mod : (st.mi.getD cur 0 + cur) % (cur + 1) =
          (if st.mi.getD cur 0 = 0 then cur else st.mi.getD cur 0 - 1) := mo_eq hple
      have hnm0 : st.data.get? (integer_sum cur +
          (if st.mi.getD cur 0 = 0 then cur else st.mi.getD cur 0 - 1)) =
          M.get? (integer_sum (cur + 1)) := by
        have h := hpdata cur le_rfl
        rw [hmo_mod] at h
        rw [← h]
        congr 1
        omega
      obtain ⟨c1, hc1⟩ : ∃ x, st.data.get? (integer_sum cur +
          (if st.mi.getD cur 0 = 0 then cur else st.mi.getD cur 0 - 1)) = some x := by
        cases hx : st.data.get? (integer_sum cur +
            (if st.mi.getD cur 0 = 0 then cur else st.mi.getD cur 0 - 1)) with
        | none =>
          rw [List.get?_eq_none] at hx
          omega
        | some y => exact ⟨y, rfl⟩
      have hgetD : st.data.getD
          ((if st.mi.getD cur 0 = 0 then cur else st.mi.getD cur 0 - 1) +
            integer_sum cur) 0 = c1 := by
        rw [Nat.add_comm]
        exact getD_get? _ _ _ hc1
      rw [hgetD]
      have hc1M : some c1 = M.get? (integer_sum (cur + 1)) := by
        rw [← hc1, hnm0]
      set st' : PropState :=
        ⟨st.data.set
            ((if st.mi.getD cur 0 = 0 then cur else st.mi.getD cur 0 - 1) +
              integer_sum cur) st.carry,
          st.mi.set cur (if st.mi.getD cur 0 = 0 then cur else st.mi.getD cur 0 - 1),
          st.md.set cur st.carry, c1⟩ with hst'
      have hd' : st'.data = st.data.set
          ((if st.mi.getD cur 0 = 0 then cur else st.mi.getD cur 0 - 1) +
            integer_sum cur) st.carry := by rw [hst']
      have hm' : st'.mi = st.mi.set cur
          (if st.mi.getD cur 0 = 0 then cur else st.mi.getD cur 0 - 1) := by rw [hst']
      have hmd' : st'.md = st.md.set cur st.carry := by rw [hst']
      have hc' : st'.carry = c1 := by rw [hst']
      have hpost := ih st' (cur + 1) k full (by omega)
        (by rw [hm', List.length_set]; exact hmi)
        (by rw [hmd', List.length_set]; exact hmd)
        (by intro hf; rw [hd', List.length_set]; exact hfull hf)
        (by
          intro hf
          obtain ⟨h1, h2, h3⟩ := hnfull hf
          have hcs2 : cur < k - 1 := by
            rw [hf] at hcs
            simpa using hcs
          refine ⟨by omega, h2, ?_⟩
          rw [hd', List.length_set]
          exact h3)
        (by rw [hc']; exact hc1M)
        (by
          intro j hj1 hj2
          obtain ⟨ha, hb⟩ := hH j (by omega) hj2
          have hgd : st'.mi.getD j 0 = st.mi.getD j 0 := by
            rw [hm', List.getD_eq_get?, List.get?_set_ne _ _ (by omega : cur ≠ j),
              ← List.getD_eq_get?]
          rw [hgd]
          refine ⟨ha, ?_⟩
          intro q hq
          rw [hb q hq, hd', List.get?_set_ne]
          have hjcur : integer_sum (cur + 1) ≤ integer_sum j := integer_sum_mono (by omega)
          omega)
      obtain ⟨p1, p2, p3, p4, p5, p6, p7, p8, p9⟩ := hpost
      have hdlen : st'.data.length = st.data.length := by
        rw [hd', List.length_set]
      refine ⟨p1, p2, by rw [p3, hdlen], ?_, ?_, ?_, ?_, ?_, p9⟩
      · intro i hi
        rw [p4 i (by omega), hd', List.get?_set_ne _ _ (by omega)]
      · intro i hi
        rw [p5 i hi, hd', List.get?_set_ne _ _ (by omega)]
      · intro j hj
        obtain ⟨q1, q2⟩ := p6 j (by omega)
        rw [q1, q2, hm', hmd',
          List.get?_set_ne _ _ (by omega), List.get?_set_ne _ _ (by omega)]
        exact ⟨rfl, rfl⟩
      · intro j hj1 hj2
        obtain ⟨q1, q2⟩ := p7 j hj1 hj2
        have hjcur : cur < j := by omega
        rw [q1, q2, hm', hmd',
          List.get?_set_ne _ _ (by omega), List.get?_set_ne _ _ (by omega)]
        exact ⟨rfl, rfl⟩
      · intro j hj1 hj2
        rcases Nat.eq_or_lt_of_le hj1 with hje | hjgt
        · subst hje
          obtain ⟨q1, q2⟩ := p6 cur (by omega)
          refine ⟨?_, ?_, ?_⟩
          · rw [q1, hm', List.get?_set_eq_of_lt _ (by rw [hmi]; omega)]
          · rw [q2, hmd', List.get?_set_eq_of_lt _ (by rw [hmd]; omega)]
            exact hcarry
          · intro q hq
            have hmlt : ((if st.mi.getD cur 0 = 0 then cur else st.mi.getD cur 0 - 1) + q) %
                (cur + 1) < cur + 1 := Nat.mod_lt _ (by omega)
            rw [p4 _ (by omega), hd']
            rcases Nat.eq_zero_or_pos q with hq0 | hqpos
            · subst hq0
              have hmod0 : ((if st.mi.getD cur 0 = 0 then cur else st.mi.getD cur 0 - 1) + 0) %
                  (cur + 1) = (if st.mi.getD cur 0 = 0 then cur else st.mi.getD cur 0 - 1) := by
                rw [Nat.add_zero]
                exact Nat.mod_eq_of_lt (by omega)
              rw [hmod0, Nat.add_comm (integer_sum cur)
                (if st.mi.getD cur 0 = 0 then cur else st.mi.getD cur 0 - 1)]
              rw [List.get?_set_eq_of_lt _ (by omega)]
              rw [Nat.add_zero]
              exact hcarry
            · obtain ⟨hmm, hne⟩ := @mo_mod (st.mi.getD cur 0) cur _ hple hqpos
                (by omega)
              rw [hmm]
              rw [List.get?_set_ne _ _ (by
                intro hcontra
                apply hne
                rw [hmm]
                omega)]
              have hx := hpdata (q - 1) (by omega)
              rw [show integer_sum cur + q = integer_sum cur + 1 + (q - 1) by omega]
              exact hx.symm
        · obtain ⟨q1, q2, q3⟩ := p8 j (by omega) hj2
          have hgd : st'.mi.getD j 0 = st.mi.getD j 0 := by
            rw [hm', List.getD_eq_get?, List.get?_set_ne _ _ (by omega : cur ≠ j),
              ← List.getD_eq_get?]
          rw [hgd] at q1 q3
          exact ⟨q1, q2, q3⟩

/-- A subarray whose physical window, pivot and nominal length agree with
those of a valid source container reads out as the corresponding window of
any list `M` that agrees with the source's contents there. -/
theorem unrot_M_of_unchanged {s t : RotatedArraySet} (hV : Valid s) {M : List Int} {j : Nat}
    (hj : j < s.min_indexes.length)
    (hlen : subarrayLen t j = subarrayLen s j)
    (hpiv : pivotOf t j = pivotOf s j)
    (hdata : ∀ i, integer_sum j ≤ i → i < integer_sum j + subarrayLen s j →
      t.data.get? i = s.data.get? i)
    (htlen : integer_sum j + subarrayLen s j ≤ t.data.length)
    (hMw : ∀ q, q < subarrayLen s j →
      M.get? (integer_sum j + q) = (toList s).get? (integer_sum j + q))
    (hMlen : integer_sum j + subarrayLen s j ≤ M.length) :
    unrot t j = (M.drop (integer_sum j)).take (subarrayLen t j) := by
  have hw := subarray_window hV hj
  have hpl := valid_pivot_lt hV hj
  apply unrot_eq_window
  · unfold subarraySlice
    rw [List.length_take, List.length_drop, arr_eq_sum, hlen]
    omega
  · rw [hlen]
    omega
  · rw [hlen, hpiv]
    exact hpl
  · rw [List.length_take, List.length_drop, hlen]
    omega
  · intro q hq
    rw [hlen] at hq
    rw [window_get?, if_pos (by rw [hlen]; exact hq), hlen, hpiv]
    have hmlt : (pivotOf s j + q) % subarrayLen s j < subarrayLen s j :=
      Nat.mod_lt _ (by omega)
    rw [hdata _ (by omega) (by omega)]
    have h1 : s.data.get? (integer_sum j + (pivotOf s j + q) % subarrayLen s j) =
        (unrot s j).get? q := (unrot_get? hV hj hq).symm
    rw [h1, ← toList_get? hV hj hq]
    exact (hMw q hq).symm

end RotSet

namespace RotSet

set_option maxHeartbeats 1000000

theorem insert_loop_finish_partial
    {s : RotatedArraySet} (hV : Valid s) {M : List Int} {r j0 : Nat}
    (d1 : List Int) (m1 : List Nat) (dd1 : List Int) (c0 : Int)
    (hj0 : j0 < s.min_indexes.length - 1)
    (hnf : s.data.length < integer_sum s.min_indexes.length)
    (hd1len : d1.length = s.data.length)
    (hm1len : m1.length = s.min_indexes.length)
    (hdd1len : dd1.length = s.min_indexes.length)
    (hm1get : ∀ j, j ≠ j0 → m1.get? j = s.min_indexes.get? j)
    (hdd1get : ∀ j, j ≠ j0 → dd1.get? j = s.min_data.get? j)
    (hd1out : ∀ i, i < integer_sum j0 ∨ integer_sum (j0 + 1) ≤ i →
      d1.get? i = s.data.get? i)
    (hpj0 : m1.getD j0 0 ≤ j0)
    (hWj0 : ∀ q, q ≤ j0 → d1.get? (integer_sum j0 + (m1.getD j0 0 + q) % (j0 + 1)) =
      M.get? (integer_sum j0 + q))
    (hmdj0 : dd1.get? j0 = M.get? (integer_sum j0))
    (hc0 : some c0 = M.get? (integer_sum (j0 + 1)))
    (hro : integer_sum j0 ≤ r) (hrlt : r < integer_sum (j0 + 1))
    (hMlow : ∀ x, x < r → M.get? x = (toList s).get? x)
    (hMhigh : ∀ x, r < x → x ≤ s.data.length → M.get? x = (toList s).get? (x - 1))
    (hMlen : M.length = s.data.length + 1)
    (hMsorted : M.Pairwise (· < ·)) :
    Valid { data := (insertLoop ⟨d1, m1, dd1, c0⟩ (j0 + 1) (m1.length - 1) false).data.insertIdx
              (get_array_idx_from_subarray_idx (m1.length - 1))
              (insertLoop ⟨d1, m1, dd1, c0⟩ (j0 + 1) (m1.length - 1) false).carry,
            min_indexes := (insertLoop ⟨d1, m1, dd1, c0⟩ (j0 + 1) (m1.length - 1) false).mi,
            min_data := ((insertLoop ⟨d1, m1, dd1, c0⟩ (j0 + 1) (m1.length - 1) false).md).set
              (m1.length - 1)
              (insertLoop ⟨d1, m1, dd1, c0⟩ (j0 + 1) (m1.length - 1) false).carry } ∧
    toList
        { data := (insertLoop ⟨d1, m1, dd1, c0⟩ (j0 + 1) (m1.length - 1) false).data.insertIdx
              (get_array_idx_from_subarray_idx (m1.length - 1))
              (insertLoop ⟨d1, m1, dd1, c0⟩ (j0 + 1) (m1.length - 1) false).carry,
          min_indexes := (insertLoop ⟨d1, m1, dd1, c0⟩ (j0 + 1) (m1.length - 1) false).mi,
          min_data := ((insertLoop ⟨d1, m1, dd1, c0⟩ (j0 + 1) (m1.length - 1) false).md).set
              (m1.length - 1)
              (insertLoop ⟨d1, m1, dd1, c0⟩ (j0 + 1) (m1.length - 1) false).carry } = M := by
  have hk2 : 2 ≤ s.min_indexes.length := by omega
  have hb := valid_n_bounds hV (by omega)
  have hpl0 : pivotOf s (s.min_indexes.length - 1) = 0 := valid_partial_pivot hV hnf
  have hlenfull : ∀ j, j < s.min_indexes.length - 1 → subarrayLen s j = j + 1 := by
    intro j hj
    unfold subarrayLen
    rw [if_neg (by omega)]
  have hrn : r < s.data.length := by
    have h1 : integer_sum (j0 + 1) ≤ integer_sum (s.min_indexes.length - 1) :=
      integer_sum_mono (by omega)
    omega
  have hloop := insertLoopFuel_spec M (s.min_indexes.length - (j0 + 1)) ⟨d1, m1, dd1, c0⟩
    (j0 + 1) s.min_indexes.length false (by omega)
    (by simpa using hm1len) (by simpa using hdd1len)
    (fun h => absurd h (by simp))
    (fun _ => by
      refine ⟨by omega, by omega, ?_⟩
      show integer_sum (s.min_indexes.length - 1) ≤ d1.length
      omega)
    (by simpa using hc0)
    (by
      intro j hj1 hj2
      replace hj2 : j < s.min_indexes.length - 1 := by simpa using hj2
      have hjk : j < s.min_indexes.length := by omega
      have hjne : j ≠ j0 := by omega
      have hgd : m1.getD j 0 = pivotOf s j := by
        rw [List.getD_eq_get?, hm1get j hjne, ← List.getD_eq_get?]
        rfl
      have hpl : pivotOf s j < subarrayLen s j := valid_pivot_lt hV hjk
      have hlj := hlenfull j hj2
      constructor
      · rw [hgd]
        omega
      · intro q hq
        have hmlt : (m1.getD j 0 + q) % (j + 1) < j + 1 := Nat.mod_lt _ (by omega)
        have hidx : integer_sum (j0 + 1) ≤ integer_sum j + (m1.getD j 0 + q) % (j + 1) := by
          have : integer_sum (j0 + 1) ≤ integer_sum j := integer_sum_mono (by omega)
          omega
        rw [hd1out _ (Or.inr hidx), hgd]
        have hq2 : q < subarrayLen s j := by omega
        have h1 : s.data.get? (integer_sum j + (pivotOf s j + q) % subarrayLen s j) =
            (unrot s j).get? q := (unrot_get? hV hjk hq2).symm
        rw [hlj] at h1
        rw [h1, ← toList_get? hV hjk hq2]
        have hxgt : r < integer_sum j + q + 1 := by
          have : integer_sum (j0 + 1) ≤ integer_sum j := integer_sum_mono (by omega)
          omega
        have hxle : integer_sum j + q + 1 ≤ s.data.length := by
          have h2 : integer_sum (j + 1) = integer_sum j + (j + 1) := integer_sum_succ j
          have h3 : integer_sum (j + 1) ≤ integer_sum (s.min_indexes.length - 1) :=
            integer_sum_mono (by omega)
          omega
        have := hMhigh (integer_sum j + q + 1) hxgt hxle
        rw [show integer_sum j + q + 1 - 1 = integer_sum j + q by omega] at this
        rw [← this]
        congr 1
        omega)
  simp only [insertLoop]
  rw [hm1len]
  obtain ⟨p1, p2, p3, p4, p5, p6, p7, p8, p9⟩ := hloop
  simp only [Bool.false_eq_true, if_false] at p1 p2 p3 p4 p5 p6 p7 p8 p9
  set lp := insertLoopFuel (s.min_indexes.length - (j0 + 1)) ⟨d1, m1, dd1, c0⟩ (j0 + 1)
    (s.min_indexes.length - 1) false with hlp
  clear_value lp
  have hld : lp.data.length = s.data.length := by rw [p3, hd1len]
  set T : RotatedArraySet := { data := lp.data.insertIdx (get_array_idx_from_subarray_idx (s.min_indexes.length - 1)) lp.carry, min_indexes := lp.mi, min_data := lp.md.set (s.min_indexes.length - 1) lp.carry } with hT
  have hTmi : T.min_indexes = lp.mi := rfl
  have hTd : T.data = lp.data.insertIdx
      (get_array_idx_from_subarray_idx (s.min_indexes.length - 1)) lp.carry := rfl
  have hTmd : T.min_data = lp.md.set (s.min_indexes.length - 1) lp.carry := rfl
  have hTmilen : T.min_indexes.length = s.min_indexes.length := by rw [hTmi, p1]
  have hSlast : integer_sum (s.min_indexes.length - 1) ≤ s.data.length := by omega
  have hTdlen : T.data.length = s.data.length + 1 := by
    rw [hTd, List.length_insertIdx _ _ (by rw [arr_eq_sum]; omega), hld]
  have hSj01 : integer_sum (j0 + 1) = integer_sum j0 + (j0 + 1) := integer_sum_succ j0
  have hSj0k : integer_sum (j0 + 1) ≤ integer_sum (s.min_indexes.length - 1) :=
    integer_sum_mono (by omega)
  have hTget : ∀ i, T.data.get? i =
      if i < integer_sum (s.min_indexes.length - 1) then lp.data.get? i
      else if i = integer_sum (s.min_indexes.length - 1) then some lp.carry
      else lp.data.get? (i - 1) := by
    intro i
    rw [hTd, arr_eq_sum]
    exact insertIdx_get? (by omega) lp.carry i
  have hpivt : ∀ j, pivotOf T j = lp.mi.getD j 0 := by
    intro j
    rfl
  have hmival : ∀ j, j < s.min_indexes.length - 1 → lp.mi.getD j 0 ≤ j := by
    intro j hj
    rcases Nat.lt_trichotomy j j0 with hjc | hjc | hjc
    · have h6 := (p6 j (by omega)).1
      have hgd : lp.mi.getD j 0 = pivotOf s j := by
        rw [List.getD_eq_get?, h6, hm1get j (by omega), ← List.getD_eq_get?]
        rfl
      rw [hgd]
      have := valid_pivot_lt hV (show j < s.min_indexes.length by omega)
      have := subarrayLen_le hV (show j < s.min_indexes.length by omega)
      omega
    · subst hjc
      have h6 := (p6 j (by omega)).1
      have hgd : lp.mi.getD j 0 = m1.getD j 0 := by
        rw [List.getD_eq_get?, h6, ← List.getD_eq_get?]
      rw [hgd]
      exact hpj0
    · have h8 := (p8 j (by omega) hj).1
      have hgd : lp.mi.getD j 0 = if m1.getD j 0 = 0 then j else m1.getD j 0 - 1 := by
        rw [List.getD_eq_get?, h8]
        rfl
      have hm1j : m1.getD j 0 = pivotOf s j := by
        rw [List.getD_eq_get?, hm1get j (by omega), ← List.getD_eq_get?]
        rfl
      have hpl : pivotOf s j < subarrayLen s j :=
        valid_pivot_lt hV (show j < s.min_indexes.length by omega)
      have hll := subarrayLen_le hV (show j < s.min_indexes.length by omega)
      rw [hgd, hm1j]
      split <;> omega
  have hpiv_last : lp.mi.getD (s.min_indexes.length - 1) 0 = 0 := by
    have h7 := (p7 (s.min_indexes.length - 1) (by omega) (by omega)).1
    rw [List.getD_eq_get?, h7, hm1get _ (by omega), ← List.getD_eq_get?]
    exact hpl0
  have hlent : ∀ j, j < s.min_indexes.length - 1 → subarrayLen T j = j + 1 := by
    intro j hj
    unfold subarrayLen
    rw [hTmilen, if_neg (by omega)]
  have hlent_k : subarrayLen T (s.min_indexes.length - 1) =
      s.data.length + 1 - integer_sum (s.min_indexes.length - 1) := by
    unfold subarrayLen
    rw [hTmilen, if_pos rfl, hTdlen, arr_eq_sum]
  have hslice : ∀ j, j < s.min_indexes.length - 1 →
      integer_sum j + (j + 1) ≤ integer_sum (s.min_indexes.length - 1) := by
    intro j hj
    have h1 : integer_sum (j + 1) ≤ integer_sum (s.min_indexes.length - 1) :=
      integer_sum_mono (by omega)
    have h2 : integer_sum (j + 1) = integer_sum j + (j + 1) := integer_sum_succ j
    omega
  refine build_valid T M ?_ ?_ ?_ ?_ ?_ ?_ ?_ hMsorted
  · rw [hTmi, hTmd, List.length_set, p1, p2]
  · rw [hTdlen, hMlen]
  · rw [hTmilen, if_neg (by omega), hMlen]
    omega
  · intro j hj
    rw [hTmilen] at hj
    rcases Nat.lt_or_ge j (s.min_indexes.length - 1) with hlt | hge
    · rw [hpivt j, hlent j hlt]
      have := hmival j hlt
      omega
    · have hje : j = s.min_indexes.length - 1 := by omega
      subst hje
      rw [hpivt, hlent_k, hpiv_last]
      omega
  · intro hlt
    rw [hTmilen, hpivt]
    exact hpiv_last
  · intro j hj
    rw [hTmilen] at hj
    rcases Nat.lt_or_ge j (s.min_indexes.length - 1) with hlt | hge
    · rw [hlent j hlt]
      apply unrot_eq_window
      · unfold subarraySlice
        rw [hlent j hlt, List.length_take, List.length_drop, hTdlen, arr_eq_sum]
        have := hslice j hlt
        omega
      · rw [hlent j hlt]
        omega
      · rw [hlent j hlt, hpivt j]
        have := hmival j hlt
        omega
      · rw [List.length_take, List.length_drop, hlent j hlt]
        have := hslice j hlt
        rw [hMlen]
        omega
      · rw [hlent j hlt, hpivt j]
        intro q hq
        rw [window_get?, if_pos hq]
        have hmlt : (lp.mi.getD j 0 + q) % (j + 1) < j + 1 := Nat.mod_lt _ (by omega)
        have hSq : integer_sum j + (lp.mi.getD j 0 + q) % (j + 1) <
            integer_sum (s.min_indexes.length - 1) := by
          have := hslice j hlt
          omega
        rw [hTget, if_pos hSq]
        rcases Nat.lt_trichotomy j j0 with hjc | hjc | hjc
        · have h6 := (p6 j (by omega)).1
          have hgd : lp.mi.getD j 0 = pivotOf s j := by
            rw [List.getD_eq_get?, h6, hm1get j (by omega), ← List.getD_eq_get?]
            rfl
          have hjk : j < s.min_indexes.length := by omega
          have hq2 : q < subarrayLen s j := by
            have := hlenfull j (by omega)
            omega
          have hidx : integer_sum j + (lp.mi.getD j 0 + q) % (j + 1) < integer_sum j0 := by
            have h2 : integer_sum (j + 1) = integer_sum j + (j + 1) := integer_sum_succ j
            have h3 : integer_sum (j + 1) ≤ integer_sum j0 := integer_sum_mono (by omega)
            omega
          rw [p4 _ (by omega), hd1out _ (Or.inl hidx), hgd]
          have h1 : s.data.get? (integer_sum j + (pivotOf s j + q) % subarrayLen s j) =
              (unrot s j).get? q := (unrot_get? hV hjk hq2).symm
          rw [hlenfull j (by omega)] at h1
          rw [h1, ← toList_get? hV hjk hq2]
          have hxlt : integer_sum j + q < r := by
            have h2 : integer_sum (j + 1) = integer_sum j + (j + 1) := integer_sum_succ j
            have h3 : integer_sum (j + 1) ≤ integer_sum j0 := integer_sum_mono (by omega)
            omega
          exact (hMlow _ hxlt).symm
        · subst hjc
          have h6 := (p6 j (by omega)).1
          have hgd : lp.mi.getD j 0 = m1.getD j 0 := by
            rw [List.getD_eq_get?, h6, ← List.getD_eq_get?]
          have hmlt2 : (m1.getD j 0 + q) % (j + 1) < j + 1 := Nat.mod_lt _ (by omega)
          rw [hgd, p4 _ (by omega)]
          exact hWj0 q (by omega)
        · obtain ⟨h81, h82, h83⟩ := p8 j (by omega) hlt
          have hgd : lp.mi.getD j 0 = if m1.getD j 0 = 0 then j else m1.getD j 0 - 1 := by
            rw [List.getD_eq_get?, h81]
            rfl
          rw [hgd]
          exact h83 q hq
    · -- the final partial subarray receives the carry at its head
      have hje : j = s.min_indexes.length - 1 := by omega
      subst hje
      rw [hlent_k]
      apply unrot_eq_window
      · unfold subarraySlice
        rw [hlent_k, List.length_take, List.length_drop, hTdlen, arr_eq_sum]
        omega
      · rw [hlent_k]
        omega
      · rw [hlent_k, hpivt, hpiv_last]
        omega
      · rw [List.length_take, List.length_drop, hlent_k, hMlen]
        omega
      · rw [hlent_k, hpivt, hpiv_last]
        intro q hq
        rw [window_get?, if_pos hq]
        have hz : (0 + q) % (s.data.length + 1 - integer_sum (s.min_indexes.length - 1)) =
            q := by
          rw [Nat.zero_add]
          exact Nat.mod_eq_of_lt (by omega)
        rw [hz, hTget]
        rcases Nat.eq_zero_or_pos q with hq0 | hqpos
        · subst hq0
          rw [if_neg (by omega), if_pos (by omega)]
          rw [Nat.add_zero]
          exact p9
        · rw [if_neg (by omega), if_neg (by omega)]
          have hidx : integer_sum (s.min_indexes.length - 1) ≤
              integer_sum (s.min_indexes.length - 1) + q - 1 := by omega
          rw [p5 _ hidx, hd1out _ (Or.inr (by omega))]
          have hjk : s.min_indexes.length - 1 < s.min_indexes.length := by omega
          have hlast_len : subarrayLen s (s.min_indexes.length - 1) =
              s.data.length - integer_sum (s.min_indexes.length - 1) := by
            unfold subarrayLen
            rw [if_pos rfl, arr_eq_sum]
          have hq2 : q - 1 < subarrayLen s (s.min_indexes.length - 1) := by
            rw [hlast_len]
            omega
          have hstep : s.data.get? (integer_sum (s.min_indexes.length - 1) + (q - 1)) =
              (toList s).get? (integer_sum (s.min_indexes.length - 1) + (q - 1)) :=
            data_eq_toList_pivot0 hV hjk hpl0 hq2
          rw [show integer_sum (s.min_indexes.length - 1) + q - 1 =
            integer_sum (s.min_indexes.length - 1) + (q - 1) by omega, hstep]
          have hxgt : r < integer_sum (s.min_indexes.length - 1) + q := by omega
          have hxle : integer_sum (s.min_indexes.length - 1) + q ≤ s.data.length := by omega
          have := hMhigh _ hxgt hxle
          rw [show integer_sum (s.min_indexes.length - 1) + q - 1 =
            integer_sum (s.min_indexes.length - 1) + (q - 1) by omega] at this
          exact this.symm
  · intro j hj
    rw [hTmilen] at hj
    rcases Nat.lt_or_ge j (s.min_indexes.length - 1) with hlt | hge
    · rw [hTmd, List.get?_set_ne _ _ (by omega)]
      rcases Nat.lt_trichotomy j j0 with hjc | hjc | hjc
      · have h6 := (p6 j (by omega)).2
        rw [h6, hdd1get j (by omega), md_entry hV (by omega)]
        have hxlt : integer_sum j < r := by
          have h3 : integer_sum (j + 1) ≤ integer_sum j0 := integer_sum_mono (by omega)
          have h2 : integer_sum (j + 1) = integer_sum j + (j + 1) := integer_sum_succ j
          omega
        exact (hMlow _ hxlt).symm
      · subst hjc
        have h6 := (p6 j (by omega)).2
        rw [h6]
        exact hmdj0
      · exact (p8 j (by omega) hlt).2.1
    · have hje : j = s.min_indexes.length - 1 := by omega
      subst hje
      rw [hTmd, List.get?_set_eq_of_lt _ (by rw [p2]; omega)]
      exact p9


theorem splice_get? (l mid : List Int) (a b : Nat) (ha : a ≤ b) (hb : b ≤ l.length)
    (hmid : mid.length = b - a) (q : Nat) :
    (l.take a ++ mid ++ l.drop b).get? q =
      if q < a then l.get? q else if q < b then mid.get? (q - a) else l.get? q := by
  have hta : (l.take a).length = a := by rw [List.length_take]; omega
  rcases Nat.lt_or_ge q a with h1 | h1
  · rw [if_pos h1, List.append_assoc, List.get?_append (by omega), List.get?_take h1]
  · rw [if_neg (by omega), List.append_assoc,
      List.get?_append_right (by omega), hta]
    rcases Nat.lt_or_ge q b with h2 | h2
    · rw [if_pos h2, List.get?_append (by omega)]
    · rw [if_neg (by omega), List.get?_append_right (by omega), hmid, List.get?_drop]
      congr 1
      omega

theorem sub_get_toList {s : RotatedArraySet} (hV : Valid s) {j0 : Nat}
    (hj0 : j0 < s.min_indexes.length)
    (hlenj0 : subarrayLen s j0 = j0 + 1) {q : Nat} (hq : q ≤ j0) :
    (subarraySlice s j0).get? ((pivotOf s j0 + q) % (j0 + 1)) =
      (toList s).get? (integer_sum j0 + q) := by
  have hq' : q < subarrayLen s j0 := by omega
  have hmlt : (pivotOf s j0 + q) % (j0 + 1) < j0 + 1 := Nat.mod_lt _ (by omega)
  rw [toList_get? hV hj0 hq', unrot_get? hV hj0 hq', hlenj0,
    subarraySlice_get? hV hj0 (by rw [hlenj0]; exact hmlt)]

theorem insert_step_a {s : RotatedArraySet} (hV : Valid s) {v : Int} {M : List Int} {r j0 : Nat}
    (hj0 : j0 < s.min_indexes.length)
    (hlenj0 : subarrayLen s j0 = j0 + 1)
    (hro : integer_sum j0 ≤ r) (hrhi : r < integer_sum j0 + (j0 + 1))
    (hMlow : ∀ x, x < r → M.get? x = (toList s).get? x)
    (hMr : M.get? r = some v)
    (hMhigh : ∀ x, r < x → x ≤ s.data.length → M.get? x = (toList s).get? (x - 1))
    (hp1 : 1 ≤ pivotOf s j0)
    (hrn : r < s.data.length)
    (hcond : pivotOf s j0 ≤ rawOf s r - integer_sum j0) :
    ((copy_within (subarraySlice s j0) (pivotOf s j0) (rawOf s r - integer_sum j0)
        (pivotOf s j0 - 1)).set (rawOf s r - integer_sum j0 - 1) v).length = j0 + 1 ∧
    (∀ q, q ≤ j0 →
      ((copy_within (subarraySlice s j0) (pivotOf s j0) (rawOf s r - integer_sum j0)
          (pivotOf s j0 - 1)).set (rawOf s r - integer_sum j0 - 1) v).get?
        ((pivotOf s j0 - 1 + q) % (j0 + 1)) = M.get? (integer_sum j0 + q)) ∧
    some (((copy_within (subarraySlice s j0) (pivotOf s j0) (rawOf s r - integer_sum j0)
        (pivotOf s j0 - 1)).set (rawOf s r - integer_sum j0 - 1) v).getD (pivotOf s j0 - 1) 0) =
      M.get? (integer_sum j0) := by
  have hslen : (subarraySlice s j0).length = j0 + 1 := by
    rw [subarraySlice_length hV hj0, hlenj0]
  have hplt : pivotOf s j0 < j0 + 1 := by
    have := valid_pivot_lt hV hj0
    omega
  have hn : integer_sum j0 + (j0 + 1) ≤ s.data.length := by
    unfold subarraySlice at hslen
    rw [List.length_take, List.length_drop, arr_eq_sum] at hslen
    omega
  have hsub : get_subarray_idx_from_array_idx r = j0 := by
    apply get_sub_eq hro
    rw [integer_sum_succ]
    omega
  -- the insertion offset does not wrap: io = p + ro
  have hio : rawOf s r - integer_sum j0 = pivotOf s j0 + (r - integer_sum j0) := by
    rw [rawOf_eq]
    rw [hsub, hlenj0]
    rcases Nat.lt_or_ge (pivotOf s j0 + (r - integer_sum j0)) (j0 + 1) with hc | hc
    · rw [Nat.mod_eq_of_lt hc]
      omega
    · exfalso
      have h2 : (pivotOf s j0 + (r - integer_sum j0)) % (j0 + 1) =
          pivotOf s j0 + (r - integer_sum j0) - (j0 + 1) := by
        have he : pivotOf s j0 + (r - integer_sum j0) =
            (pivotOf s j0 + (r - integer_sum j0) - (j0 + 1)) + (j0 + 1) := by omega
        conv_lhs => rw [he]
        rw [Nat.add_mod_right]
        exact Nat.mod_eq_of_lt (by omega)
      rw [rawOf_eq, hsub, hlenj0, h2] at hcond
      omega
  have hnw0 : pivotOf s j0 + (r - integer_sum j0) ≤ j0 := by
    have h1 : (pivotOf s j0 + (r - integer_sum j0)) % (j0 + 1) < j0 + 1 :=
      Nat.mod_lt _ (by omega)
    have h2 : rawOf s r = integer_sum j0 +
        (pivotOf s j0 + (r - integer_sum j0)) % (j0 + 1) := by
      rw [rawOf_eq, hsub, hlenj0]
    omega
  set p := pivotOf s j0 with hpdef
  set ro := r - integer_sum j0 with hrodef
  set sub := subarraySlice s j0 with hsubdef
  clear_value p ro sub
  -- per-position description of the spliced subarray
  have hsub2 : ∀ z, z < j0 + 1 →
      ((copy_within sub p (rawOf s r - integer_sum j0) (p - 1)).set
        (rawOf s r - integer_sum j0 - 1) v).get? z =
      if z = p + ro - 1 then some v
      else if p - 1 ≤ z ∧ z < p + ro - 1 then sub.get? (z + 1)
      else sub.get? z := by
    intro z hz
    rw [hio]
    rcases Nat.decEq z (p + ro - 1) with hne | heq
    · rw [List.get?_set_ne _ _ (by omega), if_neg (by omega)]
      rw [copy_within_get?, if_pos (by rw [hslen]; omega)]
      split
      · rename_i hc
        rw [if_pos (by omega)]
        rw [List.getD_eq_get?]
        have : p + (z - (p - 1)) = z + 1 := by omega
        rw [this]
        cases hx : sub.get? (z + 1) with
        | none =>
          rw [List.get?_eq_none] at hx
          omega
        | some y => rfl
      · rename_i hc
        rw [if_neg (by omega)]
        rw [List.getD_eq_get?]
        cases hx : sub.get? z with
        | none =>
          rw [List.get?_eq_none] at hx
          omega
        | some y => rfl
    · rw [heq, if_pos rfl]
      rw [List.get?_set_eq_of_lt]
      rw [copy_within_length, hslen]
      omega
  have hU : ∀ w, w ≤ j0 → sub.get? ((p + w) % (j0 + 1)) =
      (toList s).get? (integer_sum j0 + w) := by
    intro w hw
    rw [hsubdef, hpdef]
    exact sub_get_toList hV hj0 hlenj0 hw
  have hwin : ∀ q, q ≤ j0 →
      ((copy_within sub p (rawOf s r - integer_sum j0) (p - 1)).set
        (rawOf s r - integer_sum j0 - 1) v).get? ((p - 1 + q) % (j0 + 1)) =
      M.get? (integer_sum j0 + q) := by
    intro q hq
    have hmlt : (p - 1 + q) % (j0 + 1) < j0 + 1 := Nat.mod_lt _ (by omega)
    rw [hsub2 _ hmlt]
    have hzval : (p - 1 + q) % (j0 + 1) =
        if p - 1 + q < j0 + 1 then p - 1 + q else p - 1 + q - (j0 + 1) := by
      split
      · exact Nat.mod_eq_of_lt (by omega)
      · rename_i hge
        have he : p - 1 + q = (p - 1 + q - (j0 + 1)) + (j0 + 1) := by omega
        conv_lhs => rw [he]
        rw [Nat.add_mod_right]
        exact Nat.mod_eq_of_lt (by omega)
    rcases Nat.lt_trichotomy q ro with hqro | hqro | hqro
    · have hz : (p - 1 + q) % (j0 + 1) = p - 1 + q := by
        rw [hzval, if_pos (by omega)]
      rw [hz, if_neg (by omega), if_pos (by omega)]
      have h3 : (p + q) % (j0 + 1) = p + q := Nat.mod_eq_of_lt (by omega)
      have h4 := hU q (by omega)
      rw [h3] at h4
      rw [show p - 1 + q + 1 = p + q by omega, h4, hMlow _ (by omega)]
    · have hz : (p - 1 + q) % (j0 + 1) = p - 1 + q := by
        rw [hzval, if_pos (by omega)]
      rw [hz, if_pos (by omega)]
      have h5 : integer_sum j0 + q = r := by omega
      rw [h5, hMr]
    · rcases Nat.lt_or_ge (p - 1 + q) (j0 + 1) with hw | hw
      · have hz : (p - 1 + q) % (j0 + 1) = p - 1 + q := by
          rw [hzval, if_pos (by omega)]
        rw [hz, if_neg (by omega), if_neg (by omega)]
        have h3 : (p + (q - 1)) % (j0 + 1) = p - 1 + q := by
          rw [Nat.mod_eq_of_lt (by omega)]
          omega
        have h4 := hU (q - 1) (by omega)
        rw [h3] at h4
        rw [h4, hMhigh _ (by omega) (by omega)]
        congr 1
        omega
      · have hz : (p - 1 + q) % (j0 + 1) = p - 1 + q - (j0 + 1) := by
          rw [hzval, if_neg (by omega)]
        rw [hz, if_neg (by omega), if_neg (by omega)]
        have h3 : (p + (q - 1)) % (j0 + 1) = p - 1 + q - (j0 + 1) := by
          have he : p + (q - 1) = (p - 1 + q - (j0 + 1)) + (j0 + 1) := by omega
          rw [he, Nat.add_mod_right]
          exact Nat.mod_eq_of_lt (by omega)
        have h4 := hU (q - 1) (by omega)
        rw [h3] at h4
        rw [h4, hMhigh _ (by omega) (by omega)]
        congr 1
        omega
  refine ⟨?_, hwin, ?_⟩
  · rw [List.length_set, copy_within_length, hslen]
  · have h0 := hwin 0 (by omega)
    have hz0 : (p - 1 + 0) % (j0 + 1) = p - 1 := by
      rw [Nat.add_zero]
      exact Nat.mod_eq_of_lt (by omega)
    rw [hz0] at h0
    rw [Nat.add_zero] at h0
    obtain ⟨y, hy⟩ : ∃ y, ((copy_within sub p (rawOf s r - integer_sum j0) (p - 1)).set
        (rawOf s r - integer_sum j0 - 1) v).get? (p - 1) = some y := by
      cases hx : ((copy_within sub p (rawOf s r - integer_sum j0) (p - 1)).set
          (rawOf s r - integer_sum j0 - 1) v).get? (p - 1) with
      | none =>
        exfalso
        rw [List.get?_eq_none, List.length_set, copy_within_length, hslen] at hx
        omega
      | some y => exact ⟨y, rfl⟩
    rw [getD_get? _ _ _ hy]
    exact hy.symm.trans h0

theorem insert_step_b {s : RotatedArraySet} (hV : Valid s) {v : Int} {M : List Int} {r j0 : Nat}
    (hj0 : j0 < s.min_indexes.length)
    (hlenj0 : subarrayLen s j0 = j0 + 1)
    (hro : integer_sum j0 ≤ r) (hrhi : r < integer_sum j0 + (j0 + 1))
    (hMlow : ∀ x, x < r → M.get? x = (toList s).get? x)
    (hMr : M.get? r = some v)
    (hMhigh : ∀ x, r < x → x ≤ s.data.length → M.get? x = (toList s).get? (x - 1))
    (hrn : r < s.data.length)
    (hcond : ¬ ((if pivotOf s j0 = 0 then j0 else pivotOf s j0 - 1) < pivotOf s j0 ∧
      rawOf s r - integer_sum j0 ≥ pivotOf s j0)) :
    ((copy_within (subarraySlice s j0) (rawOf s r - integer_sum j0)
        (if pivotOf s j0 = 0 then j0 else pivotOf s j0 - 1)
        (rawOf s r - integer_sum j0 + 1)).set (rawOf s r - integer_sum j0) v).length = j0 + 1 ∧
    (∀ q, q ≤ j0 →
      ((copy_within (subarraySlice s j0) (rawOf s r - integer_sum j0)
          (if pivotOf s j0 = 0 then j0 else pivotOf s j0 - 1)
          (rawOf s r - integer_sum j0 + 1)).set (rawOf s r - integer_sum j0) v).get?
        ((pivotOf s j0 + q) % (j0 + 1)) = M.get? (integer_sum j0 + q)) ∧
    (if rawOf s r - integer_sum j0 = pivotOf s j0 then s.min_data.set j0 v
      else s.min_data).get? j0 = M.get? (integer_sum j0) := by
  have hslen : (subarraySlice s j0).length = j0 + 1 := by
    rw [subarraySlice_length hV hj0, hlenj0]
  have hplt : pivotOf s j0 < j0 + 1 := by
    have := valid_pivot_lt hV hj0
    omega
  have hn : integer_sum j0 + (j0 + 1) ≤ s.data.length := by
    unfold subarraySlice at hslen
    rw [List.length_take, List.length_drop, arr_eq_sum] at hslen
    omega
  have hsub : get_subarray_idx_from_array_idx r = j0 := by
    apply get_sub_eq hro
    rw [integer_sum_succ]
    omega
  have hio0 : rawOf s r - integer_sum j0 =
      (pivotOf s j0 + (r - integer_sum j0)) % (j0 + 1) := by
    rw [rawOf_eq, hsub, hlenj0]
    omega
  have hU : ∀ w, w ≤ j0 → (subarraySlice s j0).get? ((pivotOf s j0 + w) % (j0 + 1)) =
      (toList s).get? (integer_sum j0 + w) := by
    intro w hw
    exact sub_get_toList hV hj0 hlenj0 hw
  set p := pivotOf s j0 with hpdef
  set ro := r - integer_sum j0 with hrodef
  set sub := subarraySlice s j0 with hsubdef
  clear_value p ro sub
  have hrole : ro ≤ j0 := by omega
  -- the two shapes of the insertion offset
  have hshape : (p = 0 ∧ rawOf s r - integer_sum j0 = ro) ∨
      (1 ≤ p ∧ j0 + 1 ≤ p + ro ∧ rawOf s r - integer_sum j0 = p + ro - (j0 + 1)) := by
    rcases Nat.eq_zero_or_pos p with hp0 | hp1
    · left
      refine ⟨hp0, ?_⟩
      rw [hio0, hp0, Nat.zero_add]
      exact Nat.mod_eq_of_lt (by omega)
    · right
      have hiolt : rawOf s r - integer_sum j0 < p := by
        by_contra hge
        exact hcond ⟨by rw [if_neg (by omega)]; omega, by omega⟩
      rcases Nat.lt_or_ge (p + ro) (j0 + 1) with hc | hc
      · exfalso
        rw [hio0, Nat.mod_eq_of_lt hc] at hiolt
        omega
      · refine ⟨hp1, hc, ?_⟩
        rw [hio0]
        have he : p + ro = (p + ro - (j0 + 1)) + (j0 + 1) := by omega
        conv_lhs => rw [he]
        rw [Nat.add_mod_right]
        exact Nat.mod_eq_of_lt (by omega)
  have hmoval : (if p = 0 then j0 else p - 1) ≥ rawOf s r - integer_sum j0 := by
    rcases hshape with ⟨hp0, hioeq⟩ | ⟨hp1, hge, hioeq⟩
    · rw [if_pos hp0, hioeq]
      omega
    · rw [if_neg (by omega), hioeq]
      omega
  have hiolt : rawOf s r - integer_sum j0 < j0 + 1 := by
    rcases hshape with ⟨hp0, hioeq⟩ | ⟨hp1, hge, hioeq⟩ <;> omega
  set io := rawOf s r - integer_sum j0 with hiodef
  clear_value io
  -- per-position description of the spliced subarray
  have hsub2 : ∀ z, z < j0 + 1 →
      ((copy_within sub (io) (if p = 0 then j0 else p - 1)
        (io + 1)).set (io) v).get? z =
      if z = io then some v
      else if io + 1 ≤ z ∧ z < (if p = 0 then j0 else p - 1) + 1 then
        sub.get? (z - 1)
      else sub.get? z := by
    intro z hz
    rcases Nat.decEq z (io) with hne | heq
    · rw [List.get?_set_ne _ _ (show io ≠ z by omega), if_neg hne]
      rw [copy_within_get?, if_pos (show z < sub.length by rw [hslen]; omega)]
      by_cases hc : io + 1 ≤ z ∧ z < io + 1 + ((if p = 0 then j0 else p - 1) - io)
      · rw [if_pos hc,
          if_pos (show io + 1 ≤ z ∧ z < (if p = 0 then j0 else p - 1) + 1 by
            refine ⟨hc.1, ?_⟩
            have := hc.2
            have := hmoval
            omega)]
        rw [List.getD_eq_get?]
        have hidx : io + (z - (io + 1)) = z - 1 := by omega
        rw [hidx]
        cases hx : sub.get? (z - 1) with
        | none =>
          rw [List.get?_eq_none] at hx
          omega
        | some y => rfl
      · rw [if_neg hc,
          if_neg (show ¬ (io + 1 ≤ z ∧ z < (if p = 0 then j0 else p - 1) + 1) by
            intro hcc
            apply hc
            refine ⟨hcc.1, ?_⟩
            have := hcc.2
            have := hmoval
            omega)]
        rw [List.getD_eq_get?]
        cases hx : sub.get? z with
        | none =>
          rw [List.get?_eq_none] at hx
          omega
        | some y => rfl
    · rw [heq, if_pos rfl]
      rw [List.get?_set_eq_of_lt]
      rw [copy_within_length, hslen]
      omega
  have hwin : ∀ q, q ≤ j0 →
      ((copy_within sub (io) (if p = 0 then j0 else p - 1)
        (io + 1)).set (io) v).get?
        ((p + q) % (j0 + 1)) = M.get? (integer_sum j0 + q) := by
    intro q hq
    have hmlt : (p + q) % (j0 + 1) < j0 + 1 := Nat.mod_lt _ (by omega)
    rw [hsub2 _ hmlt]
    have hzval : (p + q) % (j0 + 1) =
        if p + q < j0 + 1 then p + q else p + q - (j0 + 1) := by
      split
      · exact Nat.mod_eq_of_lt (by omega)
      · rename_i hge
        have he : p + q = (p + q - (j0 + 1)) + (j0 + 1) := by omega
        conv_lhs => rw [he]
        rw [Nat.add_mod_right]
        exact Nat.mod_eq_of_lt (by omega)
    have hUq := hU q hq
    rcases hshape with ⟨hp0, hioeq⟩ | ⟨hp1, hge, hioeq⟩
    · -- pivot zero: unrotated subarray
      have hz : (p + q) % (j0 + 1) = q := by
        rw [hzval, if_pos (by omega)]
        omega
      rw [hz] at hUq ⊢
      rcases Nat.lt_trichotomy q ro with hqro | hqro | hqro
      · rw [if_neg (show ¬ (q = io) by omega),
          if_neg (show ¬ (io + 1 ≤ q ∧ q < (if p = 0 then j0 else p - 1) + 1) by omega),
          hUq, hMlow _ (by omega)]
      · rw [if_pos (show q = io by omega)]
        have h5 : integer_sum j0 + q = r := by omega
        rw [h5, hMr]
      · rw [if_neg (show ¬ (q = io) by omega),
          if_pos (show io + 1 ≤ q ∧ q < (if p = 0 then j0 else p - 1) + 1 by
            rw [if_pos hp0]
            omega)]
        have hU1 := hU (q - 1) (by omega)
        have hz1 : (p + (q - 1)) % (j0 + 1) = q - 1 := by
          rw [Nat.mod_eq_of_lt (by omega)]
          omega
        rw [hz1] at hU1
        rw [hU1, hMhigh _ (by omega) (by omega)]
        congr 1
        omega
    · -- nonzero pivot, wrapped insertion offset
      rcases Nat.lt_or_ge (p + q) (j0 + 1) with hnw | hw
      · -- physical position in the right segment, untouched
        have hz : (p + q) % (j0 + 1) = p + q := by rw [hzval, if_pos (by omega)]
        rw [hz] at hUq ⊢
        rw [if_neg (show ¬ (p + q = io) by omega),
          if_neg (show ¬ (io + 1 ≤ p + q ∧ p + q < (if p = 0 then j0 else p - 1) + 1) by
            rw [if_neg (by omega)]
            omega),
          hUq, hMlow _ (by omega)]
      · have hz : (p + q) % (j0 + 1) = p + q - (j0 + 1) := by
          rw [hzval, if_neg (by omega)]
        rw [hz] at hUq ⊢
        rcases Nat.lt_trichotomy q ro with hqro | hqro | hqro
        · rw [if_neg (show ¬ (p + q - (j0 + 1) = io) by omega),
            if_neg (show ¬ (io + 1 ≤ p + q - (j0 + 1) ∧
                p + q - (j0 + 1) < (if p = 0 then j0 else p - 1) + 1) by omega),
            hUq, hMlow _ (by omega)]
        · rw [if_pos (show p + q - (j0 + 1) = io by omega)]
          have h5 : integer_sum j0 + q = r := by omega
          rw [h5, hMr]
        · rw [if_neg (show ¬ (p + q - (j0 + 1) = io) by omega),
            if_pos (show io + 1 ≤ p + q - (j0 + 1) ∧
                p + q - (j0 + 1) < (if p = 0 then j0 else p - 1) + 1 by
              rw [if_neg (by omega)]
              omega)]
          have hU1 := hU (q - 1) (by omega)
          have hz1 : (p + (q - 1)) % (j0 + 1) = p + q - (j0 + 1) - 1 := by
            have he : p + (q - 1) = (p + q - (j0 + 1) - 1) + (j0 + 1) := by omega
            rw [he, Nat.add_mod_right]
            exact Nat.mod_eq_of_lt (by omega)
          rw [hz1] at hU1
          rw [hU1, hMhigh _ (by omega) (by omega)]
          congr 1
          omega
  refine ⟨?_, hwin, ?_⟩
  · rw [List.length_set, copy_within_length, hslen]
  · split
    · rename_i hioeq
      have hro0 : r = integer_sum j0 := by
        rcases hshape with ⟨hp0, hioeq2⟩ | ⟨hp1, hge, hioeq2⟩ <;> omega
      rw [List.get?_set_eq_of_lt _ (by
        rw [valid_md_len hV]
        omega)]
      rw [hro0] at hMr
      exact hMr.symm
    · rename_i hione
      have hro1 : 1 ≤ ro := by
        by_contra hro0
        apply hione
        have : ro = 0 := by omega
        rcases hshape with ⟨hp0, hioeq2⟩ | ⟨hp1, hge, hioeq2⟩ <;> omega
      rw [md_entry hV hj0, ← hMlow _ (by omega)]

theorem insert_loop_finish_full
    {s : RotatedArraySet} (hV : Valid s) {M : List Int} {r j0 : Nat}
    (d1 : List Int) (m1 : List Nat) (dd1 : List Int) (c0 : Int)
    (hj0 : j0 < s.min_indexes.length)
    (hfull : s.data.length = integer_sum s.min_indexes.length)
    (hd1len : d1.length = s.data.length)
    (hm1len : m1.length = s.min_indexes.length)
    (hdd1len : dd1.length = s.min_indexes.length)
    (hm1get : ∀ j, j ≠ j0 → m1.get? j = s.min_indexes.get? j)
    (hdd1get : ∀ j, j ≠ j0 → dd1.get? j = s.min_data.get? j)
    (hd1out : ∀ i, i < integer_sum j0 ∨ integer_sum (j0 + 1) ≤ i →
      d1.get? i = s.data.get? i)
    (hpj0 : m1.getD j0 0 ≤ j0)
    (hWj0 : ∀ q, q ≤ j0 → d1.get? (integer_sum j0 + (m1.getD j0 0 + q) % (j0 + 1)) =
      M.get? (integer_sum j0 + q))
    (hmdj0 : dd1.get? j0 = M.get? (integer_sum j0))
    (hc0 : some c0 = M.get? (integer_sum (j0 + 1)))
    (hro : integer_sum j0 ≤ r) (hrlt : r < integer_sum (j0 + 1))
    (hMlow : ∀ x, x < r → M.get? x = (toList s).get? x)
    (hMhigh : ∀ x, r < x → x ≤ s.data.length → M.get? x = (toList s).get? (x - 1))
    (hMlen : M.length = s.data.length + 1)
    (hMsorted : M.Pairwise (· < ·)) :
    Valid { data := (insertLoop ⟨d1, m1, dd1, c0⟩ (j0 + 1) (m1.length - 1) true).data ++
              [(insertLoop ⟨d1, m1, dd1, c0⟩ (j0 + 1) (m1.length - 1) true).carry],
            min_indexes := (insertLoop ⟨d1, m1, dd1, c0⟩ (j0 + 1) (m1.length - 1) true).mi ++ [0],
            min_data := (insertLoop ⟨d1, m1, dd1, c0⟩ (j0 + 1) (m1.length - 1) true).md ++
              [(insertLoop ⟨d1, m1, dd1, c0⟩ (j0 + 1) (m1.length - 1) true).carry] } ∧
    toList
        { data := (insertLoop ⟨d1, m1, dd1, c0⟩ (j0 + 1) (m1.length - 1) true).data ++
              [(insertLoop ⟨d1, m1, dd1, c0⟩ (j0 + 1) (m1.length - 1) true).carry],
          min_indexes := (insertLoop ⟨d1, m1, dd1, c0⟩ (j0 + 1) (m1.length - 1) true).mi ++ [0],
          min_data := (insertLoop ⟨d1, m1, dd1, c0⟩ (j0 + 1) (m1.length - 1) true).md ++
              [(insertLoop ⟨d1, m1, dd1, c0⟩ (j0 + 1) (m1.length - 1) true).carry] } = M := by
  have hk1 : 1 ≤ s.min_indexes.length := by omega
  have hlenfull : ∀ j, j < s.min_indexes.length → subarrayLen s j = j + 1 := by
    intro j hj
    have hle := subarrayLen_le hV hj
    unfold subarrayLen at hle ⊢
    split
    · rename_i hlast
      rw [arr_eq_sum] at hle ⊢
      have h1 : integer_sum (j + 1) = integer_sum j + (j + 1) := integer_sum_succ j
      have h2 : integer_sum (j + 1) = integer_sum s.min_indexes.length := by
        rw [show j + 1 = s.min_indexes.length by omega]
      omega
    · rfl
  have hrn : r < s.data.length := by
    have : integer_sum (j0 + 1) ≤ integer_sum s.min_indexes.length :=
      integer_sum_mono (by omega)
    omega
  -- the loop invariant inputs
  have hloop := insertLoopFuel_spec M (s.min_indexes.length - (j0 + 1)) ⟨d1, m1, dd1, c0⟩
    (j0 + 1) s.min_indexes.length true (by omega)
    (by simpa using hm1len) (by simpa using hdd1len)
    (fun _ => by simpa using (hd1len.trans hfull))
    (fun h => absurd h (by simp))
    (by simpa using hc0)
    (by
      intro j hj1 hj2
      replace hj2 : j < s.min_indexes.length := by simpa using hj2
      have hjne : j ≠ j0 := by omega
      have hgd : m1.getD j 0 = pivotOf s j := by
        rw [List.getD_eq_get?, hm1get j hjne, ← List.getD_eq_get?]
        rfl
      have hpl : pivotOf s j < subarrayLen s j := valid_pivot_lt hV hj2
      have hlj := hlenfull j hj2
      constructor
      · rw [hgd]
        omega
      · intro q hq
        have hmlt : (m1.getD j 0 + q) % (j + 1) < j + 1 := Nat.mod_lt _ (by omega)
        have hidx : integer_sum (j0 + 1) ≤ integer_sum j + (m1.getD j 0 + q) % (j + 1) := by
          have : integer_sum (j0 + 1) ≤ integer_sum j := integer_sum_mono (by omega)
          omega
        rw [hd1out _ (Or.inr hidx), hgd]
        have hq' : q < subarrayLen s j := by omega
        have h1 : s.data.get? (integer_sum j + (pivotOf s j + q) % subarrayLen s j) =
            (unrot s j).get? q := (unrot_get? hV hj2 hq').symm
        rw [hlj] at h1
        rw [h1, ← toList_get? hV hj2 hq']
        have hxgt : r < integer_sum j + q + 1 := by
          have : integer_sum (j0 + 1) ≤ integer_sum j := integer_sum_mono (by omega)
          omega
        have hxle : integer_sum j + q + 1 ≤ s.data.length := by
          have h2 : integer_sum (j + 1) = integer_sum j + (j + 1) := integer_sum_succ j
          have h3 : integer_sum (j + 1) ≤ integer_sum s.min_indexes.length :=
            integer_sum_mono (by omega)
          omega
        have := hMhigh (integer_sum j + q + 1) hxgt hxle
        rw [show integer_sum j + q + 1 - 1 = integer_sum j + q by omega] at this
        rw [← this]
        congr 1
        omega)
  simp only [insertLoop]
  rw [hm1len]
  obtain ⟨p1, p2, p3, p4, p5, p6, p7, p8, p9⟩ := hloop
  simp only [if_true] at p1 p2 p3 p4 p5 p6 p7 p8 p9
  set lp := insertLoopFuel (s.min_indexes.length - (j0 + 1)) ⟨d1, m1, dd1, c0⟩ (j0 + 1)
    (s.min_indexes.length - 1) true with hlp
  clear_value lp
  have hld : lp.data.length = s.data.length := by rw [p3, hd1len]
  set T : RotatedArraySet := { data := lp.data ++ [lp.carry], min_indexes := lp.mi ++ [0], min_data := lp.md ++ [lp.carry] } with hT
  have hTmi : T.min_indexes = lp.mi ++ [0] := rfl
  have hTd : T.data = lp.data ++ [lp.carry] := rfl
  have hTmd : T.min_data = lp.md ++ [lp.carry] := rfl
  have hTmilen : T.min_indexes.length = s.min_indexes.length + 1 := by
    rw [hTmi, List.length_append, p1]
    rfl
  have hTdlen : T.data.length = s.data.length + 1 := by
    rw [hTd, List.length_append, hld]
    rfl
  have hsk : integer_sum (s.min_indexes.length + 1) =
      integer_sum s.min_indexes.length + (s.min_indexes.length + 1) :=
    integer_sum_succ s.min_indexes.length
  have hSj01 : integer_sum (j0 + 1) = integer_sum j0 + (j0 + 1) := integer_sum_succ j0
  have hSj0k : integer_sum (j0 + 1) ≤ integer_sum s.min_indexes.length :=
    integer_sum_mono (by omega)
  have hpivt : ∀ j, j < s.min_indexes.length → pivotOf T j = lp.mi.getD j 0 := by
    intro j hj
    unfold pivotOf
    rw [hTmi, List.getD_eq_get?, List.getD_eq_get?, List.get?_append (by omega)]
  have hpivt_k : pivotOf T s.min_indexes.length = 0 := by
    unfold pivotOf
    rw [hTmi, List.getD_eq_get?, List.get?_append_right (by omega), p1]
    simp
  have hmival : ∀ j, j < s.min_indexes.length → lp.mi.getD j 0 ≤ j := by
    intro j hj
    rcases Nat.lt_trichotomy j j0 with hjc | hjc | hjc
    · have h6 := (p6 j (by omega)).1
      have hgd : lp.mi.getD j 0 = pivotOf s j := by
        rw [List.getD_eq_get?, h6, hm1get j (by omega), ← List.getD_eq_get?]
        rfl
      rw [hgd]
      have := valid_pivot_lt hV hj
      have := subarrayLen_le hV hj
      omega
    · subst hjc
      have h6 := (p6 j (by omega)).1
      have hgd : lp.mi.getD j 0 = m1.getD j 0 := by
        rw [List.getD_eq_get?, h6, ← List.getD_eq_get?]
      rw [hgd]
      exact hpj0
    · have h8 := (p8 j (by omega) hj).1
      have hgd : lp.mi.getD j 0 = if m1.getD j 0 = 0 then j else m1.getD j 0 - 1 := by
        rw [List.getD_eq_get?, h8]
        rfl
      have hm1j : m1.getD j 0 = pivotOf s j := by
        rw [List.getD_eq_get?, hm1get j (by omega), ← List.getD_eq_get?]
        rfl
      have hpl : pivotOf s j < subarrayLen s j := valid_pivot_lt hV hj
      have hll := subarrayLen_le hV hj
      rw [hgd, hm1j]
      split <;> omega
  have hlent : ∀ j, j < s.min_indexes.length → subarrayLen T j = j + 1 := by
    intro j hj
    unfold subarrayLen
    rw [hTmilen, if_neg (by omega)]
  have hlent_k : subarrayLen T s.min_indexes.length = 1 := by
    unfold subarrayLen
    rw [hTmilen, if_pos (by omega), hTdlen, arr_eq_sum, hfull]
    omega
  have hdlow : ∀ i, i < s.data.length → T.data.get? i = lp.data.get? i := by
    intro i hi
    rw [hTd, List.get?_append (by omega)]
  have hdn : T.data.get? s.data.length = some lp.carry := by
    rw [hTd, List.get?_append_right (by omega), hld]
    simp
  have hslice : ∀ j, j < s.min_indexes.length →
      integer_sum j + (j + 1) ≤ s.data.length + 1 := by
    intro j hj
    have h1 : integer_sum (j + 1) ≤ integer_sum s.min_indexes.length :=
      integer_sum_mono (by omega)
    have h2 : integer_sum (j + 1) = integer_sum j + (j + 1) := integer_sum_succ j
    omega
  refine build_valid T M ?_ ?_ ?_ ?_ ?_ ?_ ?_ hMsorted
  · rw [hTmi, hTmd, List.length_append, List.length_append, p1, p2]
    rfl
  · rw [hTdlen, hMlen]
  · rw [hTmilen, if_neg (by omega), hMlen]
    simp only [Nat.add_sub_cancel]
    omega
  · intro j hj
    rw [hTmilen] at hj
    rcases Nat.lt_or_ge j s.min_indexes.length with hlt | hge
    · rw [hpivt j hlt, hlent j hlt]
      have := hmival j hlt
      omega
    · have hje : j = s.min_indexes.length := by omega
      subst hje
      rw [hpivt_k, hlent_k]
      omega
  · intro hlt
    rw [hTmilen]
    simp only [Nat.add_sub_cancel]
    exact hpivt_k
  · intro j hj
    rw [hTmilen] at hj
    rcases Nat.lt_or_ge j s.min_indexes.length with hlt | hge
    · rw [hlent j hlt]
      apply unrot_eq_window
      · unfold subarraySlice
        rw [hlent j hlt, List.length_take, List.length_drop, hTdlen, arr_eq_sum]
        have := hslice j (by omega)
        omega
      · rw [hlent j hlt]
        omega
      · rw [hlent j hlt, hpivt j hlt]
        have := hmival j hlt
        omega
      · rw [List.length_take, List.length_drop, hlent j hlt]
        have := hslice j (by omega)
        rw [hMlen]
        omega
      · rw [hlent j hlt, hpivt j hlt]
        intro q hq
        rw [window_get?, if_pos hq]
        have hmlt : (lp.mi.getD j 0 + q) % (j + 1) < j + 1 := Nat.mod_lt _ (by omega)
        have hSq : integer_sum j + (lp.mi.getD j 0 + q) % (j + 1) < s.data.length := by
          have h1 : integer_sum (j + 1) ≤ integer_sum s.min_indexes.length :=
            integer_sum_mono (by omega)
          have h2 : integer_sum (j + 1) = integer_sum j + (j + 1) := integer_sum_succ j
          omega
        rw [hdlow _ hSq]
        rcases Nat.lt_trichotomy j j0 with hjc | hjc | hjc
        · have h6 := (p6 j (by omega)).1
          have hgd : lp.mi.getD j 0 = pivotOf s j := by
            rw [List.getD_eq_get?, h6, hm1get j (by omega), ← List.getD_eq_get?]
            rfl
          have hq2 : q < subarrayLen s j := by
            have := hlenfull j hlt
            omega
          have hidx : integer_sum j + (lp.mi.getD j 0 + q) % (j + 1) < integer_sum j0 := by
            have h2 : integer_sum (j + 1) = integer_sum j + (j + 1) := integer_sum_succ j
            have h3 : integer_sum (j + 1) ≤ integer_sum j0 := integer_sum_mono (by omega)
            omega
          rw [p4 _ (by omega), hd1out _ (Or.inl hidx), hgd]
          have h1 : s.data.get? (integer_sum j + (pivotOf s j + q) % subarrayLen s j) =
              (unrot s j).get? q := (unrot_get? hV hlt hq2).symm
          rw [hlenfull j hlt] at h1
          rw [h1, ← toList_get? hV hlt hq2]
          have hxlt : integer_sum j + q < r := by
            have h2 : integer_sum (j + 1) = integer_sum j + (j + 1) := integer_sum_succ j
            have h3 : integer_sum (j + 1) ≤ integer_sum j0 := integer_sum_mono (by omega)
            omega
          exact (hMlow _ hxlt).symm
        · subst hjc
          have h6 := (p6 j (by omega)).1
          have hgd : lp.mi.getD j 0 = m1.getD j 0 := by
            rw [List.getD_eq_get?, h6, ← List.getD_eq_get?]
          have hmlt2 : (m1.getD j 0 + q) % (j + 1) < j + 1 := Nat.mod_lt _ (by omega)
          rw [hgd, p4 _ (by omega)]
          exact hWj0 q (by omega)
        · obtain ⟨h81, h82, h83⟩ := p8 j (by omega) hlt
          have hgd : lp.mi.getD j 0 = if m1.getD j 0 = 0 then j else m1.getD j 0 - 1 := by
            rw [List.getD_eq_get?, h81]
            rfl
          rw [hgd]
          exact h83 q hq
    · have hje : j = s.min_indexes.length := by omega
      subst hje
      rw [hlent_k]
      apply unrot_eq_window
      · unfold subarraySlice
        rw [hlent_k, List.length_take, List.length_drop, hTdlen, arr_eq_sum]
        omega
      · rw [hlent_k]
        omega
      · rw [hlent_k, hpivt_k]
        omega
      · rw [List.length_take, List.length_drop, hlent_k, hMlen]
        omega
      · rw [hlent_k, hpivt_k]
        intro q hq
        have hq0 : q = 0 := by omega
        subst hq0
        rw [window_get?, if_pos (by omega)]
        have hz : (0 + 0) % 1 = 0 := rfl
        rw [hz, ← hfull, Nat.add_zero, hdn]
        rw [hfull]
        exact p9
  · intro j hj
    rw [hTmilen] at hj
    rcases Nat.lt_or_ge j s.min_indexes.length with hlt | hge
    · rw [hTmd, List.get?_append (by omega)]
      rcases Nat.lt_trichotomy j j0 with hjc | hjc | hjc
      · have h6 := (p6 j (by omega)).2
        rw [h6, hdd1get j (by omega), md_entry hV hlt]
        have hxlt : integer_sum j < r := by
          have h3 : integer_sum (j + 1) ≤ integer_sum j0 := integer_sum_mono (by omega)
          have h2 : integer_sum (j + 1) = integer_sum j + (j + 1) := integer_sum_succ j
          omega
        exact (hMlow _ hxlt).symm
      · subst hjc
        have h6 := (p6 j (by omega)).2
        rw [h6]
        exact hmdj0
      · exact (p8 j (by omega) hlt).2.1
    · have hje : j = s.min_indexes.length := by omega
      subst hje
      rw [hTmd, List.get?_append_right (by omega), p2]
      simp only [Nat.sub_self, List.get?_cons_zero]
      exact p9

end RotSet

namespace RotSet

set_option maxHeartbeats 1000000

theorem getD_some (l : List Int) (i : Nat) (h : i < l.length) :
    some (l.getD i 0) = l.get? i := by
  rw [List.get?_eq_get h]
  exact congrArg some (List.getD_eq_get l 0 h)

theorem insert_tail_spec {s : RotatedArraySet} (hV : Valid s) {v : Int} {M : List Int} {r : Nat}
    (hk : s.min_indexes.length ≠ 0)
    (hnf : s.data.length < integer_sum s.min_indexes.length)
    (hro : integer_sum (s.min_indexes.length - 1) ≤ r) (hrn : r ≤ s.data.length)
    (hMlow : ∀ x, x < r → M.get? x = (toList s).get? x)
    (hMr : M.get? r = some v)
    (hMhigh : ∀ x, r < x → x ≤ s.data.length → M.get? x = (toList s).get? (x - 1))
    (hMlen : M.length = s.data.length + 1)
    (hMsorted : M.Pairwise (· < ·)) :
    Valid { data := s.data.insertIdx r v, min_indexes := s.min_indexes,
            min_data := s.min_data.set (s.min_indexes.length - 1)
              ((s.data.insertIdx r v).getD
                (get_array_idx_from_subarray_idx (s.min_indexes.length - 1)) 0) } ∧
    toList { data := s.data.insertIdx r v, min_indexes := s.min_indexes,
             min_data := s.min_data.set (s.min_indexes.length - 1)
               ((s.data.insertIdx r v).getD
                 (get_array_idx_from_subarray_idx (s.min_indexes.length - 1)) 0) } = M := by
  have hb := valid_n_bounds hV hk
  have hpl0 : pivotOf s (s.min_indexes.length - 1) = 0 := valid_partial_pivot hV hnf
  have hmdl : s.min_data.length = s.min_indexes.length := valid_md_len hV
  have hDget : ∀ q, (s.data.insertIdx r v).get? q =
      if q < r then s.data.get? q else if q = r then some v
      else s.data.get? (q - 1) := insertIdx_get? hrn v
  have hDlen : (s.data.insertIdx r v).length = s.data.length + 1 :=
    List.length_insertIdx _ _ hrn
  have hlast_len : subarrayLen s (s.min_indexes.length - 1) =
      s.data.length - integer_sum (s.min_indexes.length - 1) := by
    unfold subarrayLen
    rw [if_pos rfl, arr_eq_sum]
  have hDS : (s.data.insertIdx r v).get? (integer_sum (s.min_indexes.length - 1)) =
      M.get? (integer_sum (s.min_indexes.length - 1)) := by
    rw [hDget]
    rcases Nat.lt_or_ge (integer_sum (s.min_indexes.length - 1)) r with hc | hc
    · rw [if_pos hc]
      have h1 := data_eq_toList_pivot0 hV (show s.min_indexes.length - 1 <
        s.min_indexes.length by omega) hpl0 (show 0 < subarrayLen s (s.min_indexes.length - 1)
        by rw [hlast_len]; omega)
      rw [Nat.add_zero] at h1
      rw [h1]
      exact (hMlow _ hc).symm
    · have hc2 : integer_sum (s.min_indexes.length - 1) = r := by omega
      rw [if_neg (by omega), if_pos hc2, hc2]
      exact hMr.symm
  have hval : some ((s.data.insertIdx r v).getD
      (get_array_idx_from_subarray_idx (s.min_indexes.length - 1)) 0) =
      M.get? (integer_sum (s.min_indexes.length - 1)) := by
    rw [arr_eq_sum, getD_some _ _ (by omega)]
    exact hDS
  refine build_valid _ M ?_ ?_ ?_ ?_ ?_ ?_ ?_ hMsorted
  · show (s.min_data.set _ _).length = s.min_indexes.length
    rw [List.length_set]
    exact hmdl
  · show (s.data.insertIdx r v).length = M.length
    omega
  · show if s.min_indexes.length = 0 then M.length = 0
      else integer_sum (s.min_indexes.length - 1) < M.length ∧
        M.length ≤ integer_sum s.min_indexes.length
    rw [if_neg hk]
    omega
  · intro j hj
    replace hj : j < s.min_indexes.length := hj
    have hpeq : pivotOf { data := s.data.insertIdx r v, min_indexes := s.min_indexes, min_data := s.min_data.set (s.min_indexes.length - 1) ((s.data.insertIdx r v).getD (get_array_idx_from_subarray_idx (s.min_indexes.length - 1)) 0) } j = pivotOf s j := rfl
    rw [hpeq]
    unfold subarrayLen
    show pivotOf s j < if j = s.min_indexes.length - 1 then
      (s.data.insertIdx r v).length - get_array_idx_from_subarray_idx j else j + 1
    rcases Nat.lt_or_ge j (s.min_indexes.length - 1) with hlt | hge
    · rw [if_neg (by omega)]
      have h1 := valid_pivot_lt hV hj
      have h2 := subarrayLen_le hV hj
      omega
    · have hje : j = s.min_indexes.length - 1 := by omega
      subst hje
      rw [if_pos rfl, hpl0, arr_eq_sum]
      omega
  · intro _
    show pivotOf s (s.min_indexes.length - 1) = 0
    exact hpl0
  · intro j hj
    replace hj : j < s.min_indexes.length := hj
    rcases Nat.lt_or_ge j (s.min_indexes.length - 1) with hlt | hge
    · have hlj : subarrayLen s j = j + 1 := subarray_full_len hV hj (Or.inl (by omega))
      have hs1 : integer_sum (j + 1) = integer_sum j + (j + 1) := integer_sum_succ j
      have hs2 : integer_sum (j + 1) ≤ integer_sum (s.min_indexes.length - 1) :=
        integer_sum_mono (by omega)
      have hlT : subarrayLen { data := s.data.insertIdx r v, min_indexes := s.min_indexes, min_data := s.min_data.set (s.min_indexes.length - 1) ((s.data.insertIdx r v).getD (get_array_idx_from_subarray_idx (s.min_indexes.length - 1)) 0) } j = subarrayLen s j := by
        unfold subarrayLen
        show (if j = s.min_indexes.length - 1 then _ else _) = _
        rw [if_neg (by omega), if_neg (by omega)]
      apply unrot_M_of_unchanged hV hj hlT rfl
      · intro i hi1 hi2
        show (s.data.insertIdx r v).get? i = s.data.get? i
        rw [hDget, if_pos (by omega)]
      · show integer_sum j + subarrayLen s j ≤ (s.data.insertIdx r v).length
        omega
      · intro q hq
        apply hMlow
        omega
      · omega
    · have hje : j = s.min_indexes.length - 1 := by omega
      have hpl0j : pivotOf s j = 0 := by rw [hje]; exact hpl0
      have hSj : integer_sum j ≤ r := by rw [hje]; exact hro
      have hlT : subarrayLen { data := s.data.insertIdx r v, min_indexes := s.min_indexes, min_data := s.min_data.set (s.min_indexes.length - 1) ((s.data.insertIdx r v).getD (get_array_idx_from_subarray_idx (s.min_indexes.length - 1)) 0) } j = s.data.length + 1 - integer_sum j := by
        unfold subarrayLen
        show (if j = s.min_indexes.length - 1 then
          (s.data.insertIdx r v).length - get_array_idx_from_subarray_idx j else j + 1) = _
        rw [if_pos hje, arr_eq_sum]
        omega
      apply unrot_eq_window
      · unfold subarraySlice
        rw [List.length_take, List.length_drop, hlT, arr_eq_sum j]
        show min (s.data.length + 1 - integer_sum j) ((s.data.insertIdx r v).length -
          integer_sum j) = s.data.length + 1 - integer_sum j
        omega
      · rw [hlT]
        omega
      · rw [hlT]
        show pivotOf s j < s.data.length + 1 - integer_sum j
        rw [hpl0j]
        omega
      · rw [List.length_take, List.length_drop, hlT]
        omega
      · rw [hlT]
        intro q hq
        rw [window_get?, if_pos hq]
        show (s.data.insertIdx r v).get? (integer_sum j + (pivotOf s j + q) %
          (s.data.length + 1 - integer_sum j)) = M.get? (integer_sum j + q)
        rw [hpl0j, Nat.zero_add, Nat.mod_eq_of_lt (by omega), hDget]
        have hlsj : subarrayLen s j = s.data.length - integer_sum j := by
          rw [hje] at hq ⊢
          exact hlast_len
        rcases Nat.lt_trichotomy (integer_sum j + q) r with hc | hc | hc
        · rw [if_pos hc]
          have hql : q < subarrayLen s j := by rw [hlsj]; omega
          rw [data_eq_toList_pivot0 hV (by omega) hpl0j hql]
          exact (hMlow _ hc).symm
        · rw [if_neg (by omega), if_pos hc, hc]
          exact hMr.symm
        · rw [if_neg (by omega), if_neg (by omega)]
          have hq1 : 1 ≤ q := by omega
          have hql : q - 1 < subarrayLen s j := by rw [hlsj]; omega
          have h1 := data_eq_toList_pivot0 hV (show j < s.min_indexes.length by omega)
            hpl0j hql
          rw [show integer_sum j + q - 1 = integer_sum j + (q - 1) by omega, h1]
          have h2 := hMhigh (integer_sum j + q) hc (by omega)
          rw [show integer_sum j + q - 1 = integer_sum j + (q - 1) by omega] at h2
          exact h2.symm
  · intro j hj
    replace hj : j < s.min_indexes.length := hj
    rcases Nat.lt_or_ge j (s.min_indexes.length - 1) with hlt | hge
    · show (s.min_data.set _ _).get? j = _
      rw [List.get?_set_ne _ _ (by omega), md_entry hV hj]
      have hSlt : integer_sum j < r := by
        have h1 : integer_sum j < integer_sum (s.min_indexes.length - 1) :=
          integer_sum_strictMono hlt
        omega
      exact (hMlow _ hSlt).symm
    · have hje : j = s.min_indexes.length - 1 := by omega
      show (s.min_data.set (s.min_indexes.length - 1) ((s.data.insertIdx r v).getD
        (get_array_idx_from_subarray_idx (s.min_indexes.length - 1)) 0)).get? j =
        M.get? (integer_sum j)
      rw [hje, List.get?_set_eq_of_lt _ (by omega)]
      exact hval

theorem insert_append_spec {s : RotatedArraySet} (hV : Valid s) {v : Int} {M : List Int}
    (hk : s.min_indexes.length ≠ 0)
    (hfull : s.data.length = integer_sum s.min_indexes.length)
    (hMlow : ∀ x, x < s.data.length → M.get? x = (toList s).get? x)
    (hMr : M.get? s.data.length = some v)
    (hMlen : M.length = s.data.length + 1)
    (hMsorted : M.Pairwise (· < ·)) :
    Valid { data := s.data.insertIdx s.data.length v,
            min_indexes := s.min_indexes ++ [0],
            min_data := (s.min_data ++ [(0 : Int)]).set s.min_indexes.length
              ((s.data.insertIdx s.data.length v).getD
                (get_array_idx_from_subarray_idx s.min_indexes.length) 0) } ∧
    toList { data := s.data.insertIdx s.data.length v,
             min_indexes := s.min_indexes ++ [0],
             min_data := (s.min_data ++ [(0 : Int)]).set s.min_indexes.length
               ((s.data.insertIdx s.data.length v).getD
                 (get_array_idx_from_subarray_idx s.min_indexes.length) 0) } = M := by
  have hb := valid_n_bounds hV hk
  have hmdl : s.min_data.length = s.min_indexes.length := valid_md_len hV
  have hDget : ∀ q, (s.data.insertIdx s.data.length v).get? q =
      if q < s.data.length then s.data.get? q else if q = s.data.length then some v
      else s.data.get? (q - 1) := insertIdx_get? (Nat.le_refl _) v
  have hDlen : (s.data.insertIdx s.data.length v).length = s.data.length + 1 :=
    List.length_insertIdx _ _ (Nat.le_refl _)
  have hsk : integer_sum (s.min_indexes.length + 1) =
      integer_sum s.min_indexes.length + (s.min_indexes.length + 1) :=
    integer_sum_succ _
  have hval : some ((s.data.insertIdx s.data.length v).getD
      (get_array_idx_from_subarray_idx s.min_indexes.length) 0) =
      M.get? (integer_sum s.min_indexes.length) := by
    rw [arr_eq_sum, getD_some _ _ (by omega), hDget, if_neg (by omega), if_pos (by omega)]
    rw [← hfull]
    exact hMr.symm
  have hmilenT : (s.min_indexes ++ [0]).length = s.min_indexes.length + 1 := by
    rw [List.length_append]
    rfl
  have hpivT : ∀ j, j < s.min_indexes.length →
      pivotOf { data := s.data.insertIdx s.data.length v, min_indexes := s.min_indexes ++ [0], min_data := (s.min_data ++ [(0 : Int)]).set s.min_indexes.length ((s.data.insertIdx s.data.length v).getD (get_array_idx_from_subarray_idx s.min_indexes.length) 0) } j = pivotOf s j := by
    intro j hj
    show (s.min_indexes ++ [0]).getD j 0 = s.min_indexes.getD j 0
    rw [List.getD_eq_get?, List.getD_eq_get?, List.get?_append hj]
  have hpivT_k : pivotOf { data := s.data.insertIdx s.data.length v, min_indexes := s.min_indexes ++ [0], min_data := (s.min_data ++ [(0 : Int)]).set s.min_indexes.length ((s.data.insertIdx s.data.length v).getD (get_array_idx_from_subarray_idx s.min_indexes.length) 0) } s.min_indexes.length = 0 := by
    show (s.min_indexes ++ [0]).getD s.min_indexes.length 0 = 0
    rw [List.getD_eq_get?, List.get?_append_right (Nat.le_refl _), Nat.sub_self]
    rfl
  have hlenT : ∀ j, j < s.min_indexes.length → subarrayLen { data := s.data.insertIdx s.data.length v, min_indexes := s.min_indexes ++ [0], min_data := (s.min_data ++ [(0 : Int)]).set s.min_indexes.length ((s.data.insertIdx s.data.length v).getD (get_array_idx_from_subarray_idx s.min_indexes.length) 0) } j = j + 1 := by
    intro j hj
    unfold subarrayLen
    show (if j = (s.min_indexes ++ [0]).length - 1 then _ else _) = _
    rw [if_neg (by rw [hmilenT]; omega)]
  have hlenT_k : subarrayLen { data := s.data.insertIdx s.data.length v, min_indexes := s.min_indexes ++ [0], min_data := (s.min_data ++ [(0 : Int)]).set s.min_indexes.length ((s.data.insertIdx s.data.length v).getD (get_array_idx_from_subarray_idx s.min_indexes.length) 0) } s.min_indexes.length = 1 := by
    unfold subarrayLen
    show (if s.min_indexes.length = (s.min_indexes ++ [0]).length - 1 then
      (s.data.insertIdx s.data.length v).length - get_array_idx_from_subarray_idx
        s.min_indexes.length else _) = _
    rw [if_pos (by rw [hmilenT]; omega), arr_eq_sum]
    omega
  refine build_valid _ M ?_ ?_ ?_ ?_ ?_ ?_ ?_ hMsorted
  · show ((s.min_data ++ [(0 : Int)]).set _ _).length = (s.min_indexes ++ [0]).length
    rw [List.length_set, List.length_append, List.length_append, hmdl]
    rfl
  · show (s.data.insertIdx s.data.length v).length = M.length
    omega
  · show if (s.min_indexes ++ [0]).length = 0 then M.length = 0
      else integer_sum ((s.min_indexes ++ [0]).length - 1) < M.length ∧
        M.length ≤ integer_sum (s.min_indexes ++ [0]).length
    rw [hmilenT, if_neg (by omega)]
    simp only [Nat.add_sub_cancel]
    omega
  · intro j hj
    rw [hmilenT] at hj
    rcases Nat.lt_or_ge j s.min_indexes.length with hlt | hge
    · rw [hpivT j hlt, hlenT j hlt]
      have h1 := valid_pivot_lt hV hlt
      have h2 := subarrayLen_le hV hlt
      omega
    · have hje : j = s.min_indexes.length := by omega
      subst hje
      rw [hpivT_k, hlenT_k]
      omega
  · intro _
    rw [hmilenT]
    simp only [Nat.add_sub_cancel]
    exact hpivT_k
  · intro j hj
    rw [hmilenT] at hj
    rcases Nat.lt_or_ge j s.min_indexes.length with hlt | hge
    · have hlj : subarrayLen s j = j + 1 := subarray_full_len hV hlt (Or.inr hfull)
      have hs1 : integer_sum (j + 1) = integer_sum j + (j + 1) := integer_sum_succ j
      have hs2 : integer_sum (j + 1) ≤ integer_sum s.min_indexes.length :=
        integer_sum_mono (by omega)
      apply unrot_M_of_unchanged hV hlt (by rw [hlenT j hlt, hlj]) (hpivT j hlt)
      · intro i hi1 hi2
        show (s.data.insertIdx s.data.length v).get? i = s.data.get? i
        rw [hDget, if_pos (by omega)]
      · show integer_sum j + subarrayLen s j ≤ (s.data.insertIdx s.data.length v).length
        omega
      · intro q hq
        apply hMlow
        omega
      · omega
    · have hje : j = s.min_indexes.length := by omega
      subst hje
      rw [hlenT_k]
      apply unrot_eq_window
      · unfold subarraySlice
        rw [List.length_take, List.length_drop, hlenT_k, arr_eq_sum s.min_indexes.length]
        show min 1 ((s.data.insertIdx s.data.length v).length - integer_sum
          s.min_indexes.length) = 1
        omega
      · rw [hlenT_k]
        omega
      · rw [hlenT_k, hpivT_k]
        omega
      · rw [List.length_take, List.length_drop, hlenT_k]
        omega
      · rw [hlenT_k, hpivT_k]
        intro q hq
        replace hq : q = 0 := by omega
        subst hq
        rw [window_get?, if_pos (by omega)]
        show (s.data.insertIdx s.data.length v).get? (integer_sum s.min_indexes.length +
          (0 + 0) % 1) = M.get? (integer_sum s.min_indexes.length + 0)
        rw [show (0 + 0) % 1 = 0 by rfl, Nat.add_zero, hDget, ← hfull,
          if_neg (by omega), if_pos rfl]
        exact hMr.symm
  · intro j hj
    rw [hmilenT] at hj
    rcases Nat.lt_or_ge j s.min_indexes.length with hlt | hge
    · show ((s.min_data ++ [(0 : Int)]).set _ _).get? j = _
      rw [List.get?_set_ne _ _ (by omega), List.get?_append (by omega),
        md_entry hV hlt]
      have hSlt : integer_sum j < s.data.length := by
        have h1 : integer_sum (j + 1) ≤ integer_sum s.min_indexes.length :=
          integer_sum_mono (by omega)
        have h2 : integer_sum (j + 1) = integer_sum j + (j + 1) := integer_sum_succ j
        omega
      exact (hMlow _ hSlt).symm
    · have hje : j = s.min_indexes.length := by omega
      show ((s.min_data ++ [(0 : Int)]).set s.min_indexes.length
        ((s.data.insertIdx s.data.length v).getD
          (get_array_idx_from_subarray_idx s.min_indexes.length) 0)).get? j =
        M.get? (integer_sum j)
      have hlen0 : s.min_indexes.length < (s.min_data ++ [(0 : Int)]).length := by
        rw [List.length_append, hmdl, show ([(0 : Int)]).length = 1 from rfl]
        omega
      rw [hje, List.get?_set_eq_of_lt _ hlen0]
      exact hval

theorem insert_absent_spec {s : RotatedArraySet} {v : Int} (hV : Valid s)
    (hv : v ∉ toList s) :
    (insert s v).1 = true ∧ Valid (insert s v).2 ∧
    toList (insert s v).2 =
      (toList s).insertIdx ((toList s).countP (fun x => decide (x < v))) v := by
  have hfind := find_spec_err hV hv
  have hLn : (toList s).length = s.data.length := toList_length hV
  have hrle : (toList s).countP (fun x => decide (x < v)) ≤ s.data.length := by
    have := List.countP_le_length (p := fun x => decide (x < v)) (l := toList s)
    omega
  have herr : errOf s v = if (toList s).countP (fun x => decide (x < v)) = s.data.length
      then s.data.length
      else rawOf s ((toList s).countP (fun x => decide (x < v))) := rfl
  simp only [insert, hfind]
  rcases Nat.eq_zero_or_pos s.min_indexes.length with hk0 | hkpos
  · -- empty container
    have hd0 : s.data.length = 0 := valid_n_zero hV hk0
    have hdnil : s.data = [] := List.length_eq_zero.mp hd0
    have hmd0 : s.min_data.length = 0 := by rw [valid_md_len hV]; exact hk0
    have hmdnil : s.min_data = [] := List.length_eq_zero.mp hmd0
    have hminil : s.min_indexes = [] := List.length_eq_zero.mp hk0
    have hL : toList s = [] := by
      unfold toList
      rw [hminil]
      simp
    have hr0 : (toList s).countP (fun x => decide (x < v)) = 0 := by
      rw [hL]
      simp
    have he : errOf s v = 0 := by
      rw [herr, hr0, hd0]
      simp
    rw [he, hr0, hL, hdnil, hminil, hmdnil]
    simp only [List.length_nil, List.insertIdx_zero]
    norm_num [get_subarray_idx_from_array_idx, get_array_idx_from_subarray_idx,
      is_last_subarray_full, integer_sum]
    refine ⟨⟨rfl, by norm_num [get_array_idx_from_subarray_idx, integer_sum], ?_,
      by norm_num [get_array_idx_from_subarray_idx, integer_sum, pivotOf], ?_, ?_⟩, ?_⟩
    · intro j hj
      simp at hj
      subst hj
      norm_num [pivotOf, subarrayLen, get_array_idx_from_subarray_idx, integer_sum]
    · intro j hj
      simp at hj
      subst hj
      rfl
    · show List.Chain' (· < ·) [v]
      exact List.chain'_singleton v
    · rfl
  · -- non-empty container
    have hkne : s.min_indexes.length ≠ 0 := by omega
    have hb := valid_n_bounds hV hkne
    have hMsorted := sorted_insertIdx (toList_pairwise hV) hv
    set L := toList s with hLdef
    set r := L.countP (fun x => decide (x < v)) with hrdef
    set M := L.insertIdx r v with hMdef
    have hMget : ∀ q, M.get? q = if q < r then L.get? q else if q = r then some v
        else L.get? (q - 1) := by
      intro q
      rw [hMdef]
      exact insertIdx_get? (by omega) v q
    have hMlow : ∀ x, x < r → M.get? x = L.get? x := by
      intro x hx
      rw [hMget, if_pos hx]
    have hMr : M.get? r = some v := by
      rw [hMget, if_neg (by omega), if_pos rfl]
    have hMhigh : ∀ x, r < x → x ≤ s.data.length → M.get? x = L.get? (x - 1) := by
      intro x h1 _
      rw [hMget, if_neg (by omega), if_neg (by omega)]
    have hMlen : M.length = s.data.length + 1 := by
      rw [hMdef, List.length_insertIdx _ _ (by omega), hLn]
    rcases Nat.lt_or_ge r s.data.length with hrlt | hrge
    · -- the value is inserted strictly inside the store
      have he : errOf s v = rawOf s r := by
        rw [herr, if_neg (by omega)]
      rw [he, rawOf_owner hV hrlt]
      obtain ⟨hjk, hjle, hjoff⟩ := owner_lt hV hrlt
      set j0 := get_subarray_idx_from_array_idx r with hj0def
      rw [if_neg (show ¬ j0 = s.min_indexes.length by omega)]
      by_cases hbr1 : j0 = s.min_indexes.length - 1 ∧ ¬ is_last_subarray_full s = true
      · -- non-full final subarray: plain insertion at the logical rank
        rw [if_pos hbr1]
        have hnflt : s.data.length < integer_sum s.min_indexes.length := by
          rcases Nat.lt_or_ge s.data.length (integer_sum s.min_indexes.length) with h | h
          · exact h
          · exfalso
            exact hbr1.2 ((last_full_iff s).mpr (by omega))
        have hpl0 : pivotOf s j0 = 0 := by
          rw [hbr1.1]
          exact valid_partial_pivot hV hnflt
        have hlastlen : subarrayLen s j0 = s.data.length - integer_sum j0 := by
          unfold subarrayLen
          rw [if_pos hbr1.1, arr_eq_sum]
        have hraw : rawOf s r = r := by
          rw [rawOf_eq, ← hj0def, hpl0, Nat.zero_add, hlastlen,
            Nat.mod_eq_of_lt (by omega)]
          omega
        rw [hraw, hbr1.1]
        have htail := insert_tail_spec hV hkne hnflt (by rw [← hbr1.1]; exact hjle)
          (by omega) hMlow hMr hMhigh hMlen hMsorted
        exact ⟨rfl, htail.1, htail.2⟩
      · -- the owning subarray is full: exchange and propagate
        rw [if_neg hbr1]
        have hfull_j0 : subarrayLen s j0 = j0 + 1 := by
          by_cases hj0last : j0 = s.min_indexes.length - 1
          · rcases Nat.lt_or_ge s.data.length (integer_sum s.min_indexes.length) with h | h
            · exact absurd ⟨hj0last, fun hc => by rw [last_full_iff] at hc; omega⟩ hbr1
            · exact subarray_full_len hV hjk (Or.inr (by omega))
          · exact subarray_full_len hV hjk (Or.inl hj0last)
        rw [hfull_j0] at hjoff
        have hwin := subarray_window hV hjk
        have hsucc : integer_sum (j0 + 1) = integer_sum j0 + (j0 + 1) := integer_sum_succ j0
        have hplt : pivotOf s j0 < j0 + 1 := by
          have h := valid_pivot_lt hV hjk
          rw [hfull_j0] at h
          exact h
        have hrhi : r < integer_sum j0 + (j0 + 1) := by omega
        have hn1 : integer_sum j0 + (j0 + 1) ≤ s.data.length := by
          rw [← hfull_j0]
          exact hwin.2.1
        have harr1 : get_array_idx_from_subarray_idx (j0 + 1) -
            get_array_idx_from_subarray_idx j0 = subarrayLen s j0 := by
          rw [arr_eq_sum, arr_eq_sum, hfull_j0, integer_sum_succ]
          omega
        have hsubfold : (s.data.drop (get_array_idx_from_subarray_idx j0)).take
            (get_array_idx_from_subarray_idx (j0 + 1) - get_array_idx_from_subarray_idx j0) =
            subarraySlice s j0 := by
          rw [harr1]
          rfl
        rw [hsubfold]
        have hpivfold : s.min_indexes.getD j0 0 = pivotOf s j0 := rfl
        rw [hpivfold]
        have hslen1 : (subarraySlice s j0).length - 1 = j0 := by
          rw [subarraySlice_length hV hjk, hfull_j0]
          omega
        rw [hslen1, arr_eq_sum j0, arr_eq_sum (j0 + 1)]
        have hprev : some (((subarraySlice s j0).getD (if pivotOf s j0 = 0 then j0 else pivotOf s j0 - 1) 0)) = M.get? (integer_sum (j0 + 1)) := by
          have hmo2 : (if pivotOf s j0 = 0 then j0 else pivotOf s j0 - 1) =
              (pivotOf s j0 + j0) % (j0 + 1) := by
            split
            · rename_i hp0
              rw [hp0, Nat.zero_add, Nat.mod_eq_of_lt (by omega)]
            · rename_i hp0
              have he2 : pivotOf s j0 + j0 = (pivotOf s j0 - 1) + (j0 + 1) := by omega
              rw [he2, Nat.add_mod_right, Nat.mod_eq_of_lt (by omega)]
          have hmlt : (pivotOf s j0 + j0) % (j0 + 1) < j0 + 1 := Nat.mod_lt _ (by omega)
          rw [hmo2, getD_some _ _ (by rw [subarraySlice_length hV hjk, hfull_j0]; omega)]
          rw [subarraySlice_get? hV hjk (by rw [hfull_j0]; exact hmlt)]
          have h1 : s.data.get? (integer_sum j0 +
              (pivotOf s j0 + j0) % subarrayLen s j0) =
              (unrot s j0).get? j0 := (unrot_get? hV hjk (by omega)).symm
          rw [hfull_j0] at h1
          rw [h1, ← toList_get? hV hjk (by rw [hfull_j0]; omega), ← hLdef]
          have h2 := hMhigh (integer_sum (j0 + 1)) (by omega) (by omega)
          rw [h2]
          congr 1
          omega
        by_cases hstep : (if pivotOf s j0 = 0 then j0 else pivotOf s j0 - 1) < pivotOf s j0 ∧
            rawOf s r - integer_sum j0 ≥ pivotOf s j0
        · -- step (a): shift a prefix of the subarray left across the pivot
          rw [if_pos hstep]
          have hp1 : 1 ≤ pivotOf s j0 := by
            rcases Nat.eq_zero_or_pos (pivotOf s j0) with h0 | h1
            · exfalso
              have hx := hstep.1
              rw [if_pos h0, h0] at hx
              omega
            · exact h1
          have hmo : (if pivotOf s j0 = 0 then j0 else pivotOf s j0 - 1) =
              pivotOf s j0 - 1 := if_neg (by omega)
          rw [hmo]
          rw [hmo] at hprev
          obtain ⟨sa1, sa2, sa3⟩ := insert_step_a hV hjk hfull_j0 hjle hrhi hMlow hMr
            hMhigh hp1 hrlt hstep.2
          have hD1get : ∀ q, ((s.data.take (integer_sum j0) ++ ((copy_within (subarraySlice s j0) (pivotOf s j0) (rawOf s r - integer_sum j0) (pivotOf s j0 - 1)).set (rawOf s r - integer_sum j0 - 1) v) ++ s.data.drop (integer_sum (j0 + 1)))).get? q =
              if q < integer_sum j0 then s.data.get? q
              else if q < integer_sum (j0 + 1) then ((copy_within (subarraySlice s j0) (pivotOf s j0) (rawOf s r - integer_sum j0) (pivotOf s j0 - 1)).set (rawOf s r - integer_sum j0 - 1) v).get? (q - integer_sum j0)
              else s.data.get? q := by
            intro q
            exact splice_get? s.data _ _ _ (integer_sum_mono (by omega)) (by omega)
              (by rw [sa1]; omega) q
          have hd1len : ((s.data.take (integer_sum j0) ++ ((copy_within (subarraySlice s j0) (pivotOf s j0) (rawOf s r - integer_sum j0) (pivotOf s j0 - 1)).set (rawOf s r - integer_sum j0 - 1) v) ++ s.data.drop (integer_sum (j0 + 1)))).length = s.data.length := by
            rw [List.length_append, List.length_append, List.length_take,
              List.length_drop, sa1]
            omega
          have hfin1 : ∀ i, i < integer_sum j0 ∨ integer_sum (j0 + 1) ≤ i →
              ((s.data.take (integer_sum j0) ++ ((copy_within (subarraySlice s j0) (pivotOf s j0) (rawOf s r - integer_sum j0) (pivotOf s j0 - 1)).set (rawOf s r - integer_sum j0 - 1) v) ++ s.data.drop (integer_sum (j0 + 1)))).get? i = s.data.get? i := by
            intro i hi
            rw [hD1get]
            rcases hi with hi | hi
            · rw [if_pos hi]
            · rw [if_neg (by omega), if_neg (by omega)]
          have hm1get : ∀ j, j ≠ j0 → ((s.min_indexes.set j0 (pivotOf s j0 - 1))).get? j = s.min_indexes.get? j := by
            intro j hj
            exact List.get?_set_ne _ _ (by omega)
          have hdd1get : ∀ j, j ≠ j0 → ((s.min_data.set j0 (((copy_within (subarraySlice s j0) (pivotOf s j0) (rawOf s r - integer_sum j0) (pivotOf s j0 - 1)).set (rawOf s r - integer_sum j0 - 1) v).getD (pivotOf s j0 - 1) 0))).get? j = s.min_data.get? j := by
            intro j hj
            exact List.get?_set_ne _ _ (by omega)
          have hgetDset : ((s.min_indexes.set j0 (pivotOf s j0 - 1))).getD j0 0 = pivotOf s j0 - 1 := by
            rw [List.getD_eq_get?, List.get?_set_eq_of_lt _ hjk]
            rfl
          have hpj0 : ((s.min_indexes.set j0 (pivotOf s j0 - 1))).getD j0 0 ≤ j0 := by
            rw [hgetDset]
            omega
          have hWj0 : ∀ q, q ≤ j0 → ((s.data.take (integer_sum j0) ++ ((copy_within (subarraySlice s j0) (pivotOf s j0) (rawOf s r - integer_sum j0) (pivotOf s j0 - 1)).set (rawOf s r - integer_sum j0 - 1) v) ++ s.data.drop (integer_sum (j0 + 1)))).get?
              (integer_sum j0 + (((s.min_indexes.set j0 (pivotOf s j0 - 1))).getD j0 0 + q) % (j0 + 1)) =
              M.get? (integer_sum j0 + q) := by
            intro q hq
            rw [hgetDset, hD1get]
            have hmlt : (pivotOf s j0 - 1 + q) % (j0 + 1) < j0 + 1 := Nat.mod_lt _ (by omega)
            rw [if_neg (by omega), if_pos (by omega),
              show integer_sum j0 + (pivotOf s j0 - 1 + q) % (j0 + 1) - integer_sum j0 =
                (pivotOf s j0 - 1 + q) % (j0 + 1) by omega]
            exact sa2 q hq
          have hmdj0 : ((s.min_data.set j0 (((copy_within (subarraySlice s j0) (pivotOf s j0) (rawOf s r - integer_sum j0) (pivotOf s j0 - 1)).set (rawOf s r - integer_sum j0 - 1) v).getD (pivotOf s j0 - 1) 0))).get? j0 = M.get? (integer_sum j0) := by
            rw [List.get?_set_eq_of_lt _ (by rw [valid_md_len hV]; omega)]
            exact sa3
          by_cases hfull : s.data.length = integer_sum s.min_indexes.length
          · have hflag : is_last_subarray_full { data := (s.data.take (integer_sum j0) ++ ((copy_within (subarraySlice s j0) (pivotOf s j0) (rawOf s r - integer_sum j0) (pivotOf s j0 - 1)).set (rawOf s r - integer_sum j0 - 1) v) ++ s.data.drop (integer_sum (j0 + 1))), min_indexes := (s.min_indexes.set j0 (pivotOf s j0 - 1)), min_data := (s.min_data.set j0 (((copy_within (subarraySlice s j0) (pivotOf s j0) (rawOf s r - integer_sum j0) (pivotOf s j0 - 1)).set (rawOf s r - integer_sum j0 - 1) v).getD (pivotOf s j0 - 1) 0)) } = true := by
              show (((s.data.take (integer_sum j0) ++ ((copy_within (subarraySlice s j0) (pivotOf s j0) (rawOf s r - integer_sum j0) (pivotOf s j0 - 1)).set (rawOf s r - integer_sum j0 - 1) v) ++ s.data.drop (integer_sum (j0 + 1)))).length == get_array_idx_from_subarray_idx ((s.min_indexes.set j0 (pivotOf s j0 - 1))).length) = true
              rw [beq_iff_eq, hd1len, List.length_set, arr_eq_sum]
              exact hfull
            rw [hflag, if_pos rfl]
            have hfin := insert_loop_finish_full hV ((s.data.take (integer_sum j0) ++ ((copy_within (subarraySlice s j0) (pivotOf s j0) (rawOf s r - integer_sum j0) (pivotOf s j0 - 1)).set (rawOf s r - integer_sum j0 - 1) v) ++ s.data.drop (integer_sum (j0 + 1)))) ((s.min_indexes.set j0 (pivotOf s j0 - 1))) ((s.min_data.set j0 (((copy_within (subarraySlice s j0) (pivotOf s j0) (rawOf s r - integer_sum j0) (pivotOf s j0 - 1)).set (rawOf s r - integer_sum j0 - 1) v).getD (pivotOf s j0 - 1) 0))) (((subarraySlice s j0).getD (pivotOf s j0 - 1) 0))
              hjk hfull hd1len (by rw [List.length_set])
              (by rw [List.length_set]; exact valid_md_len hV)
              hm1get hdd1get hfin1 hpj0 hWj0 hmdj0 hprev hjle (by omega)
              hMlow hMhigh hMlen hMsorted
            exact ⟨rfl, hfin.1, hfin.2⟩
          · have hj0lt : j0 < s.min_indexes.length - 1 := by
              rcases Nat.lt_or_ge j0 (s.min_indexes.length - 1) with h | h
              · exact h
              · exfalso
                exact hbr1 ⟨by omega, fun hc => by rw [last_full_iff] at hc; omega⟩
            have hflag : is_last_subarray_full { data := (s.data.take (integer_sum j0) ++ ((copy_within (subarraySlice s j0) (pivotOf s j0) (rawOf s r - integer_sum j0) (pivotOf s j0 - 1)).set (rawOf s r - integer_sum j0 - 1) v) ++ s.data.drop (integer_sum (j0 + 1))), min_indexes := (s.min_indexes.set j0 (pivotOf s j0 - 1)), min_data := (s.min_data.set j0 (((copy_within (subarraySlice s j0) (pivotOf s j0) (rawOf s r - integer_sum j0) (pivotOf s j0 - 1)).set (rawOf s r - integer_sum j0 - 1) v).getD (pivotOf s j0 - 1) 0)) } = false := by
              show (((s.data.take (integer_sum j0) ++ ((copy_within (subarraySlice s j0) (pivotOf s j0) (rawOf s r - integer_sum j0) (pivotOf s j0 - 1)).set (rawOf s r - integer_sum j0 - 1) v) ++ s.data.drop (integer_sum (j0 + 1)))).length == get_array_idx_from_subarray_idx ((s.min_indexes.set j0 (pivotOf s j0 - 1))).length) = false
              rw [beq_eq_false_iff_ne, hd1len, List.length_set, arr_eq_sum]
              omega
            rw [hflag, if_neg (by simp)]
            have hfin := insert_loop_finish_partial hV ((s.data.take (integer_sum j0) ++ ((copy_within (subarraySlice s j0) (pivotOf s j0) (rawOf s r - integer_sum j0) (pivotOf s j0 - 1)).set (rawOf s r - integer_sum j0 - 1) v) ++ s.data.drop (integer_sum (j0 + 1)))) ((s.min_indexes.set j0 (pivotOf s j0 - 1))) ((s.min_data.set j0 (((copy_within (subarraySlice s j0) (pivotOf s j0) (rawOf s r - integer_sum j0) (pivotOf s j0 - 1)).set (rawOf s r - integer_sum j0 - 1) v).getD (pivotOf s j0 - 1) 0))) (((subarraySlice s j0).getD (pivotOf s j0 - 1) 0))
              hj0lt (by omega) hd1len (by rw [List.length_set])
              (by rw [List.length_set]; exact valid_md_len hV)
              hm1get hdd1get hfin1 hpj0 hWj0 hmdj0 hprev hjle (by omega)
              hMlow hMhigh hMlen hMsorted
            exact ⟨rfl, hfin.1, hfin.2⟩
        · -- step (b): shift towards the pivot and write in place
          rw [if_neg hstep]
          obtain ⟨sb1, sb2, sb3⟩ := insert_step_b hV hjk hfull_j0 hjle hrhi hMlow hMr
            hMhigh hrlt hstep
          have hD1get : ∀ q, ((s.data.take (integer_sum j0) ++ ((copy_within (subarraySlice s j0) (rawOf s r - integer_sum j0) (if pivotOf s j0 = 0 then j0 else pivotOf s j0 - 1) (rawOf s r - integer_sum j0 + 1)).set (rawOf s r - integer_sum j0) v) ++ s.data.drop (integer_sum (j0 + 1)))).get? q =
              if q < integer_sum j0 then s.data.get? q
              else if q < integer_sum (j0 + 1) then ((copy_within (subarraySlice s j0) (rawOf s r - integer_sum j0) (if pivotOf s j0 = 0 then j0 else pivotOf s j0 - 1) (rawOf s r - integer_sum j0 + 1)).set (rawOf s r - integer_sum j0) v).get? (q - integer_sum j0)
              else s.data.get? q := by
            intro q
            exact splice_get? s.data _ _ _ (integer_sum_mono (by omega)) (by omega)
              (by rw [sb1]; omega) q
          have hd1len : ((s.data.take (integer_sum j0) ++ ((copy_within (subarraySlice s j0) (rawOf s r - integer_sum j0) (if pivotOf s j0 = 0 then j0 else pivotOf s j0 - 1) (rawOf s r - integer_sum j0 + 1)).set (rawOf s r - integer_sum j0) v) ++ s.data.drop (integer_sum (j0 + 1)))).length = s.data.length := by
            rw [List.length_append, List.length_append, List.length_take,
              List.length_drop, sb1]
            omega
          have hfin1 : ∀ i, i < integer_sum j0 ∨ integer_sum (j0 + 1) ≤ i →
              ((s.data.take (integer_sum j0) ++ ((copy_within (subarraySlice s j0) (rawOf s r - integer_sum j0) (if pivotOf s j0 = 0 then j0 else pivotOf s j0 - 1) (rawOf s r - integer_sum j0 + 1)).set (rawOf s r - integer_sum j0) v) ++ s.data.drop (integer_sum (j0 + 1)))).get? i = s.data.get? i := by
            intro i hi
            rw [hD1get]
            rcases hi with hi | hi
            · rw [if_pos hi]
            · rw [if_neg (by omega), if_neg (by omega)]
          have hdd1get : ∀ j, j ≠ j0 → ((if rawOf s r - integer_sum j0 = pivotOf s j0 then s.min_data.set j0 v else s.min_data)).get? j = s.min_data.get? j := by
            intro j hj
            split
            · exact List.get?_set_ne _ _ (by omega)
            · rfl
          have hpj0 : s.min_indexes.getD j0 0 ≤ j0 := by
            have h := valid_pivot_lt hV hjk
            rw [hfull_j0] at h
            exact Nat.lt_succ_iff.mp h
          have hWj0 : ∀ q, q ≤ j0 → ((s.data.take (integer_sum j0) ++ ((copy_within (subarraySlice s j0) (rawOf s r - integer_sum j0) (if pivotOf s j0 = 0 then j0 else pivotOf s j0 - 1) (rawOf s r - integer_sum j0 + 1)).set (rawOf s r - integer_sum j0) v) ++ s.data.drop (integer_sum (j0 + 1)))).get?
              (integer_sum j0 + (s.min_indexes.getD j0 0 + q) % (j0 + 1)) =
              M.get? (integer_sum j0 + q) := by
            intro q hq
            rw [hD1get]
            have hmlt : (s.min_indexes.getD j0 0 + q) % (j0 + 1) < j0 + 1 :=
              Nat.mod_lt _ (by omega)
            rw [if_neg (by omega), if_pos (by omega),
              show integer_sum j0 + (s.min_indexes.getD j0 0 + q) % (j0 + 1) -
                integer_sum j0 = (s.min_indexes.getD j0 0 + q) % (j0 + 1) by omega]
            exact sb2 q hq
          have hdd1len : ((if rawOf s r - integer_sum j0 = pivotOf s j0 then s.min_data.set j0 v else s.min_data)).length = s.min_indexes.length := by
            split
            · rw [List.length_set]
              exact valid_md_len hV
            · exact valid_md_len hV
          by_cases hfull : s.data.length = integer_sum s.min_indexes.length
          · have hflag : is_last_subarray_full { data := (s.data.take (integer_sum j0) ++ ((copy_within (subarraySlice s j0) (rawOf s r - integer_sum j0) (if pivotOf s j0 = 0 then j0 else pivotOf s j0 - 1) (rawOf s r - integer_sum j0 + 1)).set (rawOf s r - integer_sum j0) v) ++ s.data.drop (integer_sum (j0 + 1))), min_indexes := s.min_indexes, min_data := (if rawOf s r - integer_sum j0 = pivotOf s j0 then s.min_data.set j0 v else s.min_data) } = true := by
              show (((s.data.take (integer_sum j0) ++ ((copy_within (subarraySlice s j0) (rawOf s r - integer_sum j0) (if pivotOf s j0 = 0 then j0 else pivotOf s j0 - 1) (rawOf s r - integer_sum j0 + 1)).set (rawOf s r - integer_sum j0) v) ++ s.data.drop (integer_sum (j0 + 1)))).length == get_array_idx_from_subarray_idx
                s.min_indexes.length) = true
              rw [beq_iff_eq, hd1len, arr_eq_sum]
              exact hfull
            rw [hflag, if_pos rfl]
            have hfin := insert_loop_finish_full hV ((s.data.take (integer_sum j0) ++ ((copy_within (subarraySlice s j0) (rawOf s r - integer_sum j0) (if pivotOf s j0 = 0 then j0 else pivotOf s j0 - 1) (rawOf s r - integer_sum j0 + 1)).set (rawOf s r - integer_sum j0) v) ++ s.data.drop (integer_sum (j0 + 1)))) s.min_indexes ((if rawOf s r - integer_sum j0 = pivotOf s j0 then s.min_data.set j0 v else s.min_data)) (((subarraySlice s j0).getD (if pivotOf s j0 = 0 then j0 else pivotOf s j0 - 1) 0))
              hjk hfull hd1len rfl hdd1len (fun _ _ => rfl) hdd1get hfin1 hpj0 hWj0 sb3
              hprev hjle (by omega) hMlow hMhigh hMlen hMsorted
            exact ⟨rfl, hfin.1, hfin.2⟩
          · have hj0lt : j0 < s.min_indexes.length - 1 := by
              rcases Nat.lt_or_ge j0 (s.min_indexes.length - 1) with h | h
              · exact h
              · exfalso
                exact hbr1 ⟨by omega, fun hc => by rw [last_full_iff] at hc; omega⟩
            have hflag : is_last_subarray_full { data := (s.data.take (integer_sum j0) ++ ((copy_within (subarraySlice s j0) (rawOf s r - integer_sum j0) (if pivotOf s j0 = 0 then j0 else pivotOf s j0 - 1) (rawOf s r - integer_sum j0 + 1)).set (rawOf s r - integer_sum j0) v) ++ s.data.drop (integer_sum (j0 + 1))), min_indexes := s.min_indexes, min_data := (if rawOf s r - integer_sum j0 = pivotOf s j0 then s.min_data.set j0 v else s.min_data) } = false := by
              show (((s.data.take (integer_sum j0) ++ ((copy_within (subarraySlice s j0) (rawOf s r - integer_sum j0) (if pivotOf s j0 = 0 then j0 else pivotOf s j0 - 1) (rawOf s r - integer_sum j0 + 1)).set (rawOf s r - integer_sum j0) v) ++ s.data.drop (integer_sum (j0 + 1)))).length == get_array_idx_from_subarray_idx
                s.min_indexes.length) = false
              rw [beq_eq_false_iff_ne, hd1len, arr_eq_sum]
              omega
            rw [hflag, if_neg (by simp)]
            have hfin := insert_loop_finish_partial hV ((s.data.take (integer_sum j0) ++ ((copy_within (subarraySlice s j0) (rawOf s r - integer_sum j0) (if pivotOf s j0 = 0 then j0 else pivotOf s j0 - 1) (rawOf s r - integer_sum j0 + 1)).set (rawOf s r - integer_sum j0) v) ++ s.data.drop (integer_sum (j0 + 1)))) s.min_indexes ((if rawOf s r - integer_sum j0 = pivotOf s j0 then s.min_data.set j0 v else s.min_data)) (((subarraySlice s j0).getD (if pivotOf s j0 = 0 then j0 else pivotOf s j0 - 1) 0))
              hj0lt (by omega) hd1len rfl hdd1len (fun _ _ => rfl) hdd1get hfin1 hpj0 hWj0 sb3
              hprev hjle (by omega) hMlow hMhigh hMlen hMsorted
            exact ⟨rfl, hfin.1, hfin.2⟩
    · -- the value exceeds every element: insertion at the very end
      have hr : r = s.data.length := by omega
      have he : errOf s v = s.data.length := by
        rw [herr, if_pos hr]
      rw [he]
      by_cases hfull : s.data.length = integer_sum s.min_indexes.length
      · -- a fresh singleton subarray is appended
        have hsk1 : 1 ≤ integer_sum s.min_indexes.length := by
          have h1 : integer_sum 1 ≤ integer_sum s.min_indexes.length :=
            integer_sum_mono (by omega)
          have h2 : integer_sum 1 = 1 := rfl
          omega
        have hsj : get_subarray_idx_from_array_idx s.data.length = s.min_indexes.length :=
          get_sub_eq (by omega) (by rw [integer_sum_succ]; omega)
        rw [hsj, if_pos rfl]
        have hc1 : s.min_indexes.length = ({ s with min_indexes := s.min_indexes ++ [0], min_data := s.min_data ++ [(0 : Int)] } : RotatedArraySet).min_indexes.length - 1 := by
          show s.min_indexes.length = (s.min_indexes ++ [0]).length - 1
          rw [List.length_append, show ([0] : List Nat).length = 1 from rfl]
          omega
        have hc2 : ¬ is_last_subarray_full ({ s with min_indexes := s.min_indexes ++ [0], min_data := s.min_data ++ [(0 : Int)] } : RotatedArraySet) = true := by
          rw [last_full_iff]
          show ¬ s.data.length = integer_sum (s.min_indexes ++ [0]).length
          rw [List.length_append, show ([0] : List Nat).length = 1 from rfl,
            integer_sum_succ]
          omega
        rw [if_pos ⟨hc1, hc2⟩]
        have happ := insert_append_spec hV hkne hfull (fun x hx => hMlow x (by omega))
          (by rw [← hr]; exact hMr) hMlen hMsorted
        exact ⟨rfl, happ.1, happ.2⟩
      · -- the final subarray has room: append inside it
        have hnflt : s.data.length < integer_sum s.min_indexes.length := by omega
        have hsj : get_subarray_idx_from_array_idx s.data.length =
            s.min_indexes.length - 1 :=
          get_sub_eq (by omega)
            (by rw [show s.min_indexes.length - 1 + 1 = s.min_indexes.length by omega]; omega)
        rw [hsj, if_neg (show ¬ s.min_indexes.length - 1 = s.min_indexes.length by omega)]
        have hc2 : ¬ is_last_subarray_full s = true := by
          rw [last_full_iff]
          omega
        rw [if_pos (show s.min_indexes.length - 1 = s.min_indexes.length - 1 ∧
          ¬ is_last_subarray_full s = true from ⟨rfl, hc2⟩)]
        have htail := insert_tail_spec hV hkne hnflt (by omega) (Nat.le_refl _)
          (fun x hx => hMlow x (by omega)) (by rw [← hr]; exact hMr)
          (fun x h1 h2 => hMhigh x (by omega) h2) hMlen hMsorted
        exact ⟨rfl, htail.1, htail.2⟩

/-! ### Claim theorems -/

/-- C3: on a valid container, inserting a value that is already present
returns `false` and leaves the container completely unchanged, and removing a
value that is absent returns `false` and leaves the container completely
unchanged. -/
theorem insert_present_remove_absent_noop {s : RotatedArraySet} (hV : Valid s) (v : Int) :
    (v ∈ toList s → insert s v = (false, s)) ∧
    (v ∉ toList s → remove s v = (false, s)) := by
  constructor
  · intro hm
    obtain ⟨i, hi⟩ := List.mem_iff_get?.mp hm
    have hf := find_spec_ok hV hi
    simp only [insert, hf]
  · intro hm
    have hf := find_spec_err hV hm
    simp only [remove, hf]

theorem insert_present_remove_absent_noop_witness :
    insert (fromList [2]) 2 = (false, fromList [2]) ∧
    remove (fromList [2]) 5 = (false, fromList [2]) :=
  ⟨(insert_present_remove_absent_noop (by decide) 2).1 (by decide),
   (insert_present_remove_absent_noop (by decide) 5).2 (by decide)⟩

/-- C4: on a valid container, rank and select are mutually inverse: every
member value `v` has a logical index `i` with `rank` returning `ok i` and
`select i` returning `v`; and every logical index below the element count
selects a value whose rank is exactly that index. -/
theorem rank_select_inverse {s : RotatedArraySet} (hV : Valid s) :
    (∀ v : Int, v ∈ toList s → ∃ i, rank s v = .ok i ∧ select s i = some v) ∧
    (∀ i, i < s.data.length → ∃ v, select s i = some v ∧ rank s v = .ok i) := by
  constructor
  · intro v hm
    obtain ⟨i, hi⟩ := List.mem_iff_get?.mp hm
    have hin : i < s.data.length := by
      have := toList_length hV
      by_contra hge
      rw [List.get?_eq_none.mpr (by omega)] at hi
      exact Option.noConfusion hi
    exact ⟨i, rank_spec_ok hV hi, by rw [select_spec hV hin]; exact hi⟩
  · intro i hin
    have hlen := toList_length hV
    have hi2 : i < (toList s).length := by omega
    refine ⟨(toList s).get ⟨i, hi2⟩, ?_, rank_spec_ok hV (List.get?_eq_get hi2)⟩
    rw [select_spec hV hin]
    exact List.get?_eq_get hi2

theorem rank_select_inverse_witness :
    (∀ v : Int, v ∈ toList (fromList [3, 1]) → ∃ i, rank (fromList [3, 1]) v = .ok i ∧
        select (fromList [3, 1]) i = some v) ∧
      (∀ i, i < (fromList [3, 1]).data.length → ∃ v, select (fromList [3, 1]) i = some v ∧
        rank (fromList [3, 1]) v = .ok i) :=
  rank_select_inverse (by decide)

/-- C7: counterexample to the in-bounds half of the claim.  On the valid
container {0, 1, 2, 3} built by inserting 1, 2, 3 and then 0 (which leaves the
final subarray rotated), `range` with bounds `(Included 2, Unbounded)` yields
`[1, 2, 3]`: it emits `1`, an element strictly below the start bound, because
`get_range` feeds the raw physical indexes produced by `find_raw_index`
directly into the iterator's logical cursors without undoing the rotation.
The panic half of the claim does hold on this input: inverted bounds make
`get_range` fail (modelled as `none`) before constructing an iterator. -/
theorem range_raw_index_bug :
    toList (applyOps [.ins 1, .ins 2, .ins 3, .ins 0]) = [0, 1, 2, 3] ∧
    Valid (applyOps [.ins 1, .ins 2, .ins 3, .ins 0]) ∧
    (rangeIter (applyOps [.ins 1, .ins 2, .ins 3, .ins 0]) (.included 2) .unbounded).map
      Iter.consume = some [1, 2, 3] ∧
    get_range (applyOps [.ins 1, .ins 2, .ins 3, .ins 0]) (.included 5) (.included 3) = none := by
  decide

/-- C10: counterexample.  On the fresh iterator of the container {1, 2, 3}:
`nth_back 3` returns `some 1` although only three elements remain (fewer than
the required four), and after a single `next_back` both `count` and the lower
`size_hint` still report 3 although only the two elements `[1, 2]` remain to
be yielded - `nth_back`, `count` and `size_hint` all ignore the back cursor
`next_rev_index`. -/
theorem iter_back_accounting_bug :
    (Iter.nth_back (iter (fromList [1, 2, 3])) 3).1 = some 1 ∧
    Iter.count ((Iter.next_back (iter (fromList [1, 2, 3]))).2) = 3 ∧
    (Iter.size_hint ((Iter.next_back (iter (fromList [1, 2, 3]))).2)).1 = 3 ∧
    Iter.consume ((Iter.next_back (iter (fromList [1, 2, 3]))).2) = [1, 2] := by
  decide

end RotSet
